import Mathlib

/-!
# Huffman compressor: a shallow embedding of `huffman.hpp` / `huffman.cpp`

Conventions of the embedding.

* A value of the C++ type `char` is an `Int` (the platform has a signed 8-bit `char`,
  as the test `currentChar < 0 || currentChar > 127` of `CountTable` presupposes).
  The content of an input file is the list of `char` values that successive calls of
  `inputFile.get(currentChar)` deliver.
* A value of type `unsigned char` is a `Nat`, reduced modulo `256` where it is computed.
* A `std::string` is a `List Char`.
* A `std::map<K, V>` is an association list in ascending key order (`StdMap`).
* `int` counters are kept without bound in the first definitions of `CountTable`,
  `HuffmanNode` and `HuffmanTree`. The namespace `Wrap` has these definitions once more
  with every addition reduced to the 32 bits of an `int`, as the compiled program computes
  it; the two agree as long as the counts sum to `2^31 - 1` at most
  (`wrap_countTable_exact`, `encodeTableOfQueue_unbounded`). The statements on the
  counting of the bytes, on the monotonicity of the code lengths and on optimality are
  on `Wrap`; the weight invariant, which sets overflow aside, and the statements in which
  the values of the counts play no part are on the definitions without bound.
* A value of type `HuffmanNode*` is `HuffmanNode.null` or a pointer to a node; the data
  member `root`, which has no initialiser, is an `Option`, `none` standing for the
  indeterminate value it has until `buildTree` assigns it.
* `std::priority_queue` is not part of the repository: it is a parameter
  (`PriorityQueue`) constrained by its contract, so that every result holds for every
  way of breaking ties between nodes of equal count.
* Loops that the source does not bound (`encode`) take a fuel argument; `none` means
  that the fuel ran out.
-/

namespace Huffman

/-! ## `std::map` -/

/-- A `std::map<K, V>`, as the list of its entries in ascending key order. -/
abbrev StdMap (K V : Type) := List (K × V)

namespace StdMap

variable {K V : Type} [LinearOrder K]

/-- Lookup of a key: `m.find(k)`, `none` standing for `m.end()`. -/
def find : StdMap K V → K → Option V
  | [], _ => none
  | (k', v) :: m, k => if k = k' then some v else find m k

/-- The member function `m.count(k)`: `1` when the key is present and `0` otherwise. -/
def count (m : StdMap K V) (k : K) : Nat :=
  if (find m k).isSome then 1 else 0

/-- The assignment `m[k] = v`: overwrite the entry of `k`, or insert one in key order. -/
def assign : StdMap K V → K → V → StdMap K V
  | [], k, v => [(k, v)]
  | (k', v') :: m, k, v =>
    if k < k' then (k, v) :: (k', v') :: m
    else if k = k' then (k, v) :: m
    else (k', v') :: assign m k v

/-- The read `m[k]` of a map whose mapped type is value-initialised to `dflt`. A missing
key is inserted with `dflt`, which is also what every later read of that key returns, so
that the insertion is not observable through reads and the map is not threaded. -/
def readOrDefault (dflt : V) (m : StdMap K V) (k : K) : V :=
  (find m k).getD dflt

/-- The keys are strictly ascending: the representation invariant of `std::map`. -/
def Sorted (m : StdMap K V) : Prop :=
  (m.map Prod.fst).Pairwise (· < ·)

instance (m : StdMap K V) : Decidable (Sorted m) :=
  inferInstanceAs (Decidable ((m.map Prod.fst).Pairwise (· < ·)))

end StdMap

/-! ## `CountTable` -/

/-- One iteration of the reading loop of the constructor `CountTable::CountTable`, with the
count kept without bound; `Wrap.countStep` has the increment of an `int`. -/
def countStep (charCounts : StdMap Int Nat) (currentChar : Int) : StdMap Int Nat :=
  if currentChar < 0 ∨ currentChar > 127 then charCounts
  else if StdMap.count charCounts currentChar = 0 then StdMap.assign charCounts currentChar 1
  else StdMap.assign charCounts currentChar (StdMap.readOrDefault 0 charCounts currentChar + 1)

/-- The constructor `CountTable::CountTable`, applied to the content of the file; the
result is the member `charCounts`. -/
def CountTable (input : List Int) : StdMap Int Nat :=
  input.foldl countStep []

/-! ## `HuffmanNode` -/

/-- A value of type `HuffmanNode*`: the null pointer, or a pointer to a node with the
data members `character`, `count`, `leftChild` and `rightChild`. -/
inductive HuffmanNode where
  | null : HuffmanNode
  | node (character : Option Int) (count : Nat) (leftChild rightChild : HuffmanNode) : HuffmanNode
  deriving DecidableEq

/-- What can go wrong while the tree is built and traversed. -/
inductive TreeError where
  /-- The first `runtime_error` of `isLeaf` (right child without left child), and the
  second (left child without right child). -/
  | notFullBinary : TreeError
  /-- The `runtime_error` of `getCharacter`: the node has no character. -/
  | noCharacter : TreeError
  /-- A null pointer is dereferenced. -/
  | nullDereference : TreeError
  /-- The member `root` is read while it is still indeterminate. -/
  | indeterminateRoot : TreeError
  deriving DecidableEq

deriving instance DecidableEq for Except

namespace HuffmanNode

/-- The constructor `HuffmanNode(char character, int count)` behind `new`. -/
def leaf (character : Int) (count : Nat) : HuffmanNode :=
  node (some character) count null null

/-- The constructor `HuffmanNode(int count, HuffmanNode* leftChild, HuffmanNode* rightChild)`
behind `new`. -/
def internal (count : Nat) (leftChild rightChild : HuffmanNode) : HuffmanNode :=
  node none count leftChild rightChild

/-- The member function `getCharacter`. -/
def getCharacter : HuffmanNode → Except TreeError Int
  | null => .error .nullDereference
  | node (some c) _ _ _ => .ok c
  | node none _ _ _ => .error .noCharacter

/-- The member function `getCount`. It is only applied to nodes that `new` returned; on the
null pointer, where the source has no defined behaviour, the value is `0`. -/
def getCount : HuffmanNode → Nat
  | null => 0
  | node _ count _ _ => count

/-- The member function `isLeaf`. -/
def isLeaf : HuffmanNode → Except TreeError Bool
  | null => .error .nullDereference
  | node _ _ null null => .ok true
  | node _ _ null (node _ _ _ _) => .error .notFullBinary
  | node _ _ (node _ _ _ _) null => .error .notFullBinary
  | node _ _ (node _ _ _ _) (node _ _ _ _) => .ok false

end HuffmanNode

/-- The call operator of `HuffmanNodeComparator`. -/
def HuffmanNodeComparator (node1 node2 : HuffmanNode) : Bool :=
  decide (node1.getCount > node2.getCount)

/-! ## `std::priority_queue` -/

/-- The contract of `std::priority_queue<HuffmanNode*, std::vector<HuffmanNode*>,
HuffmanNodeComparator>`: a container of nodes whose `top` is an element that the
comparator puts before no other element, that is, an element of least count. Which
element of least count it is, is left to the implementation. -/
structure PriorityQueue where
  /-- The states of the container. -/
  Q : Type
  /-- The default-constructed queue. -/
  empty : Q
  /-- The elements held, in some order. -/
  elems : Q → List HuffmanNode
  /-- The member function `push`. -/
  push : Q → HuffmanNode → Q
  /-- The member function `top`. -/
  top : Q → HuffmanNode
  /-- The member function `pop`. -/
  pop : Q → Q
  elems_empty : elems empty = []
  elems_push : ∀ q n, (elems (push q n)).Perm (n :: elems q)
  top_pop : ∀ q, elems q ≠ [] → (top q :: elems (pop q)).Perm (elems q)
  top_least : ∀ q n, n ∈ elems q → HuffmanNodeComparator (top q) n = false

namespace PriorityQueue

/-- The member function `size`. -/
def size (pq : PriorityQueue) (q : pq.Q) : Nat :=
  (pq.elems q).length

end PriorityQueue

/-- The first element of least count of a list of nodes. -/
def firstLeast : List HuffmanNode → HuffmanNode
  | [] => .null
  | [n] => n
  | n :: m :: rest =>
    let best := firstLeast (m :: rest)
    if HuffmanNodeComparator n best then best else n

/-! ## `HuffmanTree` -/

/-- The loop of `HuffmanTree::buildTree`, on the members `nodeQueue` and `root`. Every
iteration shortens the queue by one node, so that a fuel of the size of the queue is
enough (`buildTreeLoop_spec`). The sum of the two counts is kept without bound;
`Wrap.buildTreeLoop` has the sum of two values of type `int`. -/
def buildTreeLoop (pq : PriorityQueue) :
    Nat → pq.Q → Option HuffmanNode → Option (pq.Q × Option HuffmanNode)
  | fuel, nodeQueue, root =>
    if pq.size nodeQueue ≥ 2 then
      match fuel with
      | 0 => none
      | fuel + 1 =>
        let smallestFirst := pq.top nodeQueue
        let nodeQueue1 := pq.pop nodeQueue
        let smallestSecond := pq.top nodeQueue1
        let nodeQueue2 := pq.pop nodeQueue1
        let newRoot := HuffmanNode.internal
          (smallestFirst.getCount + smallestSecond.getCount) smallestFirst smallestSecond
        buildTreeLoop pq fuel (pq.push nodeQueue2 newRoot) (some newRoot)
    else some (nodeQueue, root)

/-- The member function `HuffmanTree::buildTree`. -/
def buildTree (pq : PriorityQueue) (nodeQueue : pq.Q) (root : Option HuffmanNode) :
    Option (pq.Q × Option HuffmanNode) :=
  buildTreeLoop pq (pq.size nodeQueue) nodeQueue root

/-- The member function `HuffmanTree::preorderEncode`, on the member `encodeTable`. -/
def preorderEncode :
    HuffmanNode → List Char → StdMap Int (List Char) → Except TreeError (StdMap Int (List Char))
  | .null, _, _ => .error .nullDereference
  | .node character count leftChild rightChild, accumulator, encodeTable =>
    match (HuffmanNode.node character count leftChild rightChild).isLeaf with
    | .error e => .error e
    | .ok true =>
      match (HuffmanNode.node character count leftChild rightChild).getCharacter with
      | .error e => .error e
      | .ok c => .ok (StdMap.assign encodeTable c accumulator)
    | .ok false =>
      match preorderEncode leftChild (accumulator ++ ['0']) encodeTable with
      | .error e => .error e
      | .ok encodeTable1 => preorderEncode rightChild (accumulator ++ ['1']) encodeTable1

/-- The first loop of the constructor `HuffmanTree::HuffmanTree`: one leaf per entry of
the count table, pushed in key order. -/
def populateQueue (pq : PriorityQueue) (counts : StdMap Int Nat) : pq.Q :=
  counts.foldl (fun nodeQueue entry => pq.push nodeQueue (HuffmanNode.leaf entry.1 entry.2)) pq.empty

/-- What `buildTree` followed by `preorderEncode(root, "")` leaves in the member
`encodeTable`, from the state in which the first loop of the constructor left
`nodeQueue`. -/
def encodeTableOfQueue (pq : PriorityQueue) (nodeQueue : pq.Q) :
    Except TreeError (StdMap Int (List Char)) :=
  match buildTree pq nodeQueue none with
  | none => .error .indeterminateRoot
  | some (_, none) => .error .indeterminateRoot
  | some (_, some root) => preorderEncode root [] []

/-- The constructor `HuffmanTree::HuffmanTree` without the serialisation of the decode
table; the result is the member `encodeTable`, as `getEncodeTable` returns it. -/
def HuffmanTree (pq : PriorityQueue) (input : List Int) :
    Except TreeError (StdMap Int (List Char)) :=
  encodeTableOfQueue pq (populateQueue pq (CountTable input))

/-- The member function `HuffmanTree::getDecodeTable`. -/
def getDecodeTable (encodeTable : StdMap Int (List Char)) : StdMap (List Char) Int :=
  encodeTable.foldl (fun decodeTable entry => StdMap.assign decodeTable entry.2 entry.1) []

/-! ## `encode` -/

/-- The code that `encodeTable[currentChar]` yields in `encode`: the entry of the
character, or the empty string that `operator[]` inserts for a character without entry. -/
def codeOf (encodeTable : StdMap Int (List Char)) (currentChar : Int) : List Char :=
  StdMap.readOrDefault [] encodeTable currentChar

/-- The inner loop `while(buffer.size() < 8)` of `encode`, on the rest of the input, the
variable `currentChar` and the buffer. At the end of the input `inputFile.get` fails and
leaves `currentChar` as it is. -/
def fillBuffer (encodeTable : StdMap Int (List Char)) :
    Nat → List Int → Int → List Char → Option (List Int × Int × List Char)
  | fuel, input, currentChar, buffer =>
    if buffer.length < 8 then
      match fuel with
      | 0 => none
      | fuel + 1 =>
        match input with
        | [] => fillBuffer encodeTable fuel [] currentChar (buffer ++ codeOf encodeTable currentChar)
        | c :: rest => fillBuffer encodeTable fuel rest c (buffer ++ codeOf encodeTable c)
    else some (input, currentChar, buffer)

/-- The byte that `encode` computes from the first eight characters of the buffer. -/
def byteToFlush (buffer : List Char) : Nat :=
  (List.range 8).foldl
    (fun byte i => if buffer[i]? = some '1' then (byte + 2 ^ (7 - i)) % 256 else byte) 0

/-- The outer loop `while(inputFile.get(currentChar))` of `encode`, on the rest of the input
and the buffer; the result is what the loop writes to the output file. -/
def encodeLoop (encodeTable : StdMap Int (List Char)) :
    Nat → List Int → List Char → Option (List Nat)
  | _, [], _ => some []
  | 0, _ :: _, _ => none
  | fuel + 1, currentChar :: rest, buffer =>
    match fillBuffer encodeTable fuel rest currentChar (buffer ++ codeOf encodeTable currentChar) with
    | none => none
    | some (rest1, _, buffer1) =>
      match encodeLoop encodeTable fuel rest1 (buffer1.drop 8) with
      | none => none
      | some output => some (byteToFlush buffer1 :: output)

/-- The function `encode`: the bytes written to the output file, or `none` when the fuel
does not suffice. -/
def encode (fuel : Nat) (input : List Int) (encodeTable : StdMap Int (List Char)) :
    Option (List Nat) :=
  encodeLoop encodeTable fuel input []

/-! ## `decode` -/

/-- The `char` that `inputFile.get` stores for a byte of the file. -/
def charOfByte (byte : Nat) : Int :=
  if byte % 256 < 128 then (byte % 256 : Nat) else (byte % 256 : Nat) - 256

/-- The string `byte` that `decode` computes from `currentChar`: bit `i` of the character
is `(currentChar >> i) & 0x01`, an arithmetic shift followed by the remainder modulo two,
and the eight characters are reversed. -/
def expandByte (currentChar : Int) : List Char :=
  ((List.range 8).map (fun i => if (currentChar >>> i) % 2 ≠ 0 then '1' else '0')).reverse

/-- The loop `for(int i = 0; i < buffer.size(); i++)` of `decode`, on what is left of the
buffer, `frame` and `matchlen`; the result is what the loop writes to the output file and
the final value of `matchlen`. -/
def matchLoop (decodeTable : StdMap (List Char) Int) :
    List Char → List Char → Nat → List Int × Nat
  | [], _, matchlen => ([], matchlen)
  | bit :: rest, frame, matchlen =>
    if StdMap.count decodeTable (frame ++ [bit]) > 0 then
      let decodedChar := StdMap.readOrDefault 0 decodeTable (frame ++ [bit])
      let result := matchLoop decodeTable rest [] (matchlen + (frame ++ [bit]).length)
      (decodedChar :: result.1, result.2)
    else matchLoop decodeTable rest (frame ++ [bit]) matchlen

/-- The loop `while(inputFile.get(currentChar))` of `decode`, on the rest of the input and
the buffer; the result is what the loop writes to the output file. -/
def decodeLoop (decodeTable : StdMap (List Char) Int) : List Int → List Char → List Int
  | [], _ => []
  | currentChar :: rest, buffer =>
    let buffer1 := buffer ++ expandByte currentChar
    let result := matchLoop decodeTable buffer1 [] 0
    result.1 ++ decodeLoop decodeTable rest (buffer1.drop result.2)

/-- The function `decode`: the characters written to the output file. -/
def decode (input : List Int) (decodeTable : StdMap (List Char) Int) : List Int :=
  decodeLoop decodeTable input []

/-! ## A priority queue -/

/-- The queue that keeps its nodes in a list and takes as `top` the first node of least
count: one implementation of the contract `PriorityQueue`. -/
def listQueue : PriorityQueue where
  Q := List HuffmanNode
  empty := []
  elems := fun q => q
  push := fun q n => q ++ [n]
  top := firstLeast
  pop := fun q => q.erase (firstLeast q)
  elems_empty := rfl
  elems_push := fun q n => List.perm_append_singleton n q
  top_pop := by
    intro q hq
    have hmem : ∀ l : List HuffmanNode, l ≠ [] → firstLeast l ∈ l := by
      intro l
      induction l with
      | nil => intro h; exact absurd rfl h
      | cons a t ih =>
        intro _
        cases t with
        | nil => simp [firstLeast]
        | cons b r =>
          have := ih (by simp)
          simp only [firstLeast]
          split
          · exact List.mem_cons_of_mem _ this
          · exact List.mem_cons_self _ _
    exact (List.perm_cons_erase (hmem q hq)).symm
  top_least := by
    intro q
    induction q with
    | nil => intro n h; simp at h
    | cons a t ih =>
      intro n hn
      cases t with
      | nil =>
        simp at hn
        subst hn
        simp [firstLeast, HuffmanNodeComparator]
      | cons b r =>
        simp only [firstLeast]
        rcases List.mem_cons.mp hn with h | h
        · subst h
          split
          · rename_i hc
            simp only [HuffmanNodeComparator, decide_eq_true_eq, decide_eq_false_iff_not] at hc ⊢
            omega
          · simp [HuffmanNodeComparator]
        · have := ih n h
          split
          · exact this
          · rename_i hc
            simp only [HuffmanNodeComparator, decide_eq_true_eq, decide_eq_false_iff_not,
              Bool.not_eq_true] at hc this ⊢
            omega

/-! ## Notions of the specification -/

/-- The characters that the specification supports: the byte values `0` to `127`. -/
def inRange (c : Int) : Bool := decide (0 ≤ c ∧ c ≤ 127)

/-- The nodes that the two constructors of `HuffmanNode` build from each other: the trees,
in which every node has no child or two. -/
inductive IsTree : HuffmanNode → Prop
  | leaf (c : Int) (n : Nat) : IsTree (HuffmanNode.leaf c n)
  | internal (n : Nat) (l r : HuffmanNode) :
      IsTree l → IsTree r → IsTree (HuffmanNode.internal n l r)

/-- The leaves below a node, from left to right: character and count. -/
def leaves : HuffmanNode → List (Int × Nat)
  | .null => []
  | .node (some c) n _ _ => [(c, n)]
  | .node none _ l r => leaves l ++ leaves r

/-- The leaves below a node, from left to right: character and path from the node, written
after `accumulator` with `0` for a left branch and `1` for a right branch. -/
def codes : HuffmanNode → List Char → List (Int × List Char)
  | .null, _ => []
  | .node (some c) _ _ _, accumulator => [(c, accumulator)]
  | .node none _ l r, accumulator =>
    codes l (accumulator ++ ['0']) ++ codes r (accumulator ++ ['1'])

/-- No code of one character is a prefix of the code of a different character. -/
def PrefixFree (encodeTable : StdMap Int (List Char)) : Prop :=
  ∀ e1 ∈ encodeTable, ∀ e2 ∈ encodeTable, e1.1 ≠ e2.1 → ¬ e1.2 <+: e2.2

/-- The next state of the queue of `listQueue` in `buildTree`: the two nodes of least count
are replaced with the internal node above them. -/
def mergeStep (l : List HuffmanNode) : List HuffmanNode :=
  let smallestFirst := listQueue.top l
  let nodeQueue1 := listQueue.pop l
  let smallestSecond := listQueue.top nodeQueue1
  let nodeQueue2 := listQueue.pop nodeQueue1
  listQueue.push nodeQueue2 (HuffmanNode.internal
    (smallestFirst.getCount + smallestSecond.getCount) smallestFirst smallestSecond)

/-- No iteration of `buildTree` meets two nodes of the same count in the queue: the order
in which `top` delivers the nodes is then the same for every priority queue. -/
def noTies : Nat → List HuffmanNode → Bool
  | 0, _ => true
  | fuel + 1, l =>
    if l.length ≥ 2 then
      decide (l.map HuffmanNode.getCount).Nodup && noTies fuel (mergeStep l)
    else true

/-- The matching of `decode` on a string of bits, without the bookkeeping of `matchlen`:
the characters that are written and the frame that is left unmatched. -/
def scan (decodeTable : StdMap (List Char) Int) : List Char → List Char → List Int × List Char
  | [], frame => ([], frame)
  | bit :: rest, frame =>
    match StdMap.find decodeTable (frame ++ [bit]) with
    | some decodedChar =>
      let result := scan decodeTable rest []
      (decodedChar :: result.1, result.2)
    | none => scan decodeTable rest (frame ++ [bit])

/-- No non-empty prefix of the string is a key of the table. -/
def NoKeyPrefix (decodeTable : StdMap (List Char) Int) (bits : List Char) : Prop :=
  ∀ p, p ≠ [] → p <+: bits → StdMap.find decodeTable p = none

/-- The eight bits of a byte, most significant bit first, as characters `0` and `1`. -/
def msbBits (byte : Nat) : List Char :=
  (List.range 8).map (fun i => if (byte / 2 ^ (7 - i)) % 2 = 1 then '1' else '0')

/-- The number that the first eight characters of a string denote, read as bits with the
most significant bit first: a character `1` is a bit one, any other character a bit zero. -/
def msbValue (bits : List Char) : Nat :=
  (bits.take 8).foldl (fun value bit => 2 * value + (if bit = '1' then 1 else 0)) 0

/-- The packing of a string of bits into bytes, eight bits each, most significant bit
first: byte `k` holds the bits `8k .. 8k+7`, and a tail of fewer than eight bits is left
out. -/
def packBits (bits : List Char) : List Nat :=
  (List.range (bits.length / 8)).map (fun k => msbValue (bits.drop (8 * k)))

/-- An input of 232 bytes over ten characters `a` to `j`, with the counts 1, 2, 4, 5, 8, 13,
21, 34, 55 and 89, which leave no tie in `buildTree`; it ends with `b,b,a`, the two
characters whose codes have nine bits. -/
def longCodeInput : List Int :=
  List.replicate 89 106 ++ List.replicate 55 105 ++ List.replicate 34 104 ++
  List.replicate 21 103 ++ List.replicate 13 102 ++ List.replicate 8 101 ++
  List.replicate 5 100 ++ List.replicate 4 99 ++ [98, 98, 97]

/-- The encode table of `longCodeInput`. -/
def longCodeTable : StdMap Int (List Char) :=
  [(97, ['1', '1', '1', '1', '1', '1', '1', '0', '0']),
   (98, ['1', '1', '1', '1', '1', '1', '1', '0', '1']),
   (99, ['1', '1', '1', '1', '1', '1', '1', '1']),
   (100, ['1', '1', '1', '1', '1', '1', '0']),
   (101, ['1', '1', '1', '1', '1', '0']),
   (102, ['1', '1', '1', '1', '0']),
   (103, ['1', '1', '1', '0']),
   (104, ['1', '1', '0']),
   (105, ['1', '0']),
   (106, ['0'])]

/-! ## Notions of the tree invariants, the storage and the cost -/

/-- Every node below the pointer, the node itself included, has no child or two children:
the pointer is not null and no node has exactly one child. -/
def FullBinary : HuffmanNode → Prop
  | .null => False
  | .node _ _ .null .null => True
  | .node _ _ .null (.node _ _ _ _) => False
  | .node _ _ (.node _ _ _ _) .null => False
  | .node _ _ (.node c1 n1 l1 r1) (.node c2 n2 l2 r2) =>
    FullBinary (.node c1 n1 l1 r1) ∧ FullBinary (.node c2 n2 l2 r2)

/-- The sum of the counts of the leaves below a node. -/
def leafSum (t : HuffmanNode) : Nat :=
  ((leaves t).map Prod.snd).sum

/-- The count of every internal node is the sum of the counts of its two children. -/
def WeightOK : HuffmanNode → Prop
  | .null => True
  | .node (some _) _ _ _ => True
  | .node none n l r => n = l.getCount + r.getCount ∧ WeightOK l ∧ WeightOK r

/-- The count of every internal node is the sum of the counts of the leaves below it. -/
def LeafSums : HuffmanNode → Prop
  | .null => True
  | .node (some _) _ _ _ => True
  | .node none n l r => n = leafSum l + leafSum r ∧ LeafSums l ∧ LeafSums r

/-- The number of iterations of the outer loop `while(inputFile.get(currentChar))` of
`encode`, on the rest of the input and the buffer: the loop `encodeLoop` with a counter in
the place of the output. -/
def outerIterations (encodeTable : StdMap Int (List Char)) :
    Nat → List Int → List Char → Option Nat
  | _, [], _ => some 0
  | 0, _ :: _, _ => none
  | fuel + 1, currentChar :: rest, buffer =>
    match fillBuffer encodeTable fuel rest currentChar (buffer ++ codeOf encodeTable currentChar) with
    | none => none
    | some (rest1, _, buffer1) =>
      match outerIterations encodeTable fuel rest1 (buffer1.drop 8) with
      | none => none
      | some iterations => some (iterations + 1)

/-- Modelled from the spec: the persisted form of a decode table. The functions
`serializeDecodeTable` and `deserializeDecodeTable` hand the table to the XML archive of
the cereal library, which is not part of the repository; after the specification the
storage is a structured key-value form in which each record maps a bit-string to a single
byte value. The textual form of a record is not modelled. -/
abbrev DecodeTableStorage := List (List Char × Int)

/-- Modelled from the spec: `HuffmanTree::serializeDecodeTable` writes one record for each
entry of the table, in the order in which the map is traversed. -/
def serializeDecodeTable (decodeTable : StdMap (List Char) Int) : DecodeTableStorage :=
  decodeTable

/-- Modelled from the spec: `deserializeDecodeTable` reads the records and enters each of
them into the map, which `decompress` passes empty. -/
def deserializeDecodeTable (storage : DecodeTableStorage) : StdMap (List Char) Int :=
  storage.foldl (fun decodeTable record => StdMap.assign decodeTable record.1 record.2) []

/-- The weighted code length of a table for a frequency table: the sum over the bytes of
the frequency table of the count of the byte times the length of its code. -/
def weightedLength (counts : StdMap Int Nat) (encodeTable : StdMap Int (List Char)) : Nat :=
  (counts.map (fun e => e.2 * (codeOf encodeTable e.1).length)).sum

/-- The cost of a tree: the sum over its internal nodes of the counts of the two
children, which is the sum over its leaves of the count times the depth when the counts
add up. -/
def treeCost : HuffmanNode → Nat
  | .null => 0
  | .node (some _) _ _ _ => 0
  | .node none _ l r => treeCost l + treeCost r + l.getCount + r.getCount

/-- The sum over the leaves below a node of the count times the depth, the node itself
being at depth `d`. -/
def pathCost : HuffmanNode → Nat → Nat
  | .null, _ => 0
  | .node (some _) n _ _, d => n * d
  | .node none _ l r, d => pathCost l (d + 1) + pathCost r (d + 1)

/-- The sum of Kraft for code lengths of at most `H` bits, scaled by `2 ^ H`. -/
def kraftSum (H : Nat) (lengths : Multiset Nat) : Nat :=
  (lengths.map (fun l => 2 ^ (H - l))).sum

/-- The inequality of Kraft for lengths of at most `H` bits: the lengths are those of a
prefix-free binary code. -/
def KraftAt (H : Nat) (lengths : Multiset Nat) : Prop :=
  (∀ l ∈ lengths, l ≤ H) ∧ kraftSum H lengths ≤ 2 ^ H

/-- The cost of an assignment of lengths to weights, given as pairs of a weight and a
length: the sum of the products. -/
def pairCost (pairs : Multiset (Nat × Nat)) : Nat :=
  (pairs.map (fun p => p.1 * p.2)).sum

/-- The rests of the codes of a list that begin with the bit `bit`. -/
def tailsAfter (bit : Char) (cs : List (List Char)) : List (List Char) :=
  cs.filterMap (fun c =>
    match c with
    | [] => none
    | b :: t => if b = bit then some t else none)

/-! ## Notions of the code lengths -/

/-- A frequency table of `n` entries, with the keys `0 .. n-1` and the counts
`1, 2, 4, ..`: every count exceeds the sum of the counts before it. -/
def skewedCounts (n : Nat) : StdMap Int Nat :=
  (List.range n).map (fun i : Nat => ((i : Int), 2 ^ i))

/-- Every count of the list exceeds `sum` plus the counts before it. -/
def SuperIncreasing : Nat → List (Int × Nat) → Prop
  | _, [] => True
  | sum, e :: rest => sum < e.2 ∧ SuperIncreasing (sum + e.2) rest

/-- Some leaf of the tree lies `depth` branches below its root: whatever the accumulator
is, one of the paths of `codes` has `depth` characters more. -/
def HasLeafAt (t : HuffmanNode) (depth : Nat) : Prop :=
  ∀ accumulator : List Char, ∃ e ∈ codes t accumulator, e.2.length = accumulator.length + depth

/-! ## The counts as 32-bit `int`

The definitions above keep the counts without bound. The data member `count`, the mapped
type of `charCounts` and the sum in `buildTree` have the type `int`; the definitions of
this section are those of `CountTable`, `HuffmanNode` and `HuffmanTree` once more, with
every addition reduced to the 32 bits of an `int`. -/

namespace Wrap

/-- The value that an `int` of 32 bits holds after an addition whose exact result is `x`:
the representative of `x` modulo `2^32` in `-2^31 .. 2^31 - 1`. -/
def wrapInt (x : Int) : Int :=
  (x + 2147483648) % 4294967296 - 2147483648

/-- One iteration of the reading loop of the constructor `CountTable::CountTable`. -/
def countStep (charCounts : StdMap Int Int) (currentChar : Int) : StdMap Int Int :=
  if currentChar < 0 ∨ currentChar > 127 then charCounts
  else if StdMap.count charCounts currentChar = 0 then StdMap.assign charCounts currentChar 1
  else StdMap.assign charCounts currentChar
    (wrapInt (StdMap.readOrDefault 0 charCounts currentChar + 1))

/-- The constructor `CountTable::CountTable`, applied to the content of the file; the
result is the member `charCounts`. -/
def CountTable (input : List Int) : StdMap Int Int :=
  input.foldl countStep []

/-- A value of type `HuffmanNode*`: the null pointer, or a pointer to a node with the
data members `character`, `count`, `leftChild` and `rightChild`. -/
inductive HuffmanNode where
  | null : HuffmanNode
  | node (character : Option Int) (count : Int) (leftChild rightChild : HuffmanNode) : HuffmanNode
  deriving DecidableEq

namespace HuffmanNode

/-- The constructor `HuffmanNode(char character, int count)` behind `new`. -/
def leaf (character : Int) (count : Int) : HuffmanNode :=
  node (some character) count null null

/-- The constructor `HuffmanNode(int count, HuffmanNode* leftChild, HuffmanNode* rightChild)`
behind `new`. -/
def internal (count : Int) (leftChild rightChild : HuffmanNode) : HuffmanNode :=
  node none count leftChild rightChild

/-- The member function `getCharacter`. -/
def getCharacter : HuffmanNode → Except TreeError Int
  | null => .error .nullDereference
  | node (some c) _ _ _ => .ok c
  | node none _ _ _ => .error .noCharacter

/-- The member function `getCount`. It is only applied to nodes that `new` returned; on the
null pointer, where the source has no defined behaviour, the value is `0`. -/
def getCount : HuffmanNode → Int
  | null => 0
  | node _ count _ _ => count

/-- The member function `isLeaf`. -/
def isLeaf : HuffmanNode → Except TreeError Bool
  | null => .error .nullDereference
  | node _ _ null null => .ok true
  | node _ _ null (node _ _ _ _) => .error .notFullBinary
  | node _ _ (node _ _ _ _) null => .error .notFullBinary
  | node _ _ (node _ _ _ _) (node _ _ _ _) => .ok false

end HuffmanNode

/-- The call operator of `HuffmanNodeComparator`. -/
def HuffmanNodeComparator (node1 node2 : HuffmanNode) : Bool :=
  decide (node1.getCount > node2.getCount)

/-- The contract of `std::priority_queue<HuffmanNode*, std::vector<HuffmanNode*>,
HuffmanNodeComparator>`: a container of nodes whose `top` is an element that the
comparator puts before no other element, that is, an element of least count. Which
element of least count it is, is left to the implementation. -/
structure PriorityQueue where
  /-- The states of the container. -/
  Q : Type
  /-- The default-constructed queue. -/
  empty : Q
  /-- The elements held, in some order. -/
  elems : Q → List HuffmanNode
  /-- The member function `push`. -/
  push : Q → HuffmanNode → Q
  /-- The member function `top`. -/
  top : Q → HuffmanNode
  /-- The member function `pop`. -/
  pop : Q → Q
  elems_empty : elems empty = []
  elems_push : ∀ q n, (elems (push q n)).Perm (n :: elems q)
  top_pop : ∀ q, elems q ≠ [] → (top q :: elems (pop q)).Perm (elems q)
  top_least : ∀ q n, n ∈ elems q → HuffmanNodeComparator (top q) n = false

namespace PriorityQueue

/-- The member function `size`. -/
def size (pq : PriorityQueue) (q : pq.Q) : Nat :=
  (pq.elems q).length

end PriorityQueue

/-- The loop of `HuffmanTree::buildTree`, on the members `nodeQueue` and `root`: the count
of the new node is the sum of two values of type `int`. -/
def buildTreeLoop (pq : PriorityQueue) :
    Nat → pq.Q → Option HuffmanNode → Option (pq.Q × Option HuffmanNode)
  | fuel, nodeQueue, root =>
    if pq.size nodeQueue ≥ 2 then
      match fuel with
      | 0 => none
      | fuel + 1 =>
        let smallestFirst := pq.top nodeQueue
        let nodeQueue1 := pq.pop nodeQueue
        let smallestSecond := pq.top nodeQueue1
        let nodeQueue2 := pq.pop nodeQueue1
        let newRoot := HuffmanNode.internal
          (wrapInt (smallestFirst.getCount + smallestSecond.getCount))
          smallestFirst smallestSecond
        buildTreeLoop pq fuel (pq.push nodeQueue2 newRoot) (some newRoot)
    else some (nodeQueue, root)

/-- The member function `HuffmanTree::buildTree`. -/
def buildTree (pq : PriorityQueue) (nodeQueue : pq.Q) (root : Option HuffmanNode) :
    Option (pq.Q × Option HuffmanNode) :=
  buildTreeLoop pq (pq.size nodeQueue) nodeQueue root

/-- The member function `HuffmanTree::preorderEncode`, on the member `encodeTable`. -/
def preorderEncode :
    HuffmanNode → List Char → StdMap Int (List Char) → Except TreeError (StdMap Int (List Char))
  | .null, _, _ => .error .nullDereference
  | .node character count leftChild rightChild, accumulator, encodeTable =>
    match (HuffmanNode.node character count leftChild rightChild).isLeaf with
    | .error e => .error e
    | .ok true =>
      match (HuffmanNode.node character count leftChild rightChild).getCharacter with
      | .error e => .error e
      | .ok c => .ok (StdMap.assign encodeTable c accumulator)
    | .ok false =>
      match preorderEncode leftChild (accumulator ++ ['0']) encodeTable with
      | .error e => .error e
      | .ok encodeTable1 => preorderEncode rightChild (accumulator ++ ['1']) encodeTable1

/-- The first loop of the constructor `HuffmanTree::HuffmanTree`: one leaf per entry of
the count table, pushed in key order. -/
def populateQueue (pq : PriorityQueue) (counts : StdMap Int Int) : pq.Q :=
  counts.foldl (fun nodeQueue entry => pq.push nodeQueue (HuffmanNode.leaf entry.1 entry.2)) pq.empty

/-- What `buildTree` followed by `preorderEncode(root, "")` leaves in the member
`encodeTable`, from the state in which the first loop of the constructor left
`nodeQueue`. -/
def encodeTableOfQueue (pq : PriorityQueue) (nodeQueue : pq.Q) :
    Except TreeError (StdMap Int (List Char)) :=
  match buildTree pq nodeQueue none with
  | none => .error .indeterminateRoot
  | some (_, none) => .error .indeterminateRoot
  | some (_, some root) => preorderEncode root [] []

/-- The constructor `HuffmanTree::HuffmanTree` without the serialisation of the decode
table; the result is the member `encodeTable`, as `getEncodeTable` returns it. -/
def HuffmanTree (pq : PriorityQueue) (input : List Int) :
    Except TreeError (StdMap Int (List Char)) :=
  encodeTableOfQueue pq (populateQueue pq (CountTable input))

/-- The first element of least count of a list of nodes. -/
def firstLeast : List HuffmanNode → HuffmanNode
  | [] => .null
  | [n] => n
  | n :: m :: rest =>
    let best := firstLeast (m :: rest)
    if HuffmanNodeComparator n best then best else n

/-- The queue that keeps its nodes in a list and takes as `top` the first node of least
count: one implementation of the contract `PriorityQueue`. -/
def listQueue : PriorityQueue where
  Q := List HuffmanNode
  empty := []
  elems := fun q => q
  push := fun q n => q ++ [n]
  top := firstLeast
  pop := fun q => q.erase (firstLeast q)
  elems_empty := rfl
  elems_push := fun q n => List.perm_append_singleton n q
  top_pop := by
    intro q hq
    have hmem : ∀ l : List HuffmanNode, l ≠ [] → firstLeast l ∈ l := by
      intro l
      induction l with
      | nil => intro h; exact absurd rfl h
      | cons a t ih =>
        intro _
        cases t with
        | nil => simp [firstLeast]
        | cons b r =>
          have := ih (by simp)
          simp only [firstLeast]
          split
          · exact List.mem_cons_of_mem _ this
          · exact List.mem_cons_self _ _
    exact (List.perm_cons_erase (hmem q hq)).symm
  top_least := by
    intro q
    induction q with
    | nil => intro n h; simp at h
    | cons a t ih =>
      intro n hn
      cases t with
      | nil =>
        simp at hn
        subst hn
        simp [firstLeast, HuffmanNodeComparator]
      | cons b r =>
        simp only [firstLeast]
        rcases List.mem_cons.mp hn with h | h
        · subst h
          split
          · rename_i hc
            simp only [HuffmanNodeComparator, decide_eq_true_eq, decide_eq_false_iff_not] at hc ⊢
            omega
          · simp [HuffmanNodeComparator]
        · have := ih n h
          split
          · exact this
          · rename_i hc
            simp only [HuffmanNodeComparator, decide_eq_true_eq, decide_eq_false_iff_not,
              Bool.not_eq_true] at hc this ⊢
            omega

/-- The weighted length of a table: the sum of `count(byte) * length(code(byte))` over the
entries of the frequency table. -/
def weightedLength (counts : StdMap Int Int) (encodeTable : StdMap Int (List Char)) : Int :=
  (counts.map (fun e => e.2 * ((codeOf encodeTable e.1).length : Int))).sum

/-- The node with the counts kept without bound: the count of a node that is not negative
is kept, a negative count becomes `0`. -/
def toUnbounded : HuffmanNode → Huffman.HuffmanNode
  | .null => .null
  | .node character count leftChild rightChild =>
    .node character count.toNat (toUnbounded leftChild) (toUnbounded rightChild)

/-- The node whose counts are the counts of a node with counts without bound. -/
def ofUnbounded : Huffman.HuffmanNode → HuffmanNode
  | .null => .null
  | .node character count leftChild rightChild =>
    .node character (count : Int) (ofUnbounded leftChild) (ofUnbounded rightChild)

/-- No count of the tree is negative. -/
def NonNegative : HuffmanNode → Prop
  | .null => True
  | .node _ count leftChild rightChild =>
    0 ≤ count ∧ NonNegative leftChild ∧ NonNegative rightChild

/-- A priority queue of nodes with `int` counts, seen as a priority queue of nodes with
counts without bound: the same container, its nodes read through `toUnbounded`. -/
def unboundedQueue (pq : PriorityQueue) : Huffman.PriorityQueue where
  Q := pq.Q
  empty := pq.empty
  elems := fun q => (pq.elems q).map toUnbounded
  push := fun q n => pq.push q (ofUnbounded n)
  top := fun q => toUnbounded (pq.top q)
  pop := pq.pop
  elems_empty := by simp [pq.elems_empty]
  elems_push := by
    intro q n
    have hback : ∀ t : Huffman.HuffmanNode, toUnbounded (ofUnbounded t) = t := by
      intro t
      induction t with
      | null => rfl
      | node character count l r ihl ihr => simp [ofUnbounded, toUnbounded, ihl, ihr]
    have h := (pq.elems_push q (ofUnbounded n)).map toUnbounded
    rw [List.map_cons, hback] at h
    exact h
  top_pop := by
    intro q hq
    have hne : pq.elems q ≠ [] := by
      intro h
      exact hq (by simp [h])
    have h := (pq.top_pop q hne).map toUnbounded
    rw [List.map_cons] at h
    exact h
  top_least := by
    intro q n hn
    obtain ⟨m, hm, rfl⟩ := List.mem_map.mp hn
    have hcount : ∀ t : HuffmanNode, (toUnbounded t).getCount = t.getCount.toNat := by
      intro t
      cases t with
      | null => rfl
      | node character count l r => rfl
    have h := pq.top_least q m hm
    simp only [HuffmanNodeComparator, Huffman.HuffmanNodeComparator, decide_eq_false_iff_not,
      hcount] at h ⊢
    omega

/-- A frequency table of five bytes `a` to `e` whose counts are below `2^31` and sum to
`2^32 + 6`: the sum of the counts of `c` and `d` exceeds `2^31 - 1`. -/
def overflowCounts : StdMap Int Int :=
  [(97, 536870913), (98, 536870914), (99, 1073741824), (100, 1073741825), (101, 1073741826)]

/-- The encode table of `overflowCounts`. -/
def overflowTable : StdMap Int (List Char) :=
  [(97, ['1', '0']), (98, ['1', '1']), (99, ['0', '0', '0']), (100, ['0', '0', '1']),
   (101, ['0', '1'])]

/-- A prefix-free code for the bytes of `overflowCounts` in which the two bytes of least
count have the longest codes. -/
def shorterTable : StdMap Int (List Char) :=
  [(97, ['1', '1', '0']), (98, ['1', '1', '1']), (99, ['0', '0']), (100, ['0', '1']),
   (101, ['1', '0'])]

end Wrap

/-! ## Lemmas on `std::map` -/

namespace StdMap
variable {K V : Type} [LinearOrder K]

theorem find_assign (m : StdMap K V) (k k' : K) (v : V) :
    find (assign m k v) k' = if k' = k then some v else find m k' := by
  induction m with
  | nil => simp [assign, find]
  | cons e m ih =>
    obtain ⟨a, b⟩ := e
    simp only [assign]
    by_cases h1 : k < a
    · by_cases h3 : k' = k
      · simp [find, h1, h3]
      · simp [find, h1, h3]
    · by_cases h2 : k = a
      · subst h2
        by_cases h3 : k' = k
        · simp [find, h3]
        · simp [find, h3]
      · by_cases h3 : k' = a
        · subst h3
          have : ¬ k' = k := fun h => h2 h.symm
          simp [find, h1, h2, this]
        · simp [find, h1, h2, h3, ih]

theorem find_eq_none_of_lt (m : StdMap K V) (k : K)
    (h : ∀ e ∈ m, k < e.1) : find m k = none := by
  induction m with
  | nil => rfl
  | cons e m ih =>
    obtain ⟨a, b⟩ := e
    have ha : k < a := h (a, b) (List.mem_cons_self _ _)
    simp [find, ne_of_lt ha, ih (fun e he => h e (List.mem_cons_of_mem _ he))]

theorem sorted_nil : Sorted ([] : StdMap K V) := List.Pairwise.nil

theorem sorted_cons {e : K × V} {m : StdMap K V} :
    Sorted (e :: m) ↔ (∀ e' ∈ m, e.1 < e'.1) ∧ Sorted m := by
  simp [Sorted, List.pairwise_cons]

theorem mem_assign {m : StdMap K V} {k : K} {v : V} {e : K × V}
    (h : e ∈ assign m k v) : e = (k, v) ∨ e ∈ m := by
  induction m with
  | nil => simpa [assign] using h
  | cons a m ih =>
    simp only [assign] at h
    split_ifs at h with h1 h2
    · simpa using h
    · rcases List.mem_cons.mp h with h | h
      · exact Or.inl h
      · exact Or.inr (List.mem_cons_of_mem _ h)
    · rcases List.mem_cons.mp h with h | h
      · exact Or.inr (h ▸ List.mem_cons_self _ _)
      · rcases ih h with h | h
        · exact Or.inl h
        · exact Or.inr (List.mem_cons_of_mem _ h)

theorem sorted_assign {m : StdMap K V} (hm : Sorted m) (k : K) (v : V) :
    Sorted (assign m k v) := by
  induction m with
  | nil => simp [assign, Sorted]
  | cons a m ih =>
    obtain ⟨hlt, hs⟩ := sorted_cons.mp hm
    simp only [assign]
    split_ifs with h1 h2
    · refine sorted_cons.mpr ⟨?_, hm⟩
      intro e he
      rcases List.mem_cons.mp he with he | he
      · subst he; exact h1
      · exact lt_trans h1 (hlt e he)
    · refine sorted_cons.mpr ⟨?_, hs⟩
      intro e he
      simpa [h2] using hlt e he
    · refine sorted_cons.mpr ⟨?_, ih hs⟩
      intro e he
      rcases mem_assign he with he | he
      · subst he
        exact lt_of_le_of_ne (not_lt.mp h1) (fun h => h2 h.symm)
      · exact hlt e he

theorem mem_iff_find {m : StdMap K V} (hm : Sorted m) (k : K) (v : V) :
    (k, v) ∈ m ↔ find m k = some v := by
  induction m with
  | nil => simp [find]
  | cons a m ih =>
    obtain ⟨a1, a2⟩ := a
    obtain ⟨hlt, hs⟩ := sorted_cons.mp hm
    simp only [find, List.mem_cons, Prod.mk.injEq]
    split_ifs with h
    · subst h
      constructor
      · rintro (⟨-, rfl⟩ | h)
        · rfl
        · exact absurd (hlt _ h) (lt_irrefl _)
      · intro h
        exact Or.inl ⟨rfl, (Option.some.inj h).symm⟩
    · rw [← ih hs]
      constructor
      · rintro (⟨h1, -⟩ | h1)
        · exact absurd h1 h
        · exact h1
      · exact Or.inr

theorem length_assign {m : StdMap K V} (hm : Sorted m) (k : K) (v : V) :
    (assign m k v).length = if (find m k).isSome then m.length else m.length + 1 := by
  induction m with
  | nil => simp [assign, find]
  | cons a m ih =>
    obtain ⟨a1, a2⟩ := a
    obtain ⟨hlt, hs⟩ := sorted_cons.mp hm
    simp only [assign]
    by_cases h1 : k < a1
    · have : find ((a1, a2) :: m) k = none := find_eq_none_of_lt _ _ (by
        intro e he
        rcases List.mem_cons.mp he with he | he
        · subst he; exact h1
        · exact lt_trans h1 (hlt e he))
      simp [h1, this]
    · by_cases h2 : k = a1
      · subst h2; simp [find]
      · simp only [h1, h2, if_false, find, List.length_cons, ih hs]
        split_ifs <;> rfl

end StdMap

/-! ## The count table -/

theorem StdMap.sum_assign {K : Type} [LinearOrder K] {m : StdMap K Nat} (hm : StdMap.Sorted m)
    (k : K) (v : Nat) :
    ((StdMap.assign m k v).map Prod.snd).sum + (StdMap.find m k).getD 0
      = (m.map Prod.snd).sum + v := by
  induction m with
  | nil => simp [StdMap.assign, StdMap.find]
  | cons a m ih =>
    obtain ⟨a1, a2⟩ := a
    obtain ⟨hlt, hs⟩ := StdMap.sorted_cons.mp hm
    simp only [StdMap.assign]
    by_cases h1 : k < a1
    · have : StdMap.find ((a1, a2) :: m) k = none := StdMap.find_eq_none_of_lt _ _ (by
        intro e he
        rcases List.mem_cons.mp he with he | he
        · subst he; exact h1
        · exact lt_trans h1 (hlt e he))
      simp [h1, this]; omega
    · by_cases h2 : k = a1
      · subst h2; simp [StdMap.find]; omega
      · have := ih hs
        simp only [h1, h2, if_false, StdMap.find, List.map_cons, List.sum_cons]
        omega

theorem countTable_invariant (input : List Int) :
    StdMap.Sorted (CountTable input) ∧
    (∀ c, StdMap.find (CountTable input) c
        = if inRange c = true ∧ c ∈ input then some (input.count c) else none) ∧
    ((CountTable input).map Prod.snd).sum = (input.filter inRange).length := by
  induction input using List.reverseRecOn with
  | nil => exact ⟨StdMap.sorted_nil, fun c => by simp [CountTable, StdMap.find], rfl⟩
  | append_singleton l x ih =>
    obtain ⟨hs, hf, hsum⟩ := ih
    have hstep : CountTable (l ++ [x]) = countStep (CountTable l) x := by
      simp [CountTable, List.foldl_append]
    rw [hstep]
    by_cases hx : x < 0 ∨ x > 127
    · have hnr : inRange x = false := by
        simp only [inRange, decide_eq_false_iff_not]; omega
      simp only [countStep, hx, if_true]
      refine ⟨hs, ?_, ?_⟩
      · intro c
        rw [hf c]
        by_cases hc : c = x
        · subst hc; simp [hnr]
        · have : x ≠ c := fun h => hc h.symm
          simp [hc, List.count_append, List.count_cons, this]
      · simp [hsum, List.filter_append, hnr]
    · have hr : inRange x = true := by
        simp only [inRange, decide_eq_true_eq]; omega
      have hfx := hf x
      simp only [countStep, hx, if_false, StdMap.count, StdMap.readOrDefault]
      by_cases hmem : x ∈ l
      · have hfx' : StdMap.find (CountTable l) x = some (l.count x) := by simp [hfx, hr, hmem]
        simp only [hfx', Option.isSome_some, if_true, Option.getD_some]
        rw [if_neg (by decide)]
        refine ⟨StdMap.sorted_assign hs _ _, ?_, ?_⟩
        · intro c
          rw [StdMap.find_assign, hf c]
          by_cases hc : c = x
          · subst hc; simp [hr, List.count_append]
          · have : x ≠ c := fun h => hc h.symm
            simp [hc, List.count_append, List.count_cons, this]
        · have := StdMap.sum_assign hs x (l.count x + 1)
          simp only [hfx', Option.getD_some] at this
          simp only [List.filter_append, List.length_append, List.filter_cons, hr, if_true,
            List.filter_nil, List.length_cons, List.length_nil]
          omega
      · have hfx' : StdMap.find (CountTable l) x = none := by simp [hfx, hmem]
        simp only [hfx', Option.isSome_none, Bool.false_eq_true, if_false, if_true]
        refine ⟨StdMap.sorted_assign hs _ _, ?_, ?_⟩
        · intro c
          rw [StdMap.find_assign, hf c]
          by_cases hc : c = x
          · subst hc; simp [hr, List.count_append, List.count_eq_zero_of_not_mem hmem]
          · have : x ≠ c := fun h => hc h.symm
            simp [hc, List.count_append, List.count_cons, this]
        · have := StdMap.sum_assign hs x 1
          simp only [hfx', Option.getD_none] at this
          simp only [List.filter_append, List.length_append, List.filter_cons, hr, if_true,
            List.filter_nil, List.length_cons, List.length_nil]
          omega

/-- The entries of the count table: the supported characters of the input, each with the
number of its occurrences. -/
theorem countTable_mem (input : List Int) (c : Int) (n : Nat) :
    (c, n) ∈ CountTable input ↔ 0 ≤ c ∧ c ≤ 127 ∧ c ∈ input ∧ n = input.count c := by
  obtain ⟨hs, hf, -⟩ := countTable_invariant input
  rw [StdMap.mem_iff_find hs, hf c]
  by_cases hc : inRange c = true ∧ c ∈ input
  · have h1 : 0 ≤ c ∧ c ≤ 127 := by simpa [inRange] using hc.1
    rw [if_pos hc]
    constructor
    · intro h
      exact ⟨h1.1, h1.2, hc.2, (Option.some.inj h).symm⟩
    · rintro ⟨-, -, -, h⟩
      rw [h]
  · rw [if_neg hc]
    constructor
    · intro h; exact absurd h (by simp)
    · rintro ⟨h1, h2, h3, -⟩
      exact absurd ⟨by simp [inRange, h1, h2], h3⟩ hc

/-! ## The fuel of `encode` -/

theorem fillBuffer_congr {et1 et2 : StdMap Int (List Char)}
    (h : ∀ c, codeOf et1 c = codeOf et2 c) (fuel : Nat) (input : List Int) (cur : Int)
    (buffer : List Char) :
    fillBuffer et1 fuel input cur buffer = fillBuffer et2 fuel input cur buffer := by
  induction fuel generalizing input cur buffer with
  | zero => unfold fillBuffer; rfl
  | succ fuel ih =>
    unfold fillBuffer
    cases input with
    | nil => simp only [h, ih]
    | cons c rest => simp only [h, ih]

theorem encodeLoop_congr {et1 et2 : StdMap Int (List Char)}
    (h : ∀ c, codeOf et1 c = codeOf et2 c) (fuel : Nat) (input : List Int)
    (buffer : List Char) :
    encodeLoop et1 fuel input buffer = encodeLoop et2 fuel input buffer := by
  induction fuel generalizing input buffer with
  | zero => cases input <;> rfl
  | succ fuel ih =>
    cases input with
    | nil => rfl
    | cons c rest =>
      simp only [encodeLoop, h, fillBuffer_congr h, ih]

theorem fillBuffer_mono (et : StdMap Int (List Char)) {fuel fuel' : Nat} (hle : fuel ≤ fuel')
    {input : List Int} {cur : Int} {buffer : List Char} {r : List Int × Int × List Char}
    (h : fillBuffer et fuel input cur buffer = some r) :
    fillBuffer et fuel' input cur buffer = some r := by
  induction fuel generalizing fuel' input cur buffer with
  | zero =>
    unfold fillBuffer at h
    split_ifs at h with hb
    unfold fillBuffer
    rw [if_neg hb]
    exact h
  | succ fuel ih =>
    obtain ⟨k, rfl⟩ : ∃ k, fuel' = k + 1 := ⟨fuel' - 1, by omega⟩
    unfold fillBuffer at h ⊢
    split_ifs at h ⊢ with hb
    · cases input with
      | nil => exact ih (by omega) h
      | cons c rest => exact ih (by omega) h
    · exact h

theorem encodeLoop_mono (et : StdMap Int (List Char)) {fuel fuel' : Nat} (hle : fuel ≤ fuel')
    {input : List Int} {buffer : List Char} {out : List Nat}
    (h : encodeLoop et fuel input buffer = some out) :
    encodeLoop et fuel' input buffer = some out := by
  induction fuel generalizing fuel' input buffer out with
  | zero =>
    cases input with
    | nil => cases fuel' <;> exact h
    | cons c rest => simp [encodeLoop] at h
  | succ fuel ih =>
    obtain ⟨k, rfl⟩ : ∃ k, fuel' = k + 1 := ⟨fuel' - 1, by omega⟩
    cases input with
    | nil => exact h
    | cons c rest =>
      simp only [encodeLoop] at h ⊢
      cases hf : fillBuffer et fuel rest c (buffer ++ codeOf et c) with
      | none => simp [hf] at h
      | some r =>
        obtain ⟨rest1, cur1, buffer1⟩ := r
        rw [fillBuffer_mono et (by omega : fuel ≤ k) hf]
        simp only [hf] at h ⊢
        cases he : encodeLoop et fuel rest1 (List.drop 8 buffer1) with
        | none => simp [he] at h
        | some o =>
          rw [ih (by omega : fuel ≤ k) he]
          simpa [he] using h

/-- The output of `encode` does not depend on the fuel, once the fuel suffices. -/
theorem encode_fuel_unique (et : StdMap Int (List Char)) {fuel fuel' : Nat}
    {input : List Int} {out out' : List Nat}
    (h : encode fuel input et = some out) (h' : encode fuel' input et = some out') :
    out = out' := by
  have h1 := encodeLoop_mono et (Nat.le_max_left fuel fuel') h
  have h2 := encodeLoop_mono et (Nat.le_max_right fuel fuel') h'
  rw [h1] at h2
  exact Option.some.inj h2

theorem codeOf_assign_empty {et : StdMap Int (List Char)} {c : Int}
    (h : StdMap.find et c = none) (x : Int) :
    codeOf (StdMap.assign et c []) x = codeOf et x := by
  unfold codeOf StdMap.readOrDefault
  rw [StdMap.find_assign]
  split_ifs with hx
  · subst hx; simp [h]
  · rfl

/-! ## Trees and their codes -/

theorem isTree_ne_null {t : HuffmanNode} (h : IsTree t) : t ≠ .null := by
  cases h <;> simp [HuffmanNode.leaf, HuffmanNode.internal]

theorem assignAll_mem {K V : Type} [LinearOrder K] (l : List (K × V)) (m : StdMap K V)
    {e : K × V} (h : e ∈ l.foldl (fun m e => StdMap.assign m e.1 e.2) m) : e ∈ l ∨ e ∈ m := by
  induction l generalizing m with
  | nil => exact Or.inr h
  | cons a l ih =>
    rcases ih _ h with h | h
    · exact Or.inl (List.mem_cons_of_mem _ h)
    · rcases StdMap.mem_assign h with h | h
      · exact Or.inl (h ▸ List.mem_cons_self _ _)
      · exact Or.inr h

theorem assignAll_sorted {K V : Type} [LinearOrder K] (l : List (K × V)) (m : StdMap K V)
    (hm : StdMap.Sorted m) : StdMap.Sorted (l.foldl (fun m e => StdMap.assign m e.1 e.2) m) := by
  induction l generalizing m with
  | nil => exact hm
  | cons a l ih => exact ih _ (StdMap.sorted_assign hm _ _)

theorem preorderEncode_internal (n : Nat) {l r : HuffmanNode} (hl : l ≠ .null) (hr : r ≠ .null)
    (accumulator : List Char) (encodeTable : StdMap Int (List Char)) :
    preorderEncode (.node none n l r) accumulator encodeTable
      = match preorderEncode l (accumulator ++ ['0']) encodeTable with
        | .error e => .error e
        | .ok encodeTable1 => preorderEncode r (accumulator ++ ['1']) encodeTable1 := by
  cases l with
  | null => exact absurd rfl hl
  | node a b c d =>
    cases r with
    | null => exact absurd rfl hr
    | node a' b' c' d' => rfl

/-- On a tree `preorderEncode` raises no error and assigns the paths of the leaves in
preorder. -/
theorem preorderEncode_isTree {t : HuffmanNode} (ht : IsTree t) (accumulator : List Char)
    (encodeTable : StdMap Int (List Char)) :
    preorderEncode t accumulator encodeTable
      = .ok ((codes t accumulator).foldl (fun m e => StdMap.assign m e.1 e.2) encodeTable) := by
  induction ht generalizing accumulator encodeTable with
  | leaf c n => rfl
  | internal n l r hl hr ihl ihr =>
    rw [HuffmanNode.internal, preorderEncode_internal n (isTree_ne_null hl) (isTree_ne_null hr),
      ihl]
    simp only [ihr, codes, List.foldl_append]

theorem codes_extend_accumulator {t : HuffmanNode} {accumulator : List Char} {e : Int × List Char}
    (h : e ∈ codes t accumulator) : accumulator <+: e.2 := by
  induction t generalizing accumulator with
  | null => simp [codes] at h
  | node character count l r ihl ihr =>
    cases character with
    | some c =>
      simp only [codes, List.mem_singleton] at h
      subst h
      exact List.prefix_rfl
    | none =>
      simp only [codes, List.mem_append] at h
      rcases h with h | h
      · exact (List.prefix_append _ _).trans (ihl h)
      · exact (List.prefix_append _ _).trans (ihr h)

theorem branches_incomparable {accumulator p1 p2 : List Char} {a b : Char} (hab : a ≠ b)
    (h1 : accumulator ++ [a] <+: p1) (h2 : accumulator ++ [b] <+: p2) : ¬ p1 <+: p2 := by
  intro h
  have h3 : accumulator ++ [a] <+: p2 := h1.trans h
  have h4 := List.prefix_of_prefix_length_le h3 h2 (by simp)
  have h5 := h4.eq_of_length (by simp)
  exact hab (by simpa using h5)

/-- The paths of two different leaves of a node are no prefixes of each other. -/
theorem codes_pairwise (t : HuffmanNode) (accumulator : List Char) :
    (codes t accumulator).Pairwise (fun e1 e2 => ¬ e1.2 <+: e2.2 ∧ ¬ e2.2 <+: e1.2) := by
  induction t generalizing accumulator with
  | null => simp [codes]
  | node character count l r ihl ihr =>
    cases character with
    | some c => simp [codes]
    | none =>
      simp only [codes]
      refine List.pairwise_append.mpr ⟨ihl _, ihr _, ?_⟩
      intro e1 h1 e2 h2
      exact ⟨branches_incomparable (by decide) (codes_extend_accumulator h1) (codes_extend_accumulator h2),
        branches_incomparable (by decide) (codes_extend_accumulator h2) (codes_extend_accumulator h1)⟩

/-- A table that `preorderEncode` fills from the empty table is prefix-free. -/
theorem prefixFree_of_codes (t : HuffmanNode) (accumulator : List Char) :
    PrefixFree ((codes t accumulator).foldl (fun m e => StdMap.assign m e.1 e.2) []) := by
  intro e1 h1 e2 h2 hne
  have m1 : e1 ∈ codes t accumulator := by
    rcases assignAll_mem _ _ h1 with h | h
    · exact h
    · simp at h
  have m2 : e2 ∈ codes t accumulator := by
    rcases assignAll_mem _ _ h2 with h | h
    · exact h
    · simp at h
  have hsymm : Symmetric (fun e1 e2 : Int × List Char => ¬ e1.2 <+: e2.2 ∧ ¬ e2.2 <+: e1.2) :=
    fun _ _ h => ⟨h.2, h.1⟩
  exact ((codes_pairwise t accumulator).forall hsymm m1 m2 (fun h => hne (by rw [h]))).1

/-! ## The priority queue and `buildTree` -/

namespace PriorityQueue

variable (pq : PriorityQueue)

theorem size_push (q : pq.Q) (n : HuffmanNode) : pq.size (pq.push q n) = pq.size q + 1 := by
  simpa [size] using (pq.elems_push q n).length_eq

theorem size_pop {q : pq.Q} (h : pq.elems q ≠ []) : pq.size (pq.pop q) + 1 = pq.size q := by
  simpa [size] using (pq.top_pop q h).length_eq

theorem top_mem {q : pq.Q} (h : pq.elems q ≠ []) : pq.top q ∈ pq.elems q :=
  (pq.top_pop q h).subset (List.mem_cons_self _ _)

theorem elems_ne_nil {q : pq.Q} (h : 1 ≤ pq.size q) : pq.elems q ≠ [] := by
  intro h0
  simp [size, h0] at h

theorem mem_of_mem_pop {q : pq.Q} (h : pq.elems q ≠ []) {n : HuffmanNode}
    (hn : n ∈ pq.elems (pq.pop q)) : n ∈ pq.elems q :=
  (pq.top_pop q h).subset (List.mem_cons_of_mem _ hn)

end PriorityQueue

theorem leaves_internal (n : Nat) (l r : HuffmanNode) :
    leaves (HuffmanNode.internal n l r) = leaves l ++ leaves r := rfl

/-- The loop of `buildTree` ends within a fuel of the size of the queue. A queue of two or
more trees is left with one tree, which is also the root and has the leaves of the trees of
the queue; a shorter queue and the root are left as they are. -/
theorem buildTreeLoop_spec (pq : PriorityQueue) (fuel : Nat) (q : pq.Q)
    (root : Option HuffmanNode) (hfuel : pq.size q ≤ fuel + 1)
    (htree : ∀ n ∈ pq.elems q, IsTree n) :
    ∃ q' root', buildTreeLoop pq fuel q root = some (q', root') ∧
      (2 ≤ pq.size q → ∃ r, root' = some r ∧ pq.elems q' = [r]) ∧
      (pq.size q < 2 → q' = q ∧ root' = root) ∧
      (root' = root ∨ ∃ n a b, root' = some (HuffmanNode.internal n a b)) ∧
      (∀ n ∈ pq.elems q', IsTree n) ∧
      ((pq.elems q').flatMap leaves).Perm ((pq.elems q).flatMap leaves) := by
  induction fuel generalizing q root with
  | zero =>
    refine ⟨q, root, ?_, ?_, ?_, Or.inl rfl, htree, List.Perm.refl _⟩
    · unfold buildTreeLoop
      rw [if_neg (by omega)]
    · intro h; omega
    · intro _; exact ⟨rfl, rfl⟩
  | succ fuel ih =>
    by_cases h2 : 2 ≤ pq.size q
    · have hne : pq.elems q ≠ [] := pq.elems_ne_nil (by omega)
      have hsz1 := pq.size_pop hne
      have hne1 : pq.elems (pq.pop q) ≠ [] := pq.elems_ne_nil (by omega)
      have hsz2 := pq.size_pop hne1
      have hp1 := pq.top_pop q hne
      have hp2 := pq.top_pop (pq.pop q) hne1
      have ht1 : IsTree (pq.top q) := htree _ (pq.top_mem hne)
      have ht2 : IsTree (pq.top (pq.pop q)) :=
        htree _ (pq.mem_of_mem_pop hne (pq.top_mem hne1))
      set newRoot := HuffmanNode.internal ((pq.top q).getCount + (pq.top (pq.pop q)).getCount)
        (pq.top q) (pq.top (pq.pop q)) with hnew
      set q3 := pq.push (pq.pop (pq.pop q)) newRoot with hq3
      have hp3 := pq.elems_push (pq.pop (pq.pop q)) newRoot
      have hsz3 : pq.size q3 + 1 = pq.size q := by
        rw [hq3, pq.size_push]
        omega
      have htree3 : ∀ n ∈ pq.elems q3, IsTree n := by
        intro n hn
        rcases List.mem_cons.mp (hp3.subset hn) with h | h
        · rw [h]; exact IsTree.internal _ _ _ ht1 ht2
        · exact htree _ (pq.mem_of_mem_pop hne (pq.mem_of_mem_pop hne1 h))
      have hleaves : ((pq.elems q3).flatMap leaves).Perm ((pq.elems q).flatMap leaves) := by
        have e1 : ((pq.elems q3).flatMap leaves).Perm
            ((newRoot :: pq.elems (pq.pop (pq.pop q))).flatMap leaves) := hp3.flatMap_right _
        have e2 : ((pq.top q :: pq.top (pq.pop q) :: pq.elems (pq.pop (pq.pop q))).flatMap
            leaves).Perm ((pq.elems q).flatMap leaves) :=
          ((hp2.cons _).trans hp1).flatMap_right _
        refine e1.trans (List.Perm.trans ?_ e2)
        simp [List.flatMap_cons, hnew, leaves_internal]
      obtain ⟨q', root', hrun, hbig, hsmall, hroot, htree', hperm⟩ :=
        ih q3 (some newRoot) (by omega) htree3
      have hroot' : root' = root ∨ ∃ n a b, root' = some (HuffmanNode.internal n a b) := by
        rcases hroot with h | h
        · exact Or.inr ⟨_, _, _, h⟩
        · exact Or.inr h
      refine ⟨q', root', ?_, ?_, ?_, hroot', htree', hperm.trans hleaves⟩
      · unfold buildTreeLoop
        rw [if_pos h2]
        exact hrun
      · intro _
        by_cases h3 : 2 ≤ pq.size q3
        · exact hbig h3
        · obtain ⟨hq, hr⟩ := hsmall (by omega)
          refine ⟨newRoot, hr, ?_⟩
          rw [hq]
          have hlen : (pq.elems q3).length = 1 := by
            have : pq.size q3 = (pq.elems q3).length := rfl
            omega
          obtain ⟨x, hx⟩ := List.length_eq_one.mp hlen
          have : newRoot ∈ pq.elems q3 := hp3.symm.subset (List.mem_cons_self _ _)
          rw [hx] at this ⊢
          simp at this
          rw [this]
      · intro h; omega
    · refine ⟨q, root, ?_, ?_, ?_, Or.inl rfl, htree, List.Perm.refl _⟩
      · unfold buildTreeLoop
        rw [if_neg h2]
      · intro h; omega
      · intro _; exact ⟨rfl, rfl⟩

theorem elems_populateQueue (pq : PriorityQueue) (counts : StdMap Int Nat) :
    (pq.elems (populateQueue pq counts)).Perm
      (counts.map (fun e => HuffmanNode.leaf e.1 e.2)) := by
  unfold populateQueue
  induction counts using List.reverseRecOn with
  | nil => simp [pq.elems_empty]
  | append_singleton l x ih =>
    rw [List.foldl_append]
    simp only [List.foldl_cons, List.foldl_nil, List.map_append, List.map_cons, List.map_nil]
    exact (pq.elems_push _ _).trans ((ih.cons _).trans (List.perm_append_singleton _ _).symm)

theorem size_populateQueue (pq : PriorityQueue) (counts : StdMap Int Nat) :
    pq.size (populateQueue pq counts) = counts.length := by
  simpa [PriorityQueue.size] using (elems_populateQueue pq counts).length_eq

theorem isTree_populateQueue (pq : PriorityQueue) (counts : StdMap Int Nat) :
    ∀ n ∈ pq.elems (populateQueue pq counts), IsTree n := by
  intro n hn
  have := (elems_populateQueue pq counts).subset hn
  obtain ⟨e, -, rfl⟩ := List.mem_map.mp this
  exact IsTree.leaf _ _

theorem leaves_populateQueue (pq : PriorityQueue) (counts : StdMap Int Nat) :
    ((pq.elems (populateQueue pq counts)).flatMap leaves).Perm counts := by
  have key : ∀ l : StdMap Int Nat,
      (l.map (fun e => HuffmanNode.leaf e.1 e.2)).flatMap leaves = l := by
    intro l
    induction l with
    | nil => rfl
    | cons a l ih =>
      rw [List.map_cons, List.flatMap_cons, ih]
      rfl
  have h := (elems_populateQueue pq counts).flatMap_right leaves
  rw [key] at h
  exact h

/-- What `buildTree` and `preorderEncode` make of a queue of trees: from two trees on, the
table of the paths of a tree that has the leaves of the queue; below two trees, `root` is
never assigned. -/
theorem encodeTableOfQueue_spec (pq : PriorityQueue) (q : pq.Q)
    (htree : ∀ n ∈ pq.elems q, IsTree n) :
    (2 ≤ pq.size q → ∃ r, IsTree r ∧ (∃ n l r', r = HuffmanNode.internal n l r') ∧
        (leaves r).Perm ((pq.elems q).flatMap leaves) ∧
        encodeTableOfQueue pq q
          = .ok ((codes r []).foldl (fun m e => StdMap.assign m e.1 e.2) [])) ∧
    (pq.size q < 2 → encodeTableOfQueue pq q = .error .indeterminateRoot) := by
  obtain ⟨q', root', hrun, hbig, hsmall, hroot, htree', hperm⟩ :=
    buildTreeLoop_spec pq (pq.size q) q none (by omega) htree
  constructor
  · intro h2
    obtain ⟨r, hr, hq'⟩ := hbig h2
    have hrt : IsTree r := htree' r (by rw [hq']; exact List.mem_cons_self _ _)
    refine ⟨r, hrt, ?_, ?_, ?_⟩
    · rcases hroot with h | ⟨n, a, b, h⟩
      · rw [hr] at h; exact absurd h (by simp)
      · rw [hr] at h
        exact ⟨n, a, b, Option.some.inj h⟩
    · rw [hq'] at hperm
      simpa using hperm
    · unfold encodeTableOfQueue buildTree
      rw [hrun, hr]
      exact preorderEncode_isTree hrt _ _
  · intro h2
    obtain ⟨hq, hr⟩ := hsmall h2
    unfold encodeTableOfQueue buildTree
    rw [hrun, hr]

/-- The table that `HuffmanTree` derives from an input exists from two distinct supported
characters on, and is then the table of the paths of a tree whose leaves are the entries of
the count table. -/
theorem huffmanTree_spec (pq : PriorityQueue) (input : List Int) :
    (2 ≤ (CountTable input).length → ∃ r, IsTree r ∧
        (∃ n l r', r = HuffmanNode.internal n l r') ∧
        (leaves r).Perm (CountTable input) ∧
        HuffmanTree pq input
          = .ok ((codes r []).foldl (fun m e => StdMap.assign m e.1 e.2) [])) ∧
    ((CountTable input).length < 2 → HuffmanTree pq input = .error .indeterminateRoot) := by
  have h := encodeTableOfQueue_spec pq (populateQueue pq (CountTable input))
    (isTree_populateQueue pq _)
  rw [size_populateQueue] at h
  refine ⟨fun h2 => ?_, h.2⟩
  obtain ⟨r, h1, h3, h4, h5⟩ := h.1 h2
  exact ⟨r, h1, h3, h4.trans (leaves_populateQueue pq _), h5⟩

/-! ## The decode table -/

theorem getDecodeTable_spec (encodeTable : StdMap Int (List Char))
    (hinj : encodeTable.Pairwise (fun e1 e2 => e1.2 ≠ e2.2)) :
    StdMap.Sorted (getDecodeTable encodeTable) ∧
    (∀ code byte, StdMap.find (getDecodeTable encodeTable) code = some byte
        ↔ (byte, code) ∈ encodeTable) ∧
    (getDecodeTable encodeTable).length = encodeTable.length := by
  induction encodeTable using List.reverseRecOn with
  | nil => exact ⟨StdMap.sorted_nil, by simp [getDecodeTable, StdMap.find], rfl⟩
  | append_singleton l x ih =>
    obtain ⟨hl, -, hx⟩ := List.pairwise_append.mp hinj
    obtain ⟨hs, hf, hlen⟩ := ih hl
    have hstep : getDecodeTable (l ++ [x]) = StdMap.assign (getDecodeTable l) x.2 x.1 := by
      simp [getDecodeTable, List.foldl_append]
    have hnone : StdMap.find (getDecodeTable l) x.2 = none := by
      cases hfx : StdMap.find (getDecodeTable l) x.2 with
      | none => rfl
      | some b =>
        have := (hf x.2 b).mp hfx
        exact absurd rfl (hx _ this x (List.mem_singleton_self _))
    rw [hstep]
    refine ⟨StdMap.sorted_assign hs _ _, ?_, ?_⟩
    · intro code byte
      rw [StdMap.find_assign]
      by_cases hc : code = x.2
      · subst hc
        simp only [if_true, List.mem_append, List.mem_singleton]
        constructor
        · intro h
          exact Or.inr (by rw [← Option.some.inj h])
        · rintro (h | h)
          · exact absurd rfl (hx _ h x (List.mem_singleton_self _))
          · rw [← h]
      · simp only [hc, if_false, List.mem_append, List.mem_singleton, hf]
        constructor
        · exact Or.inl
        · rintro (h | h)
          · exact h
          · exact absurd (by rw [← h]) hc
    · rw [StdMap.length_assign hs, hnone]
      simp [hlen]

theorem pairwise_codes_ne {encodeTable : StdMap Int (List Char)}
    (hs : StdMap.Sorted encodeTable) (hp : PrefixFree encodeTable) :
    encodeTable.Pairwise (fun e1 e2 => e1.2 ≠ e2.2) := by
  have h1 : encodeTable.Pairwise (fun e1 e2 => e1.1 < e2.1) := by
    simpa [StdMap.Sorted, List.pairwise_map] using hs
  refine h1.imp_of_mem ?_
  intro a b ha hb hlt heq
  exact hp a ha b hb (ne_of_lt hlt) (by rw [heq])

/-! ## Queues without ties -/

theorem top_eq_firstLeast (pq : PriorityQueue) {q : pq.Q} {l : List HuffmanNode}
    (hperm : (pq.elems q).Perm l) (hne : l ≠ [])
    (hnodup : (l.map HuffmanNode.getCount).Nodup) : pq.top q = firstLeast l := by
  have hne' : pq.elems q ≠ [] := fun h => hne (by simpa [h] using hperm.symm)
  have h1 : pq.top q ∈ l := hperm.subset (pq.top_mem hne')
  have h2 : firstLeast l ∈ l := listQueue.top_mem (q := l) hne
  have h3 := pq.top_least q (firstLeast l) (hperm.symm.subset h2)
  have h4 := listQueue.top_least l (pq.top q) h1
  have h5 : HuffmanNodeComparator (firstLeast l) (pq.top q) = false := h4
  simp only [HuffmanNodeComparator, decide_eq_false_iff_not] at h3 h5
  exact List.inj_on_of_nodup_map hnodup h1 h2 (by omega)

theorem pop_perm_erase (pq : PriorityQueue) {q : pq.Q} {l : List HuffmanNode}
    (hperm : (pq.elems q).Perm l) (hne : l ≠ [])
    (hnodup : (l.map HuffmanNode.getCount).Nodup) :
    (pq.elems (pq.pop q)).Perm (l.erase (firstLeast l)) := by
  have hne' : pq.elems q ≠ [] := fun h => hne (by simpa [h] using hperm.symm)
  have h1 := pq.top_pop q hne'
  rw [top_eq_firstLeast pq hperm hne hnodup] at h1
  have h2 : firstLeast l ∈ l := listQueue.top_mem (q := l) hne
  exact (List.perm_cons _).mp ((h1.trans hperm).trans (List.perm_cons_erase h2))

/-- Without ties `buildTree` assigns the same root for every priority queue. -/
theorem buildTreeLoop_noTies (pq : PriorityQueue) (fuel : Nat) (q : pq.Q)
    (l : List HuffmanNode) (root : Option HuffmanNode)
    (hperm : (pq.elems q).Perm l) (hties : noTies fuel l = true) :
    (buildTreeLoop pq fuel q root).map Prod.snd
      = (buildTreeLoop listQueue fuel l root).map Prod.snd := by
  have hsize : pq.size q = listQueue.size l := hperm.length_eq
  induction fuel generalizing q l root with
  | zero =>
    unfold buildTreeLoop
    rw [hsize]
    split_ifs <;> rfl
  | succ fuel ih =>
    unfold buildTreeLoop
    rw [hsize]
    by_cases h2 : 2 ≤ listQueue.size l
    · rw [if_pos h2, if_pos h2]
      have hlen : l.length ≥ 2 := h2
      simp only [noTies, hlen, if_true, Bool.and_eq_true, decide_eq_true_eq] at hties
      obtain ⟨hnodup, hrest⟩ := hties
      have hne : l ≠ [] := by intro h; simp [h] at hlen
      have ht1 := top_eq_firstLeast pq hperm hne hnodup
      have hp1 := pop_perm_erase pq hperm hne hnodup
      have hne1 : l.erase (firstLeast l) ≠ [] := by
        intro h
        have hmem : firstLeast l ∈ l := listQueue.top_mem (q := l) hne
        have := List.length_erase_of_mem hmem
        rw [h] at this
        simp at this
        omega
      have hnodup1 : ((l.erase (firstLeast l)).map HuffmanNode.getCount).Nodup :=
        hnodup.sublist ((List.erase_sublist _ _).map _)
      have ht2 := top_eq_firstLeast pq hp1 hne1 hnodup1
      have hp2 := pop_perm_erase pq hp1 hne1 hnodup1
      simp only
      rw [ht1, ht2]
      refine ih _ (mergeStep l) _ ?_ hrest ?_
      · exact (pq.elems_push _ _).trans
          ((hp2.cons _).trans (List.perm_append_singleton _ _).symm)
      · exact ((pq.elems_push _ _).trans
          ((hp2.cons _).trans (List.perm_append_singleton _ _).symm)).length_eq
    · rw [if_neg h2, if_neg h2]
      rfl

/-- Without ties `HuffmanTree` derives the same table for every priority queue. -/
theorem huffmanTree_noTies (pq : PriorityQueue) (input : List Int)
    (hties : noTies (CountTable input).length (populateQueue listQueue (CountTable input))
      = true) :
    HuffmanTree pq input = HuffmanTree listQueue input := by
  have hperm : (pq.elems (populateQueue pq (CountTable input))).Perm
      (populateQueue listQueue (CountTable input)) :=
    (elems_populateQueue pq _).trans (elems_populateQueue listQueue _).symm
  have hsz : pq.size (populateQueue pq (CountTable input)) = (CountTable input).length :=
    size_populateQueue pq _
  have hsz' : listQueue.size (populateQueue listQueue (CountTable input))
      = (CountTable input).length := size_populateQueue listQueue _
  have h := buildTreeLoop_noTies pq (CountTable input).length _ _ none hperm hties
  unfold HuffmanTree encodeTableOfQueue buildTree
  rw [hsz, hsz']
  cases h1 : buildTreeLoop pq (CountTable input).length
      (populateQueue pq (CountTable input)) none with
  | none =>
    cases h2 : buildTreeLoop listQueue (CountTable input).length
        (populateQueue listQueue (CountTable input)) none with
    | none => rfl
    | some r2 => rw [h1, h2] at h; simp at h
  | some r1 =>
    cases h2 : buildTreeLoop listQueue (CountTable input).length
        (populateQueue listQueue (CountTable input)) none with
    | none => rw [h1, h2] at h; simp at h
    | some r2 =>
      rw [h1, h2] at h
      obtain ⟨a1, b1⟩ := r1
      obtain ⟨a2, b2⟩ := r2
      simp only [Option.map_some', Option.some.injEq] at h
      subst h
      cases b1 <;> rfl

/-! ## The matching loop of `decode` -/

theorem matchLoop_eq_scan (dt : StdMap (List Char) Int) (bits frame : List Char) (m : Nat) :
    (matchLoop dt bits frame m).1 = (scan dt bits frame).1 ∧
    (matchLoop dt bits frame m).2 + (scan dt bits frame).2.length
      = m + frame.length + bits.length := by
  induction bits generalizing frame m with
  | nil => simp [matchLoop, scan]
  | cons b rest ih =>
    cases hf : StdMap.find dt (frame ++ [b]) with
    | none =>
      have h := ih (frame ++ [b]) m
      simp only [matchLoop, scan, StdMap.count, hf, Option.isSome_none, Bool.false_eq_true,
        if_false, gt_iff_lt, lt_self_iff_false, List.length_cons]
      simp only [List.length_append, List.length_singleton] at h
      exact ⟨h.1, by omega⟩
    | some ch =>
      have h := ih [] (m + (frame ++ [b]).length)
      simp only [matchLoop, scan, StdMap.count, StdMap.readOrDefault, hf, Option.isSome_some,
        if_true, gt_iff_lt, Nat.lt_one_iff, Option.getD_some, List.length_cons]
      simp only [List.length_append, List.length_singleton, List.length_nil] at h ⊢
      refine ⟨?_, ?_⟩
      · simp [h.1]
      · omega

theorem scan_suffix (dt : StdMap (List Char) Int) (bits frame : List Char) :
    (scan dt bits frame).2 <:+ frame ++ bits := by
  induction bits generalizing frame with
  | nil => simp [scan]
  | cons b rest ih =>
    cases hf : StdMap.find dt (frame ++ [b]) with
    | none =>
      have h := ih (frame ++ [b])
      simp only [scan, hf]
      simpa using h
    | some ch =>
      have h := ih []
      simp only [scan, hf]
      exact h.trans (by
        rw [List.nil_append]
        exact (List.suffix_cons b rest).trans (List.suffix_append _ _))

theorem scan_append (dt : StdMap (List Char) Int) (xs ys frame : List Char) :
    scan dt (xs ++ ys) frame
      = ((scan dt xs frame).1 ++ (scan dt ys (scan dt xs frame).2).1,
         (scan dt ys (scan dt xs frame).2).2) := by
  induction xs generalizing frame with
  | nil => simp [scan]
  | cons b rest ih =>
    cases hf : StdMap.find dt (frame ++ [b]) with
    | none => simp only [List.cons_append, scan, hf, List.append_eq, ih]
    | some ch => simp only [List.cons_append, scan, hf, List.append_eq, ih]

theorem noKeyPrefix_nil (dt : StdMap (List Char) Int) : NoKeyPrefix dt [] := by
  intro p hp hpre
  exact absurd (List.prefix_nil.mp hpre) hp

theorem scan_restart (dt : StdMap (List Char) Int) (f ys g : List Char)
    (h : NoKeyPrefix dt (g ++ f)) : scan dt (f ++ ys) g = scan dt ys (g ++ f) := by
  induction f generalizing g with
  | nil => simp
  | cons b rest ih =>
    have hnone : StdMap.find dt (g ++ [b]) = none :=
      h _ (by simp) (by
        rw [show g ++ b :: rest = (g ++ [b]) ++ rest by simp]
        exact List.prefix_append _ _)
    simp only [List.cons_append, scan, hnone, List.append_eq]
    rw [ih (g ++ [b]) (by simpa using h)]
    simp

theorem scan_noKeyPrefix (dt : StdMap (List Char) Int) (bits frame : List Char)
    (h : NoKeyPrefix dt frame) : NoKeyPrefix dt (scan dt bits frame).2 := by
  induction bits generalizing frame with
  | nil => exact h
  | cons b rest ih =>
    cases hf : StdMap.find dt (frame ++ [b]) with
    | none =>
      simp only [scan, hf]
      apply ih
      intro p hp hpre
      rcases List.prefix_concat_iff.mp hpre with h1 | h1
      · rw [h1]; exact hf
      · exact h p hp h1
    | some ch =>
      simp only [scan, hf]
      exact ih [] (noKeyPrefix_nil dt)

/-- The loop of `decode` writes what one pass of the matching over all the bits of the
input writes: nothing is lost when the unmatched bits are carried to the next byte. -/
theorem decodeLoop_eq_scan (dt : StdMap (List Char) Int) (input : List Int)
    (buffer : List Char) (h : NoKeyPrefix dt buffer) :
    decodeLoop dt input buffer = (scan dt (input.flatMap expandByte) buffer).1 := by
  induction input generalizing buffer with
  | nil => simp [decodeLoop, scan]
  | cons c rest ih =>
    have h1 := matchLoop_eq_scan dt (buffer ++ expandByte c) [] 0
    have h2 : scan dt (buffer ++ expandByte c) [] = scan dt (expandByte c) buffer := by
      have := scan_restart dt buffer (expandByte c) [] (by simpa using h)
      simpa using this
    have h3 : (buffer ++ expandByte c).drop (matchLoop dt (buffer ++ expandByte c) [] 0).2
        = (scan dt (expandByte c) buffer).2 := by
      have hs := scan_suffix dt (buffer ++ expandByte c) []
      rw [h2] at hs h1
      rw [List.nil_append] at hs
      have hlen := hs.length_le
      have := List.suffix_iff_eq_drop.mp hs
      rw [this]
      congr 1
      have := h1.2
      simp only [List.length_nil] at this
      omega
    simp only [decodeLoop, List.flatMap_cons]
    rw [h3, h1.1, h2, ih _ (scan_noKeyPrefix dt _ _ h), scan_append]

theorem decode_eq_scan (dt : StdMap (List Char) Int) (input : List Int) :
    decode input dt = (scan dt (input.flatMap expandByte) []).1 :=
  decodeLoop_eq_scan dt input [] (noKeyPrefix_nil dt)

theorem scan_key_aux (dt : StdMap (List Char) Int)
    (hpf : ∀ k1 k2, (StdMap.find dt k1).isSome → (StdMap.find dt k2).isSome →
      k1 <+: k2 → k1 = k2)
    {k : List Char} {v : Int} (hk : StdMap.find dt k = some v) (rest f g : List Char)
    (hgf : g ++ f = k) (hf : f ≠ []) :
    scan dt (f ++ rest) g = (v :: (scan dt rest []).1, (scan dt rest []).2) := by
  induction f generalizing g with
  | nil => exact absurd rfl hf
  | cons b f' ih =>
    cases f' with
    | nil =>
      simp only [List.cons_append, List.nil_append, scan, hgf, hk, List.append_eq]
    | cons b' f'' =>
      have hnone : StdMap.find dt (g ++ [b]) = none := by
        cases hfind : StdMap.find dt (g ++ [b]) with
        | none => rfl
        | some w =>
          have hpre : g ++ [b] <+: k := by
            rw [← hgf, show g ++ b :: b' :: f'' = (g ++ [b]) ++ (b' :: f'') by simp]
            exact List.prefix_append _ _
          have := hpf (g ++ [b]) k (by simp [hfind]) (by simp [hk]) hpre
          have hlen := congrArg List.length this
          rw [← hgf] at hlen
          simp at hlen
      have := ih (g ++ [b]) (by rw [← hgf]; simp) (by simp)
      simp only [List.cons_append, scan, hnone, List.append_eq] at this ⊢
      exact this

/-- The matching recognises a key at the head of the bits, when no key is a prefix of
another key. -/
theorem scan_key (dt : StdMap (List Char) Int)
    (hpf : ∀ k1 k2, (StdMap.find dt k1).isSome → (StdMap.find dt k2).isSome →
      k1 <+: k2 → k1 = k2)
    {k : List Char} {v : Int} (hk : StdMap.find dt k = some v) (hne : k ≠ [])
    (rest : List Char) :
    scan dt (k ++ rest) [] = (v :: (scan dt rest []).1, (scan dt rest []).2) :=
  scan_key_aux dt hpf hk rest k [] (by simp) hne

theorem scan_codes (dt : StdMap (List Char) Int)
    (hne : StdMap.find dt [] = none)
    (hpf : ∀ k1 k2, (StdMap.find dt k1).isSome → (StdMap.find dt k2).isSome →
      k1 <+: k2 → k1 = k2)
    (s : List (List Char × Int)) (hs : ∀ e ∈ s, StdMap.find dt e.1 = some e.2)
    (leftover : List Char) (hleft : NoKeyPrefix dt leftover) :
    scan dt (s.flatMap Prod.fst ++ leftover) [] = (s.map Prod.snd, leftover) := by
  induction s with
  | nil =>
    have := scan_restart dt leftover [] [] (by simpa using hleft)
    simpa [scan] using this
  | cons e s ih =>
    have he := hs e (List.mem_cons_self _ _)
    have hene : e.1 ≠ [] := by
      intro h
      rw [h, hne] at he
      exact absurd he (by simp)
    rw [List.flatMap_cons, List.append_assoc, scan_key dt hpf he hene,
      ih (fun e' he' => hs e' (List.mem_cons_of_mem _ he'))]
    rfl

set_option maxRecDepth 100000 in
theorem expandByte_charOfByte_fin :
    ∀ r : Fin 256, expandByte (charOfByte r.val) = msbBits r.val := by
  decide

/-- The string that `decode` computes from a byte of the file holds the bits of the byte,
most significant bit first. -/
theorem expandByte_charOfByte (byte : Nat) :
    expandByte (charOfByte byte) = msbBits (byte % 256) := by
  have h := expandByte_charOfByte_fin ⟨byte % 256, Nat.mod_lt _ (by decide)⟩
  have hc : charOfByte byte = charOfByte (byte % 256) := by
    simp [charOfByte]
  rw [hc]
  exact h

theorem msbBits_mod (byte : Nat) : msbBits (byte % 256) = msbBits byte := by
  simp only [msbBits, List.range, List.range.loop, List.map_cons, List.map_nil]
  have h : ∀ k, k ≤ 7 → (byte % 256 / 2 ^ k) % 2 = (byte / 2 ^ k) % 2 := by
    intro k hk
    interval_cases k <;> omega
  simp only [h, Nat.sub_le, Nat.le_refl, tsub_le_iff_right, Nat.le_add_left, Nat.sub_zero,
    Nat.reduceSub, Nat.reduceLeDiff]

/-- The bits that `decode` reads from a byte stream are the bits of its bytes, most
significant bit first. -/
theorem expandByte_stream (stream : List Nat) :
    (stream.map charOfByte).flatMap expandByte = stream.flatMap msbBits := by
  induction stream with
  | nil => rfl
  | cons b rest ih =>
    rw [List.map_cons, List.flatMap_cons, List.flatMap_cons, ih, expandByte_charOfByte,
      msbBits_mod]

/-! ## The packing of `encode` -/

theorem byteToFlush_eq_msbValue (buffer : List Char) (h : 8 ≤ buffer.length) :
    byteToFlush buffer = msbValue buffer := by
  obtain ⟨b0, b1, b2, b3, b4, b5, b6, b7, rest, rfl⟩ :
      ∃ b0 b1 b2 b3 b4 b5 b6 b7 rest, buffer = b0 :: b1 :: b2 :: b3 :: b4 :: b5 :: b6 :: b7 :: rest := by
    match buffer, h with
    | b0 :: b1 :: b2 :: b3 :: b4 :: b5 :: b6 :: b7 :: rest, _ =>
      exact ⟨b0, b1, b2, b3, b4, b5, b6, b7, rest, rfl⟩
  simp only [byteToFlush, msbValue, List.range, List.range.loop, List.foldl, List.take,
    List.getElem?_cons_zero, List.getElem?_cons_succ, Option.some.injEq]
  by_cases h0 : b0 = '1' <;> by_cases h1 : b1 = '1' <;> by_cases h2 : b2 = '1' <;>
    by_cases h3 : b3 = '1' <;> by_cases h4 : b4 = '1' <;> by_cases h5 : b5 = '1' <;>
    by_cases h6 : b6 = '1' <;> by_cases h7 : b7 = '1' <;>
    simp [h0, h1, h2, h3, h4, h5, h6, h7]

theorem msbValue_append (xs ys : List Char) (h : 8 ≤ xs.length) :
    msbValue (xs ++ ys) = msbValue xs := by
  unfold msbValue
  rw [List.take_append_of_le_length h]

theorem packBits_short (bits : List Char) (h : bits.length < 8) : packBits bits = [] := by
  simp [packBits, Nat.div_eq_of_lt h]

theorem packBits_long (bits : List Char) (h : 8 ≤ bits.length) :
    packBits bits = msbValue bits :: packBits (bits.drop 8) := by
  have hdiv : bits.length / 8 = (bits.length - 8) / 8 + 1 := by omega
  simp only [packBits, hdiv, List.length_drop, List.range_succ_eq_map, List.map_cons,
    List.map_map, Nat.mul_zero, List.drop_zero]
  congr 1
  apply List.map_congr_left
  intro k _
  simp only [Function.comp, List.drop_drop]
  congr 2
  omega

theorem length_packBits (bits : List Char) : (packBits bits).length = bits.length / 8 := by
  simp [packBits]

/-- The inner loop of `encode` when every code that it can append has one to eight bits:
it ends with eight to fifteen bits in the buffer, either with the codes of the characters it
has read appended (first case), or, when the input ends before eight bits are there, with
all the codes and some further bits appended (second case). -/
theorem fillBuffer_spec (et : StdMap Int (List Char)) (fuel : Nat) (input : List Int)
    (cur : Int) (buffer : List Char)
    (hin : ∀ c ∈ input, 1 ≤ (codeOf et c).length ∧ (codeOf et c).length ≤ 8)
    (hcur : 1 ≤ (codeOf et cur).length ∧ (codeOf et cur).length ≤ 8)
    (hbuf : buffer.length ≤ 15) (hfuel : 8 ≤ fuel + buffer.length) :
    ∃ rest1 cur1 buffer1, fillBuffer et fuel input cur buffer = some (rest1, cur1, buffer1) ∧
      8 ≤ buffer1.length ∧ buffer1.length ≤ 15 ∧ rest1.length ≤ input.length ∧
      ((∃ consumed, input = consumed ++ rest1 ∧
          buffer1 = buffer ++ consumed.flatMap (codeOf et)) ∨
       (rest1 = [] ∧ (buffer ++ input.flatMap (codeOf et)).length < 8 ∧
          ∃ pad, buffer1 = buffer ++ input.flatMap (codeOf et) ++ pad)) := by
  induction fuel generalizing input cur buffer with
  | zero =>
    refine ⟨input, cur, buffer, ?_, by omega, hbuf, le_refl _, Or.inl ⟨[], by simp⟩⟩
    unfold fillBuffer
    rw [if_neg (by omega)]
  | succ fuel ih =>
    by_cases hlt : buffer.length < 8
    · cases input with
      | nil =>
        obtain ⟨rest1, cur1, buffer1, hrun, h8, h15, hlen, hcase⟩ :=
          ih [] cur (buffer ++ codeOf et cur) hin hcur
            (by rw [List.length_append]; omega) (by rw [List.length_append]; omega)
        have hrest : rest1 = [] := List.length_eq_zero.mp (by simpa using hlen)
        refine ⟨rest1, cur1, buffer1, ?_, h8, h15, hlen, Or.inr ⟨hrest, by simpa using hlt, ?_⟩⟩
        · unfold fillBuffer
          rw [if_pos hlt]
          exact hrun
        · rcases hcase with ⟨consumed, hc, hb⟩ | ⟨-, -, pad, hb⟩
          · have : consumed = [] := by
              cases consumed with
              | nil => rfl
              | cons a l => simp at hc
            subst this
            exact ⟨codeOf et cur, by simpa using hb⟩
          · exact ⟨codeOf et cur ++ pad, by simpa using hb⟩
      | cons c rest =>
        have hc := hin c (List.mem_cons_self _ _)
        obtain ⟨rest1, cur1, buffer1, hrun, h8, h15, hlen, hcase⟩ :=
          ih rest c (buffer ++ codeOf et c) (fun x hx => hin x (List.mem_cons_of_mem _ hx)) hc
            (by rw [List.length_append]; omega) (by rw [List.length_append]; omega)
        refine ⟨rest1, cur1, buffer1, ?_, h8, h15, by simp; omega, ?_⟩
        · unfold fillBuffer
          rw [if_pos hlt]
          exact hrun
        · rcases hcase with ⟨consumed, hc, hb⟩ | ⟨hr, hl, pad, hb⟩
          · exact Or.inl ⟨c :: consumed, by simp [hc], by simp [hb, List.flatMap_cons]⟩
          · refine Or.inr ⟨hr, ?_, pad, ?_⟩
            · simpa [List.flatMap_cons] using hl
            · simpa [List.flatMap_cons] using hb
    · refine ⟨input, cur, buffer, ?_, by omega, hbuf, le_refl _, Or.inl ⟨[], by simp⟩⟩
      unfold fillBuffer
      rw [if_neg hlt]

/-- The outer loop of `encode` when every code of the input has one to eight bits: it
writes the packed bytes of the buffer followed by the codes, and at most one further byte,
which begins with the bits that do not fill a byte. -/
theorem encodeLoop_spec (et : StdMap Int (List Char)) (fuel : Nat) (input : List Int)
    (buffer : List Char)
    (hin : ∀ c ∈ input, 1 ≤ (codeOf et c).length ∧ (codeOf et c).length ≤ 8)
    (hbuf : buffer.length ≤ 7) (hfuel : input.length + 8 ≤ fuel) :
    ∃ extra, encodeLoop et fuel input buffer
        = some (packBits (buffer ++ input.flatMap (codeOf et)) ++ extra) ∧
      extra.length ≤ 1 ∧
      ((buffer ++ input.flatMap (codeOf et)).length % 8 = 0 → extra = []) ∧
      ∀ x ∈ extra, ∃ pad,
        8 ≤ ((buffer ++ input.flatMap (codeOf et)).drop
          (8 * ((buffer ++ input.flatMap (codeOf et)).length / 8)) ++ pad).length ∧
        x = msbValue
          ((buffer ++ input.flatMap (codeOf et)).drop
            (8 * ((buffer ++ input.flatMap (codeOf et)).length / 8)) ++ pad) := by
  induction fuel generalizing input buffer with
  | zero => omega
  | succ fuel ih =>
    cases input with
    | nil =>
      refine ⟨[], ?_, by simp, fun _ => rfl, by simp⟩
      simp [encodeLoop, packBits_short _ (by simpa using Nat.lt_succ_of_le hbuf)]
    | cons c rest =>
      have hc := hin c (List.mem_cons_self _ _)
      have hrest : ∀ x ∈ rest, 1 ≤ (codeOf et x).length ∧ (codeOf et x).length ≤ 8 :=
        fun x hx => hin x (List.mem_cons_of_mem _ hx)
      simp only [List.length_cons] at hfuel
      obtain ⟨rest1, cur1, buffer1, hrun, h8, h15, hlen, hcase⟩ :=
        fillBuffer_spec et fuel rest c (buffer ++ codeOf et c) hrest hc
          (by rw [List.length_append]; omega) (by omega)
      simp only [encodeLoop, hrun]
      rcases hcase with ⟨consumed, hcons, hb⟩ | ⟨hr, hl, pad, hb⟩
      · have hrest1 : ∀ x ∈ rest1, 1 ≤ (codeOf et x).length ∧ (codeOf et x).length ≤ 8 :=
          fun x hx => hrest x (by rw [hcons]; exact List.mem_append_right _ hx)
        obtain ⟨extra, hrec, hex1, hex2, hex3⟩ :=
          ih rest1 (buffer1.drop 8) hrest1 (by rw [List.length_drop]; omega) (by omega)
        have hbits : buffer ++ (c :: rest).flatMap (codeOf et)
            = buffer1 ++ rest1.flatMap (codeOf et) := by
          rw [hb, hcons]
          simp [List.flatMap_cons, List.flatMap_append]
        have hdrop : (buffer1 ++ rest1.flatMap (codeOf et)).drop 8
            = buffer1.drop 8 ++ rest1.flatMap (codeOf et) :=
          List.drop_append_of_le_length h8
        have hlen8 : 8 ≤ (buffer1 ++ rest1.flatMap (codeOf et)).length := by
          rw [List.length_append]; omega
        refine ⟨extra, ?_, hex1, ?_, ?_⟩
        · rw [hrec, hbits, packBits_long _ hlen8, hdrop, msbValue_append _ _ h8,
            byteToFlush_eq_msbValue _ h8]
          rfl
        · intro hmod
          apply hex2
          rw [hbits] at hmod
          rw [← hdrop, List.length_drop]
          omega
        · intro x hx
          obtain ⟨pad', h8', hpad'⟩ := hex3 x hx
          have htail : (buffer ++ (c :: rest).flatMap (codeOf et)).drop
              (8 * ((buffer ++ (c :: rest).flatMap (codeOf et)).length / 8))
              = (buffer1.drop 8 ++ rest1.flatMap (codeOf et)).drop
                (8 * ((buffer1.drop 8 ++ rest1.flatMap (codeOf et)).length / 8)) := by
            rw [hbits, ← hdrop, List.drop_drop, List.length_drop]
            congr 1
            omega
          rw [htail]
          exact ⟨pad', h8', hpad'⟩
      · subst hr
        have hbits : buffer ++ (c :: rest).flatMap (codeOf et)
            = buffer ++ codeOf et c ++ rest.flatMap (codeOf et) := by
          simp [List.flatMap_cons]
        have hshort : (buffer ++ (c :: rest).flatMap (codeOf et)).length < 8 := by
          rw [hbits]; exact hl
        refine ⟨[byteToFlush buffer1], ?_, by simp, ?_, ?_⟩
        · rw [packBits_short _ hshort]
          cases fuel <;> rfl
        · intro hmod
          exfalso
          have : 1 ≤ (buffer ++ (c :: rest).flatMap (codeOf et)).length := by
            rw [hbits]
            simp only [List.length_append]
            omega
          omega
        · intro x hx
          rw [List.mem_singleton] at hx
          have htail : (buffer ++ (c :: rest).flatMap (codeOf et)).drop
              (8 * ((buffer ++ (c :: rest).flatMap (codeOf et)).length / 8)) ++ pad
              = buffer1 := by
            rw [Nat.div_eq_of_lt hshort, hbits, hb]
            rfl
          refine ⟨pad, ?_, ?_⟩
          · rw [htail]
            exact h8
          · rw [htail, hx, byteToFlush_eq_msbValue _ h8]

theorem fillBuffer_empty_code_diverges (fuel : Nat) :
    fillBuffer [(97, [])] fuel [] 97 [] = none := by
  induction fuel with
  | zero => rfl
  | succ fuel ih =>
    unfold fillBuffer
    rw [if_pos (by decide)]
    exact ih

/-! ## The entries of the encode table -/

theorem assignAll_find_of_not_mem {K V : Type} [LinearOrder K] (l : List (K × V))
    (m : StdMap K V) (k : K) (h : k ∉ l.map Prod.fst) :
    StdMap.find (l.foldl (fun m e => StdMap.assign m e.1 e.2) m) k = StdMap.find m k := by
  induction l generalizing m with
  | nil => rfl
  | cons a l ih =>
    simp only [List.map_cons, List.mem_cons, not_or] at h
    rw [List.foldl_cons, ih _ h.2, StdMap.find_assign, if_neg h.1]

theorem assignAll_find_of_mem {K V : Type} [LinearOrder K] (l : List (K × V))
    (m : StdMap K V) (k : K) (h : k ∈ l.map Prod.fst) :
    ∃ v, (k, v) ∈ l ∧ StdMap.find (l.foldl (fun m e => StdMap.assign m e.1 e.2) m) k = some v := by
  induction l generalizing m with
  | nil => simp at h
  | cons a l ih =>
    by_cases hl : k ∈ l.map Prod.fst
    · obtain ⟨v, hv, hf⟩ := ih _ hl
      exact ⟨v, List.mem_cons_of_mem _ hv, hf⟩
    · have ha : k = a.1 := by
        simp only [List.map_cons, List.mem_cons] at h
        rcases h with h | h
        · exact h
        · exact absurd h hl
      refine ⟨a.2, ?_, ?_⟩
      · rw [ha]; exact List.mem_cons_self _ _
      · rw [List.foldl_cons, assignAll_find_of_not_mem _ _ _ hl, StdMap.find_assign, if_pos ha]

theorem codes_keys (t : HuffmanNode) (accumulator : List Char) :
    (codes t accumulator).map Prod.fst = (leaves t).map Prod.fst := by
  induction t generalizing accumulator with
  | null => rfl
  | node character count l r ihl ihr =>
    cases character with
    | some c => rfl
    | none => simp only [codes, leaves, List.map_append, ihl, ihr]

theorem codes_binary {t : HuffmanNode} {accumulator : List Char} {e : Int × List Char}
    (h : e ∈ codes t accumulator) (hacc : ∀ b ∈ accumulator, b = '0' ∨ b = '1') :
    ∀ b ∈ e.2, b = '0' ∨ b = '1' := by
  induction t generalizing accumulator with
  | null => simp [codes] at h
  | node character count l r ihl ihr =>
    cases character with
    | some c =>
      simp only [codes, List.mem_singleton] at h
      subst h
      exact hacc
    | none =>
      simp only [codes, List.mem_append] at h
      rcases h with h | h
      · refine ihl h ?_
        intro b hb
        rcases List.mem_append.mp hb with hb | hb
        · exact hacc b hb
        · exact Or.inl (List.mem_singleton.mp hb)
      · refine ihr h ?_
        intro b hb
        rcases List.mem_append.mp hb with hb | hb
        · exact hacc b hb
        · exact Or.inr (List.mem_singleton.mp hb)

theorem codes_internal_ne_nil {n : Nat} {l r : HuffmanNode} {e : Int × List Char}
    (h : e ∈ codes (HuffmanNode.internal n l r) []) : e.2 ≠ [] := by
  simp only [HuffmanNode.internal, codes, List.mem_append, List.nil_append] at h
  intro hnil
  rcases h with h | h
  · have := codes_extend_accumulator h
    rw [hnil] at this
    simp at this
  · have := codes_extend_accumulator h
    rw [hnil] at this
    simp at this

/-- The table that `HuffmanTree` derives: its keys are in ascending order, it is
prefix-free, its codes are non-empty strings of `0` and `1`, and every supported character
of the input has an entry. -/
theorem huffmanTree_table (pq : PriorityQueue) (input : List Int)
    (encodeTable : StdMap Int (List Char)) (h : HuffmanTree pq input = .ok encodeTable) :
    StdMap.Sorted encodeTable ∧ PrefixFree encodeTable ∧
    (∀ e ∈ encodeTable, e.2 ≠ [] ∧ ∀ b ∈ e.2, b = '0' ∨ b = '1') ∧
    (∀ c ∈ input, 0 ≤ c ∧ c ≤ 127 → ∃ code, (c, code) ∈ encodeTable) ∧
    (∀ e ∈ encodeTable, e.1 ∈ input ∧ 0 ≤ e.1 ∧ e.1 ≤ 127) := by
  have hspec := huffmanTree_spec pq input
  by_cases h2 : 2 ≤ (CountTable input).length
  · obtain ⟨r, -, ⟨n, a, b, hint⟩, hperm, hr⟩ := hspec.1 h2
    rw [hr] at h
    injection h with h
    have hs : StdMap.Sorted encodeTable := by
      rw [← h]; exact assignAll_sorted _ _ StdMap.sorted_nil
    have hsub : ∀ e ∈ encodeTable, e ∈ codes r [] := by
      intro e he
      rw [← h] at he
      rcases assignAll_mem _ _ he with h' | h'
      · exact h'
      · simp at h'
    refine ⟨hs, by rw [← h]; exact prefixFree_of_codes r [], ?_, ?_, ?_⟩
    · intro e he
      have hmem := hsub e he
      refine ⟨?_, codes_binary hmem (by simp)⟩
      rw [hint] at hmem
      exact codes_internal_ne_nil hmem
    · intro c hc hrange
      have h1 : (c, input.count c) ∈ CountTable input :=
        (countTable_mem input c _).mpr ⟨hrange.1, hrange.2, hc, rfl⟩
      have h3 : c ∈ (codes r []).map Prod.fst := by
        rw [codes_keys]
        exact List.mem_map.mpr ⟨_, hperm.symm.subset h1, rfl⟩
      obtain ⟨v, -, hv⟩ := assignAll_find_of_mem (codes r []) [] c h3
      rw [h] at hv
      exact ⟨v, (StdMap.mem_iff_find hs c v).mpr hv⟩
    · intro e he
      have h3 : e.1 ∈ (leaves r).map Prod.fst := by
        rw [← codes_keys r []]
        exact List.mem_map.mpr ⟨e, hsub e he, rfl⟩
      obtain ⟨x, hx, hxe⟩ := List.mem_map.mp h3
      have := (countTable_mem input x.1 x.2).mp (hperm.subset hx)
      rw [hxe] at this
      exact ⟨this.2.2.1, this.1, this.2.1⟩
  · rw [hspec.2 (by omega)] at h
    exact absurd h (by simp)

/-! ## Bytes and bits -/

theorem msbValue_take (bits : List Char) : msbValue bits = msbValue (bits.take 8) := by
  simp [msbValue, List.take_take]

theorem msbBits_msbValue (bits : List Char) (h : 8 ≤ bits.length)
    (hbin : ∀ b ∈ bits, b = '0' ∨ b = '1') : msbBits (msbValue bits) = bits.take 8 := by
  obtain ⟨b0, b1, b2, b3, b4, b5, b6, b7, rest, rfl⟩ :
      ∃ b0 b1 b2 b3 b4 b5 b6 b7 rest, bits = b0 :: b1 :: b2 :: b3 :: b4 :: b5 :: b6 :: b7 :: rest := by
    match bits, h with
    | b0 :: b1 :: b2 :: b3 :: b4 :: b5 :: b6 :: b7 :: rest, _ =>
      exact ⟨b0, b1, b2, b3, b4, b5, b6, b7, rest, rfl⟩
  have h0 := hbin b0 (by simp)
  have h1 := hbin b1 (by simp)
  have h2 := hbin b2 (by simp)
  have h3 := hbin b3 (by simp)
  have h4 := hbin b4 (by simp)
  have h5 := hbin b5 (by simp)
  have h6 := hbin b6 (by simp)
  have h7 := hbin b7 (by simp)
  rw [msbValue_take]
  simp only [List.take_succ_cons, List.take_zero]
  rcases h0 with rfl | rfl <;> rcases h1 with rfl | rfl <;> rcases h2 with rfl | rfl <;>
    rcases h3 with rfl | rfl <;> rcases h4 with rfl | rfl <;> rcases h5 with rfl | rfl <;>
    rcases h6 with rfl | rfl <;> rcases h7 with rfl | rfl <;> decide

/-- The bits of the packed bytes of a string of `0` and `1` whose length is a multiple of
eight are the string itself. -/
theorem packBits_msbBits (bits : List Char) (hbin : ∀ b ∈ bits, b = '0' ∨ b = '1')
    (hlen : bits.length % 8 = 0) : (packBits bits).flatMap msbBits = bits := by
  generalize hn : bits.length = n
  induction n using Nat.strong_induction_on generalizing bits with
  | _ n ih =>
    by_cases h0 : n = 0
    · have : bits = [] := List.length_eq_zero.mp (by omega)
      subst this
      rfl
    · have h8 : 8 ≤ bits.length := by omega
      have hrec := ih (n - 8) (by omega) (bits.drop 8)
        (fun b hb => hbin b (List.mem_of_mem_drop hb))
        (by rw [List.length_drop]; omega) (by rw [List.length_drop]; omega)
      rw [packBits_long _ h8, List.flatMap_cons, hrec, msbBits_msbValue _ h8 hbin,
        List.take_append_drop]

theorem msbValue_normalise (bits : List Char) :
    msbValue (bits.map (fun c => if c = '1' then '1' else '0')) = msbValue bits := by
  unfold msbValue
  rw [← List.map_take, List.foldl_map]
  congr 1
  funext value bit
  by_cases h : bit = '1'
  · simp [h]
  · simp [h]

/-- The bits of the byte that eight characters denote begin with the first of the
characters, when these are characters `0` and `1`. -/
theorem msbBits_msbValue_begins (tail pad : List Char) (hlen : tail.length + pad.length = 8)
    (hbin : ∀ b ∈ tail, b = '0' ∨ b = '1') : tail <+: msbBits (msbValue (tail ++ pad)) := by
  rw [← msbValue_normalise, msbBits_msbValue _ (by simp; omega)
    (by
      intro b hb
      obtain ⟨c, -, rfl⟩ := List.mem_map.mp hb
      by_cases h : c = '1'
      · simp [h]
      · simp [h])]
  rw [List.take_of_length_le (by simp; omega), List.map_append]
  have : tail.map (fun c => if c = '1' then '1' else '0') = tail := by
    conv_rhs => rw [← List.map_id tail]
    refine List.map_congr_left ?_
    intro b hb
    rcases hbin b hb with rfl | rfl <;> decide
  rw [this]
  exact List.prefix_append _ _

/-- A string of eight characters or more denotes the byte of its first eight. -/
theorem msbValue_pad (tail pad : List Char) (ht : tail.length ≤ 8)
    (h8 : 8 ≤ (tail ++ pad).length) :
    tail.length + (pad.take (8 - tail.length)).length = 8 ∧
    msbValue (tail ++ pad) = msbValue (tail ++ pad.take (8 - tail.length)) := by
  rw [List.length_append] at h8
  constructor
  · rw [List.length_take]
    omega
  · rw [msbValue_take (tail ++ pad), msbValue_take (tail ++ pad.take (8 - tail.length)),
      List.take_append_eq_append_take, List.take_append_eq_append_take, List.take_take]
    simp

/-! ## The round trip -/

/-- The round trip of C1 where the code keeps it: when `HuffmanTree` derives a table from
an input of bytes `0..127` (which needs two distinct bytes), no byte of the input has a
code of more than eight bits, and the encoded length is a multiple of eight, then `encode`
ends and `decode` returns the input from its output. -/
theorem round_trip_short_codes (pq : PriorityQueue) (input : List Int)
    (encodeTable : StdMap Int (List Char))
    (hrange : ∀ c ∈ input, 0 ≤ c ∧ c ≤ 127)
    (htable : HuffmanTree pq input = .ok encodeTable)
    (hshort : ∀ c ∈ input, (codeOf encodeTable c).length ≤ 8)
    (hlen : (input.flatMap (codeOf encodeTable)).length % 8 = 0) :
    ∃ fuel output, encode fuel input encodeTable = some output ∧
      decode (output.map charOfByte) (getDecodeTable encodeTable) = input := by
  obtain ⟨hs, hpf, hcodes, hcover, -⟩ := huffmanTree_table pq input encodeTable htable
  obtain ⟨hsd, hfind, -⟩ := getDecodeTable_spec encodeTable (pairwise_codes_ne hs hpf)
  -- the code of every byte of the input is its entry
  have hentry : ∀ c ∈ input, (c, codeOf encodeTable c) ∈ encodeTable := by
    intro c hc
    obtain ⟨code, hcode⟩ := hcover c hc (hrange c hc)
    have := (StdMap.mem_iff_find hs c code).mp hcode
    have hco : codeOf encodeTable c = code := by
      simp [codeOf, StdMap.readOrDefault, this]
    rw [hco]
    exact hcode
  have hbounds : ∀ c ∈ input,
      1 ≤ (codeOf encodeTable c).length ∧ (codeOf encodeTable c).length ≤ 8 := by
    intro c hc
    refine ⟨?_, hshort c hc⟩
    have := (hcodes _ (hentry c hc)).1
    exact List.length_pos.mpr this
  have hbin : ∀ b ∈ input.flatMap (codeOf encodeTable), b = '0' ∨ b = '1' := by
    intro b hb
    obtain ⟨c, hc, hbc⟩ := List.mem_flatMap.mp hb
    exact (hcodes _ (hentry c hc)).2 b hbc
  obtain ⟨extra, hrun, -, hextra, -⟩ :=
    encodeLoop_spec encodeTable (input.length + 8) input [] hbounds (by simp) (le_refl _)
  rw [List.nil_append] at hrun hextra
  rw [hextra hlen, List.append_nil] at hrun
  refine ⟨input.length + 8, _, hrun, ?_⟩
  -- the decode table
  have hne : StdMap.find (getDecodeTable encodeTable) [] = none := by
    cases h : StdMap.find (getDecodeTable encodeTable) [] with
    | none => rfl
    | some b => exact absurd rfl (hcodes _ ((hfind [] b).mp h)).1
  have hkeys : ∀ k1 k2, (StdMap.find (getDecodeTable encodeTable) k1).isSome →
      (StdMap.find (getDecodeTable encodeTable) k2).isSome → k1 <+: k2 → k1 = k2 := by
    intro k1 k2 h1 h2 hpre
    obtain ⟨b1, hb1⟩ := Option.isSome_iff_exists.mp h1
    obtain ⟨b2, hb2⟩ := Option.isSome_iff_exists.mp h2
    have m1 := (hfind k1 b1).mp hb1
    have m2 := (hfind k2 b2).mp hb2
    by_cases hb : b1 = b2
    · subst hb
      have e1 := (StdMap.mem_iff_find hs b1 k1).mp m1
      have e2 := (StdMap.mem_iff_find hs b1 k2).mp m2
      rw [e1] at e2
      exact Option.some.inj e2
    · exact absurd hpre (hpf _ m1 _ m2 hb)
  have hscan := scan_codes (getDecodeTable encodeTable) hne hkeys
    (input.map (fun c => (codeOf encodeTable c, c)))
    (by
      intro e he
      obtain ⟨c, hc, rfl⟩ := List.mem_map.mp he
      exact (hfind _ _).mpr (hentry c hc))
    [] (noKeyPrefix_nil _)
  have hflat : ∀ l : List Int, (l.map (fun c => (codeOf encodeTable c, c))).flatMap Prod.fst
      = l.flatMap (codeOf encodeTable) := by
    intro l
    induction l with
    | nil => rfl
    | cons a l ih => rw [List.map_cons, List.flatMap_cons, List.flatMap_cons, ih]
  have hmap : (input.map (fun c => (codeOf encodeTable c, c))).map Prod.snd = input := by
    rw [List.map_map]
    exact List.map_id _
  rw [List.append_nil, hflat, hmap] at hscan
  rw [decode_eq_scan, expandByte_stream, packBits_msbBits _ hbin hlen, hscan]

/-- Witness of `round_trip_short_codes`: the input `b,a,a,a,a,a,a,a`, of eight bits. -/
theorem round_trip_short_codes_witness :
    ∃ fuel output,
      encode fuel [98, 97, 97, 97, 97, 97, 97, 97] [(97, ['1']), (98, ['0'])] = some output ∧
      decode (output.map charOfByte) (getDecodeTable [(97, ['1']), (98, ['0'])])
        = [98, 97, 97, 97, 97, 97, 97, 97] :=
  round_trip_short_codes listQueue [98, 97, 97, 97, 97, 97, 97, 97] [(97, ['1']), (98, ['0'])]
    (by decide) (by decide) (by decide) (by decide)

/-! ## The shape and the counts of the tree -/

theorem fullBinary_of_isTree {t : HuffmanNode} (h : IsTree t) : FullBinary t := by
  induction h with
  | leaf c n => simp [HuffmanNode.leaf, FullBinary]
  | internal n l r hl hr ihl ihr =>
    cases l with
    | null => exact absurd rfl (isTree_ne_null hl)
    | node a b c d =>
      cases r with
      | null => exact absurd rfl (isTree_ne_null hr)
      | node a' b' c' d' => exact ⟨ihl, ihr⟩

/-- What holds of the nodes of the queue and is kept by the merge of `buildTree` holds of
the nodes of the queue that `buildTree` leaves. -/
theorem buildTreeLoop_invariant (pq : PriorityQueue) (P : HuffmanNode → Prop)
    (hP : ∀ a b, P a → P b → P (HuffmanNode.internal (a.getCount + b.getCount) a b))
    (fuel : Nat) (q : pq.Q) (root : Option HuffmanNode) (q' : pq.Q)
    (root' : Option HuffmanNode) (hq : ∀ n ∈ pq.elems q, P n)
    (hrun : buildTreeLoop pq fuel q root = some (q', root')) :
    ∀ n ∈ pq.elems q', P n := by
  induction fuel generalizing q root with
  | zero =>
    unfold buildTreeLoop at hrun
    split_ifs at hrun
    simp only [Option.some.injEq, Prod.mk.injEq] at hrun
    rw [← hrun.1]
    exact hq
  | succ fuel ih =>
    unfold buildTreeLoop at hrun
    split_ifs at hrun with h2
    · have hne : pq.elems q ≠ [] := pq.elems_ne_nil (by omega)
      have hsz1 := pq.size_pop hne
      have hne1 : pq.elems (pq.pop q) ≠ [] := pq.elems_ne_nil (by omega)
      refine ih _ _ ?_ hrun
      intro n hn
      rcases List.mem_cons.mp ((pq.elems_push _ _).subset hn) with h | h
      · rw [h]
        exact hP _ _ (hq _ (pq.top_mem hne))
          (hq _ (pq.mem_of_mem_pop hne (pq.top_mem hne1)))
      · exact hq _ (pq.mem_of_mem_pop hne (pq.mem_of_mem_pop hne1 h))
    · simp only [Option.some.injEq, Prod.mk.injEq] at hrun
      rw [← hrun.1]
      exact hq

theorem getCount_eq_leafSum {t : HuffmanNode} (ht : IsTree t) (hw : WeightOK t) :
    t.getCount = leafSum t := by
  induction ht with
  | leaf c n => simp [HuffmanNode.leaf, HuffmanNode.getCount, leafSum, leaves]
  | internal n l r hl hr ihl ihr =>
    simp only [HuffmanNode.internal, WeightOK] at hw
    simp only [HuffmanNode.internal, HuffmanNode.getCount, leafSum, leaves, List.map_append,
      List.sum_append]
    rw [hw.1, ihl hw.2.1, ihr hw.2.2]
    rfl

theorem leafSums_of_weightOK {t : HuffmanNode} (ht : IsTree t) (hw : WeightOK t) :
    LeafSums t := by
  induction ht with
  | leaf c n => simp [HuffmanNode.leaf, LeafSums]
  | internal n l r hl hr ihl ihr =>
    simp only [HuffmanNode.internal, WeightOK] at hw
    simp only [HuffmanNode.internal, LeafSums]
    exact ⟨by rw [hw.1, getCount_eq_leafSum hl hw.2.1, getCount_eq_leafSum hr hw.2.2],
      ihl hw.2.1, ihr hw.2.2⟩

/-- The root that `buildTree` assigns from a queue of leaves: a tree whose counts add up. -/
theorem buildTree_root (pq : PriorityQueue) (counts : StdMap Int Nat) (q : pq.Q)
    (r : HuffmanNode)
    (hrun : buildTree pq (populateQueue pq counts) none = some (q, some r)) :
    2 ≤ counts.length ∧ IsTree r ∧ (∃ n a b, r = HuffmanNode.internal n a b) ∧
    WeightOK r ∧ (leaves r).Perm counts := by
  have htree := isTree_populateQueue pq counts
  obtain ⟨q', root', hrun', hbig, hsmall, hroot, htree', hperm⟩ :=
    buildTreeLoop_spec pq (pq.size (populateQueue pq counts)) _ none (by omega) htree
  unfold buildTree at hrun
  rw [hrun] at hrun'
  simp only [Option.some.injEq, Prod.mk.injEq] at hrun'
  obtain ⟨hq, hr⟩ := hrun'
  subst hq hr
  have h2 : 2 ≤ pq.size (populateQueue pq counts) := by
    by_contra hlt
    have := (hsmall (by omega)).2
    exact absurd this (by simp)
  obtain ⟨r', hr', hq'⟩ := hbig h2
  have hrr : r' = r := (Option.some.inj hr').symm
  subst hrr
  have hmem : r' ∈ pq.elems q := by rw [hq']; exact List.mem_cons_self _ _
  have hw : ∀ n ∈ pq.elems q, WeightOK n := by
    refine buildTreeLoop_invariant pq WeightOK ?_ _ _ none q (some r') ?_ hrun
    · intro a b ha hb
      exact ⟨rfl, ha, hb⟩
    · intro n hn
      obtain ⟨e, -, rfl⟩ := List.mem_map.mp ((elems_populateQueue pq counts).subset hn)
      simp [HuffmanNode.leaf, WeightOK]
  refine ⟨by rw [← size_populateQueue pq counts]; exact h2, htree' _ hmem, ?_, hw _ hmem, ?_⟩
  · rcases hroot with h | ⟨n, a, b, h⟩
    · exact absurd h (by simp)
    · exact ⟨n, a, b, Option.some.inj h⟩
  · rw [hq'] at hperm
    have : (leaves r').Perm ((pq.elems (populateQueue pq counts)).flatMap leaves) := by
      simpa using hperm
    exact this.trans (leaves_populateQueue pq counts)

/-- From two entries on, `buildTree` assigns a root. -/
theorem buildTree_assigns (pq : PriorityQueue) (counts : StdMap Int Nat)
    (h2 : 2 ≤ counts.length) :
    ∃ q r, buildTree pq (populateQueue pq counts) none = some (q, some r) := by
  obtain ⟨q', root', hrun', hbig, -, -, -, -⟩ :=
    buildTreeLoop_spec pq (pq.size (populateQueue pq counts)) _ none (by omega)
      (isTree_populateQueue pq counts)
  obtain ⟨r, hr, -⟩ := hbig (by rw [size_populateQueue]; exact h2)
  exact ⟨q', r, by unfold buildTree; rw [hrun', hr]⟩

/-- The keys of the table that `HuffmanTree` derives are the keys of the count table. -/
theorem huffmanTree_keys (pq : PriorityQueue) (input : List Int)
    (encodeTable : StdMap Int (List Char)) (h : HuffmanTree pq input = .ok encodeTable) :
    encodeTable.map Prod.fst = (CountTable input).map Prod.fst := by
  obtain ⟨hs, -, -, hcover, hkeys⟩ := huffmanTree_table pq input encodeTable h
  obtain ⟨hsc, -, -⟩ := countTable_invariant input
  have hs1 : (encodeTable.map Prod.fst).Sorted (· < ·) := hs
  have hs2 : ((CountTable input).map Prod.fst).Sorted (· < ·) := hsc
  refine List.eq_of_perm_of_sorted ?_ hs1 hs2
  refine (List.perm_ext_iff_of_nodup hs1.nodup hs2.nodup).mpr ?_
  intro c
  constructor
  · intro hc
    obtain ⟨e, he, rfl⟩ := List.mem_map.mp hc
    obtain ⟨h1, h2, h3⟩ := hkeys e he
    exact List.mem_map.mpr ⟨(e.1, input.count e.1),
      (countTable_mem input _ _).mpr ⟨h2, h3, h1, rfl⟩, rfl⟩
  · intro hc
    obtain ⟨e, he, rfl⟩ := List.mem_map.mp hc
    obtain ⟨h1, h2, h3, -⟩ := (countTable_mem input e.1 e.2).mp he
    obtain ⟨code, hcode⟩ := hcover e.1 h3 ⟨h1, h2⟩
    exact List.mem_map.mpr ⟨_, hcode, rfl⟩

set_option maxRecDepth 100000 in
theorem byteToFlush_msbBits_fin :
    ∀ r : Fin 256, byteToFlush (msbBits r.val) = r.val := by
  decide

/-! ## What `encode` emits, for every table -/

theorem StdMap.find_mem {K V : Type} [LinearOrder K] {m : StdMap K V} {k : K} {v : V}
    (h : StdMap.find m k = some v) : (k, v) ∈ m := by
  induction m with
  | nil => simp [StdMap.find] at h
  | cons a m ih =>
    obtain ⟨a1, a2⟩ := a
    simp only [StdMap.find] at h
    split_ifs at h with hk
    · subst hk
      rw [Option.some.inj h]
      exact List.mem_cons_self _ _
    · exact List.mem_cons_of_mem _ (ih h)

theorem codeOf_binary {et : StdMap Int (List Char)}
    (hbin : ∀ e ∈ et, ∀ b ∈ e.2, b = '0' ∨ b = '1') (c : Int) :
    ∀ b ∈ codeOf et c, b = '0' ∨ b = '1' := by
  unfold codeOf StdMap.readOrDefault
  cases h : StdMap.find et c with
  | none => simp
  | some p => exact hbin _ (StdMap.find_mem h)

/-- What the inner loop of `encode` returns, when it returns: the codes of the characters
that it has read are appended to the buffer, and, when the input has ended, the code of
the last character some more times. -/
theorem fillBuffer_result (et : StdMap Int (List Char)) (fuel : Nat) (input : List Int)
    (cur : Int) (buffer : List Char) (rest1 : List Int) (cur1 : Int) (buffer1 : List Char)
    (h : fillBuffer et fuel input cur buffer = some (rest1, cur1, buffer1)) :
    ∃ consumed k, input = consumed ++ rest1 ∧
      (cur :: consumed).getLast? = some cur1 ∧
      buffer1 = buffer ++ consumed.flatMap (codeOf et)
        ++ (List.replicate k (codeOf et cur1)).flatten ∧
      (k ≠ 0 → rest1 = []) ∧ 8 ≤ buffer1.length := by
  induction fuel generalizing input cur buffer with
  | zero =>
    unfold fillBuffer at h
    split_ifs at h with hlt
    simp only [Option.some.injEq, Prod.mk.injEq] at h
    obtain ⟨rfl, rfl, rfl⟩ := h
    exact ⟨[], 0, by simp, by simp, by simp, by simp, by omega⟩
  | succ fuel ih =>
    unfold fillBuffer at h
    split_ifs at h with hlt
    · cases input with
      | nil =>
        obtain ⟨consumed, k, hc, hlast, hb, hk, h8⟩ := ih _ _ _ h
        have hcons : consumed = [] := by
          cases consumed with
          | nil => rfl
          | cons a l => simp at hc
        subst hcons
        have hr : rest1 = [] := by simpa using hc.symm
        have hcur : cur1 = cur := by simpa using hlast.symm
        subst hcur
        refine ⟨[], k + 1, by simp [hr], by simp, ?_, fun _ => hr, h8⟩
        rw [hb]
        simp [List.replicate_succ]
      | cons c rest =>
        obtain ⟨consumed, k, hc, hlast, hb, hk, h8⟩ := ih _ _ _ h
        refine ⟨c :: consumed, k, by simp [hc], ?_, ?_, hk, h8⟩
        · rw [List.getLast?_cons_cons]
          exact hlast
        · rw [hb]
          simp [List.flatMap_cons]
    · simp only [Option.some.injEq, Prod.mk.injEq] at h
      obtain ⟨rfl, rfl, rfl⟩ := h
      exact ⟨[], 0, by simp, by simp, by simp, by simp, by omega⟩

theorem getLast?_append_of_ne_nil {α : Type} (l1 : List α) {l2 : List α} (h : l2 ≠ []) :
    (l1 ++ l2).getLast? = l2.getLast? := by
  induction l1 with
  | nil => rfl
  | cons a l ih =>
    cases hl : l ++ l2 with
    | nil => simp [h] at hl
    | cons b t =>
      rw [List.cons_append, hl, List.getLast?_cons_cons, ← hl, ih]

/-- What the outer loop of `encode` writes, when it ends: at most one byte for each
character of the input, and bytes that begin the packing of the buffer, the codes of the
input and some repetitions of the code of the last character. -/
theorem encodeLoop_result (et : StdMap Int (List Char)) (fuel : Nat) (input : List Int)
    (buffer : List Char) (out : List Nat)
    (h : encodeLoop et fuel input buffer = some out) :
    out.length ≤ input.length ∧
    outerIterations et fuel input buffer = some out.length ∧
    (input = [] → out = []) ∧
    ∀ last, input.getLast? = some last → ∃ k,
      out <+: packBits (buffer ++ input.flatMap (codeOf et)
        ++ (List.replicate k (codeOf et last)).flatten) := by
  induction fuel generalizing input buffer out with
  | zero =>
    cases input with
    | nil =>
      simp only [encodeLoop, Option.some.injEq] at h
      subst h
      exact ⟨le_refl _, rfl, fun _ => rfl, by simp⟩
    | cons c rest => simp [encodeLoop] at h
  | succ fuel ih =>
    cases input with
    | nil =>
      simp only [encodeLoop, Option.some.injEq] at h
      subst h
      exact ⟨le_refl _, rfl, fun _ => rfl, by simp⟩
    | cons c rest =>
      simp only [encodeLoop] at h
      cases hf : fillBuffer et fuel rest c (buffer ++ codeOf et c) with
      | none => simp [hf] at h
      | some r =>
        obtain ⟨rest1, cur1, buffer1⟩ := r
        simp only [hf] at h
        cases he : encodeLoop et fuel rest1 (List.drop 8 buffer1) with
        | none => simp [he] at h
        | some out' =>
          simp only [he, Option.some.injEq] at h
          subst h
          obtain ⟨consumed, k, hc, hlast, hb, hk, h8⟩ := fillBuffer_result et _ _ _ _ _ _ _ hf
          obtain ⟨hlen', hiter', hnil', hpre'⟩ := ih _ _ _ he
          have hrl : rest1.length ≤ rest.length := by
            rw [hc]; simp
          refine ⟨by simp only [List.length_cons]; omega, ?_, by simp, ?_⟩
          · simp only [outerIterations, hf, hiter', List.length_cons]
          · intro last hl
            by_cases hr : rest1 = []
            · subst hr
              have hout' : out' = [] := hnil' rfl
              subst hout'
              simp only [List.append_nil] at hc
              subst hc
              have hcl : cur1 = last := by
                rw [hlast] at hl
                exact Option.some.inj hl
              subst hcl
              refine ⟨k, ?_⟩
              have hT : buffer ++ (c :: rest).flatMap (codeOf et)
                  ++ (List.replicate k (codeOf et cur1)).flatten = buffer1 := by
                rw [hb]; simp [List.flatMap_cons]
              rw [hT, packBits_long _ h8, byteToFlush_eq_msbValue _ h8]
              exact List.prefix_iff_eq_append.mpr (by simp)
            · have hk0 : k = 0 := by
                by_contra hk0
                exact hr (hk hk0)
              subst hk0
              have hl1 : rest1.getLast? = some last := by
                rw [← hl, hc, ← List.cons_append, getLast?_append_of_ne_nil _ hr]
              obtain ⟨k', hk'⟩ := hpre' last hl1
              refine ⟨k', ?_⟩
              have hT : buffer ++ (c :: rest).flatMap (codeOf et)
                  ++ (List.replicate k' (codeOf et last)).flatten
                  = buffer1 ++ (rest1.flatMap (codeOf et)
                    ++ (List.replicate k' (codeOf et last)).flatten) := by
                rw [hb, hc]
                simp [List.flatMap_cons, List.flatMap_append]
              have hlen8 : 8 ≤ (buffer1 ++ (rest1.flatMap (codeOf et)
                    ++ (List.replicate k' (codeOf et last)).flatten)).length := by
                rw [List.length_append]; omega
              rw [hT, packBits_long _ hlen8, msbValue_append _ _ h8,
                byteToFlush_eq_msbValue _ h8, List.drop_append_of_le_length h8,
                ← List.append_assoc]
              exact (List.prefix_cons_inj _).mpr hk'

/-- The inner loop of `encode` ends when the code of the last character that it can read
is not empty: every iteration reads a character or, at the end of the input, appends a
bit or more. -/
theorem fillBuffer_terminates (et : StdMap Int (List Char)) (fuel : Nat) (input : List Int)
    (cur : Int) (buffer : List Char)
    (hlast : ∀ last, (cur :: input).getLast? = some last → codeOf et last ≠ [])
    (hfuel : input.length + (8 - buffer.length) ≤ fuel) :
    ∃ r, fillBuffer et fuel input cur buffer = some r := by
  induction fuel generalizing input cur buffer with
  | zero =>
    refine ⟨(input, cur, buffer), ?_⟩
    unfold fillBuffer
    rw [if_neg (by omega)]
  | succ fuel ih =>
    unfold fillBuffer
    by_cases hlt : buffer.length < 8
    · rw [if_pos hlt]
      cases input with
      | nil =>
        have hne : codeOf et cur ≠ [] := hlast cur rfl
        have hpos : 0 < (codeOf et cur).length := List.length_pos.mpr hne
        exact ih [] cur _ hlast (by
          simp only [List.length_nil, List.length_append, Nat.zero_add] at hfuel ⊢
          omega)
      | cons c rest =>
        refine ih rest c _ ?_ (by
          simp only [List.length_cons, List.length_append] at hfuel ⊢
          omega)
        intro last hl
        exact hlast last (by rw [List.getLast?_cons_cons]; exact hl)
    · rw [if_neg hlt]
      exact ⟨_, rfl⟩

/-- The loop of `encode` ends when the code of the last character of the input is not
empty. -/
theorem encodeLoop_terminates (et : StdMap Int (List Char)) (fuel : Nat) (input : List Int)
    (buffer : List Char)
    (hlast : ∀ last, input.getLast? = some last → codeOf et last ≠ [])
    (hfuel : input.length + 8 ≤ fuel) :
    ∃ out, encodeLoop et fuel input buffer = some out := by
  induction fuel generalizing input buffer with
  | zero => omega
  | succ fuel ih =>
    cases input with
    | nil => exact ⟨[], rfl⟩
    | cons c rest =>
      simp only [List.length_cons] at hfuel
      obtain ⟨r, hf⟩ := fillBuffer_terminates et fuel rest c (buffer ++ codeOf et c) hlast
        (by omega)
      obtain ⟨rest1, cur1, buffer1⟩ := r
      obtain ⟨consumed, k, hc, -, -, -, -⟩ := fillBuffer_result et _ _ _ _ _ _ _ hf
      have hrl : rest1.length ≤ rest.length := by
        rw [hc]; simp
      obtain ⟨out', he⟩ := ih rest1 (buffer1.drop 8) (by
        intro last hl
        have hr : rest1 ≠ [] := by
          intro h0
          rw [h0] at hl
          simp at hl
        refine hlast last ?_
        rw [hc, ← List.cons_append, getLast?_append_of_ne_nil _ hr]
        exact hl) (by omega)
      exact ⟨byteToFlush buffer1 :: out', by simp only [encodeLoop, hf, he]⟩

theorem fillBuffer_empty_code_never (et : StdMap Int (List Char)) (c : Int)
    (hc : codeOf et c = []) (fuel n : Nat) :
    fillBuffer et fuel (List.replicate n c) c [] = none := by
  induction fuel generalizing n with
  | zero => rfl
  | succ fuel ih =>
    unfold fillBuffer
    rw [if_pos (by decide)]
    cases n with
    | zero =>
      simp only [List.replicate_zero, hc, List.append_nil]
      exact ih 0
    | succ n =>
      simp only [List.replicate_succ, hc, List.append_nil]
      exact ih n

/-- On an input of one repeated character whose code is empty or missing, `encode` does
not end. -/
theorem encode_empty_code_never (et : StdMap Int (List Char)) (c : Int)
    (hc : codeOf et c = []) (fuel n : Nat) :
    encode fuel (List.replicate (n + 1) c) et = none := by
  cases fuel with
  | zero => rfl
  | succ fuel =>
    simp only [encode, List.replicate_succ, encodeLoop, hc, List.append_nil]
    rw [fillBuffer_empty_code_never et c hc fuel]

/-- The bits of the packed bytes of a string of `0` and `1` begin the string. -/
theorem packBits_msbBits_le (bits : List Char) (hbin : ∀ b ∈ bits, b = '0' ∨ b = '1') :
    (packBits bits).flatMap msbBits <+: bits := by
  generalize hn : bits.length = n
  induction n using Nat.strong_induction_on generalizing bits with
  | _ n ih =>
    by_cases h8 : 8 ≤ bits.length
    · have hrec := ih (n - 8) (by omega) (bits.drop 8)
        (fun b hb => hbin b (List.mem_of_mem_drop hb)) (by rw [List.length_drop]; omega)
      rw [packBits_long _ h8, List.flatMap_cons, msbBits_msbValue _ h8 hbin]
      conv_rhs => rw [← List.take_append_drop 8 bits]
      exact (List.prefix_append_right_inj _).mpr hrec
    · rw [packBits_short _ (by omega)]
      exact List.nil_prefix

theorem flatMap_isPrefix {α β : Type} (f : α → List β) {l1 l2 : List α} (h : l1 <+: l2) :
    l1.flatMap f <+: l2.flatMap f := by
  obtain ⟨t, rfl⟩ := h
  rw [List.flatMap_append]
  exact List.prefix_append _ _

/-! ## Decoding the beginning of a sequence of codes -/

/-- The matching of `decode` on a string that begins a sequence of keys writes the
beginning of the sequence of their values, when no key is a prefix of another key. -/
theorem scan_of_codes_isPrefix (dt : StdMap (List Char) Int)
    (hne : StdMap.find dt [] = none)
    (hpf : ∀ k1 k2, (StdMap.find dt k1).isSome → (StdMap.find dt k2).isSome →
      k1 <+: k2 → k1 = k2)
    (s : List (List Char × Int)) (hs : ∀ e ∈ s, StdMap.find dt e.1 = some e.2)
    (bits : List Char) (hbits : bits <+: s.flatMap Prod.fst) :
    ∃ j, (scan dt bits []).1 = (s.take j).map Prod.snd := by
  induction s generalizing bits with
  | nil =>
    have : bits = [] := List.prefix_nil.mp (by simpa using hbits)
    subst this
    exact ⟨0, rfl⟩
  | cons e s ih =>
    have he := hs e (List.mem_cons_self _ _)
    have hene : e.1 ≠ [] := by
      intro h
      rw [h, hne] at he
      exact absurd he (by simp)
    rw [List.flatMap_cons] at hbits
    by_cases hcase : e.1 <+: bits
    · obtain ⟨rest, rfl⟩ := hcase
      have hrest : rest <+: s.flatMap Prod.fst := (List.prefix_append_right_inj _).mp hbits
      obtain ⟨j, hj⟩ := ih (fun e' he' => hs e' (List.mem_cons_of_mem _ he')) rest hrest
      refine ⟨j + 1, ?_⟩
      rw [scan_key dt hpf he hene, List.take_succ_cons, List.map_cons, hj]
    · have hnk : NoKeyPrefix dt bits := by
        intro p hp hpre
        cases hfind : StdMap.find dt p with
        | none => rfl
        | some v =>
          exfalso
          have h1 : p <+: e.1 ++ s.flatMap Prod.fst := hpre.trans hbits
          have h2 : e.1 <+: e.1 ++ s.flatMap Prod.fst := List.prefix_append _ _
          rcases List.prefix_or_prefix_of_prefix h1 h2 with h3 | h3
          · have := hpf p e.1 (by simp [hfind]) (by simp [he]) h3
            exact hcase (this ▸ hpre)
          · have := hpf e.1 p (by simp [he]) (by simp [hfind]) h3
            exact hcase (this ▸ hpre)
      have := scan_restart dt bits [] [] (by simpa using hnk)
      refine ⟨0, ?_⟩
      simp only [List.append_nil, List.nil_append] at this
      rw [this]
      rfl

/-- Two distinct supported bytes in the input give the count table two entries. -/
theorem countTable_two_entries (input : List Int) (a b : Int) (ha : a ∈ input)
    (hb : b ∈ input) (hab : a ≠ b) (hra : 0 ≤ a ∧ a ≤ 127) (hrb : 0 ≤ b ∧ b ≤ 127) :
    2 ≤ (CountTable input).length := by
  have h1 : (a, input.count a) ∈ CountTable input :=
    (countTable_mem input a _).mpr ⟨hra.1, hra.2, ha, rfl⟩
  have h2 : (b, input.count b) ∈ CountTable input :=
    (countTable_mem input b _).mpr ⟨hrb.1, hrb.2, hb, rfl⟩
  match hct : CountTable input with
  | [] => rw [hct] at h1; simp at h1
  | [x] =>
    rw [hct] at h1 h2
    simp only [List.mem_singleton] at h1 h2
    rw [← h2] at h1
    exact absurd (congrArg Prod.fst h1) hab
  | x :: y :: l => simp

/-- Compressing an input of bytes `0..127` that has two distinct bytes and decompressing
the result gives an output of which the input is a prefix, or which is a prefix of the
input. -/
theorem compress_decompress_comparable (pq : PriorityQueue) (input : List Int)
    (hrange : ∀ c ∈ input, 0 ≤ c ∧ c ≤ 127)
    (h2 : 2 ≤ (CountTable input).length) :
    ∃ encodeTable fuel output, HuffmanTree pq input = .ok encodeTable ∧
      encode fuel input encodeTable = some output ∧
      (decode (output.map charOfByte) (getDecodeTable encodeTable) <+: input ∨
        input <+: decode (output.map charOfByte) (getDecodeTable encodeTable)) := by
  obtain ⟨r, -, -, -, htable⟩ := (huffmanTree_spec pq input).1 h2
  obtain ⟨hs, hpf, hcodes, hcover, -⟩ := huffmanTree_table pq input _ htable
  set encodeTable := (codes r []).foldl (fun m e => StdMap.assign m e.1 e.2) [] with het
  obtain ⟨-, hfind, -⟩ := getDecodeTable_spec encodeTable (pairwise_codes_ne hs hpf)
  have hentry : ∀ c ∈ input, (c, codeOf encodeTable c) ∈ encodeTable := by
    intro c hc
    obtain ⟨code, hcode⟩ := hcover c hc (hrange c hc)
    have := (StdMap.mem_iff_find hs c code).mp hcode
    have hco : codeOf encodeTable c = code := by
      simp [codeOf, StdMap.readOrDefault, this]
    rw [hco]
    exact hcode
  have hlast : ∀ last, input.getLast? = some last → codeOf encodeTable last ≠ [] := by
    intro last hl
    exact (hcodes _ (hentry last (List.mem_of_mem_getLast? hl))).1
  obtain ⟨output, hrun⟩ := encodeLoop_terminates encodeTable (input.length + 8) input []
    hlast (le_refl _)
  refine ⟨encodeTable, input.length + 8, output, htable, hrun, ?_⟩
  have hbin : ∀ e ∈ encodeTable, ∀ b ∈ e.2, b = '0' ∨ b = '1' := fun e he => (hcodes e he).2
  -- the decode table
  have hne : StdMap.find (getDecodeTable encodeTable) [] = none := by
    cases h : StdMap.find (getDecodeTable encodeTable) [] with
    | none => rfl
    | some b => exact absurd rfl (hcodes _ ((hfind [] b).mp h)).1
  have hkeys : ∀ k1 k2, (StdMap.find (getDecodeTable encodeTable) k1).isSome →
      (StdMap.find (getDecodeTable encodeTable) k2).isSome → k1 <+: k2 → k1 = k2 := by
    intro k1 k2 h1 h2 hpre
    obtain ⟨b1, hb1⟩ := Option.isSome_iff_exists.mp h1
    obtain ⟨b2, hb2⟩ := Option.isSome_iff_exists.mp h2
    have m1 := (hfind k1 b1).mp hb1
    have m2 := (hfind k2 b2).mp hb2
    by_cases hb : b1 = b2
    · subst hb
      have e1 := (StdMap.mem_iff_find hs b1 k1).mp m1
      have e2 := (StdMap.mem_iff_find hs b1 k2).mp m2
      rw [e1] at e2
      exact Option.some.inj e2
    · exact absurd hpre (hpf _ m1 _ m2 hb)
  cases hin : input with
  | nil =>
    left
    rw [hin] at hrun
    simp only [List.length_nil, Nat.zero_add, encodeLoop, Option.some.injEq] at hrun
    rw [← hrun]
    exact List.prefix_rfl
  | cons c0 rest0 =>
    have hne' : input ≠ [] := by rw [hin]; simp
    rw [← hin]
    obtain ⟨-, -, -, hpre⟩ := encodeLoop_result encodeTable _ input [] output hrun
    obtain ⟨k, hk⟩ := hpre (input.getLast hne') (List.getLast?_eq_getLast _ hne')
    rw [List.nil_append] at hk
    set last := input.getLast hne' with hlastdef
    have hlastmem : last ∈ input := List.getLast_mem hne'
    have hT : input.flatMap (codeOf encodeTable)
        ++ (List.replicate k (codeOf encodeTable last)).flatten
        = ((input ++ List.replicate k last).map
            (fun c => (codeOf encodeTable c, c))).flatMap Prod.fst := by
      have hflat : ∀ l : List Int,
          (l.map (fun c => (codeOf encodeTable c, c))).flatMap Prod.fst
            = l.flatMap (codeOf encodeTable) := by
        intro l
        induction l with
        | nil => rfl
        | cons a l ih => rw [List.map_cons, List.flatMap_cons, List.flatMap_cons, ih]
      rw [hflat, List.flatMap_append]
      congr 1
      exact (List.flatMap_replicate (codeOf encodeTable)).symm
    have hbitsT : ∀ b ∈ input.flatMap (codeOf encodeTable)
        ++ (List.replicate k (codeOf encodeTable last)).flatten, b = '0' ∨ b = '1' := by
      intro b hb
      rcases List.mem_append.mp hb with hb | hb
      · obtain ⟨c, -, hc⟩ := List.mem_flatMap.mp hb
        exact codeOf_binary hbin c b hc
      · obtain ⟨l, hl, hbl⟩ := List.mem_flatten.mp hb
        rw [List.eq_of_mem_replicate hl] at hbl
        exact codeOf_binary hbin _ b hbl
    have hbits : output.flatMap msbBits
        <+: ((input ++ List.replicate k last).map
            (fun c => (codeOf encodeTable c, c))).flatMap Prod.fst := by
      rw [← hT]
      exact (flatMap_isPrefix msbBits hk).trans (packBits_msbBits_le _ hbitsT)
    obtain ⟨j, hj⟩ := scan_of_codes_isPrefix (getDecodeTable encodeTable) hne hkeys _
      (by
        intro e he
        obtain ⟨c, hc, rfl⟩ := List.mem_map.mp he
        have hcin : c ∈ input := by
          rcases List.mem_append.mp hc with h | h
          · exact h
          · rw [List.eq_of_mem_replicate h]; exact hlastmem
        exact (hfind _ _).mpr (hentry c hcin))
      _ hbits
    have hdec : decode (output.map charOfByte) (getDecodeTable encodeTable)
        = (input ++ List.replicate k last).take j := by
      rw [decode_eq_scan, expandByte_stream, hj, ← List.map_take, List.map_map]
      exact List.map_id _
    rw [hdec]
    by_cases hjl : j ≤ input.length
    · left
      rw [List.take_append_of_le_length hjl]
      exact List.take_prefix _ _
    · right
      rw [List.take_append_eq_append_take, List.take_of_length_le (by omega)]
      exact List.prefix_append _ _

/-! ## The persisted decode table -/

theorem StdMap.assign_of_gt {K V : Type} [LinearOrder K] (m : StdMap K V) (k : K) (v : V)
    (h : ∀ e ∈ m, e.1 < k) : StdMap.assign m k v = m ++ [(k, v)] := by
  induction m with
  | nil => rfl
  | cons a m ih =>
    have ha : a.1 < k := h a (List.mem_cons_self _ _)
    simp only [StdMap.assign, not_lt_of_gt ha, if_false, ne_of_gt ha, List.cons_append]
    rw [ih (fun e he => h e (List.mem_cons_of_mem _ he))]

/-- Entering the entries of a map one after the other into the empty map gives the map. -/
theorem assignAll_sorted_self {K V : Type} [LinearOrder K] (m : StdMap K V)
    (hm : StdMap.Sorted m) :
    m.foldl (fun acc e => StdMap.assign acc e.1 e.2) [] = m := by
  induction m using List.reverseRecOn with
  | nil => rfl
  | append_singleton l x ih =>
    have hs : (l.map Prod.fst ++ [x.1]).Pairwise (· < ·) := by
      simpa [StdMap.Sorted] using hm
    obtain ⟨hl, -, hx⟩ := List.pairwise_append.mp hs
    rw [List.foldl_append, List.foldl_cons, List.foldl_nil, ih hl]
    exact StdMap.assign_of_gt l x.1 x.2 (fun e he =>
      hx e.1 (List.mem_map_of_mem _ he) x.1 (List.mem_singleton_self _))

/-! ## Lengths that satisfy the inequality of Kraft -/

theorem kraftSum_cons (H l : Nat) (lengths : Multiset Nat) :
    kraftSum H (l ::ₘ lengths) = 2 ^ (H - l) + kraftSum H lengths := by
  simp [kraftSum]

theorem pairCost_cons (p : Nat × Nat) (pairs : Multiset (Nat × Nat)) :
    pairCost (p ::ₘ pairs) = p.1 * p.2 + pairCost pairs := by
  simp [pairCost]

/-- Among weights of which `a` is the least, the longest length can be given to `a` without
raising the cost: the lengths are the same, in another order. -/
theorem swap_longest (a x : Nat) (pairs : Multiset (Nat × Nat))
    (ha : ∀ p ∈ pairs, a ≤ p.1) :
    ∃ x' pairs', pairs'.map Prod.fst = pairs.map Prod.fst ∧
      x' ::ₘ pairs'.map Prod.snd = x ::ₘ pairs.map Prod.snd ∧
      a * x' + pairCost pairs' ≤ a * x + pairCost pairs ∧
      ∀ p ∈ pairs', p.2 ≤ x' := by
  induction pairs using Multiset.induction_on with
  | empty => exact ⟨x, 0, rfl, rfl, le_refl _, by simp⟩
  | cons p pairs ih =>
    obtain ⟨x1, pairs1, hfst, hsnd, hcost, hmax⟩ :=
      ih (fun q hq => ha q (Multiset.mem_cons_of_mem hq))
    have hap : a ≤ p.1 := ha p (Multiset.mem_cons_self _ _)
    by_cases hle : p.2 ≤ x1
    · refine ⟨x1, p ::ₘ pairs1, by simp [hfst], ?_, ?_, ?_⟩
      · rw [Multiset.map_cons, Multiset.map_cons, Multiset.cons_swap, hsnd,
          Multiset.cons_swap]
      · rw [pairCost_cons, pairCost_cons]
        omega
      · intro q hq
        rcases Multiset.mem_cons.mp hq with h | h
        · rw [h]; exact hle
        · exact hmax q h
    · have hlt : x1 ≤ p.2 := by omega
      refine ⟨p.2, (p.1, x1) ::ₘ pairs1, by simp [hfst], ?_, ?_, ?_⟩
      · rw [Multiset.map_cons, Multiset.map_cons, hsnd, Multiset.cons_swap]
      · rw [pairCost_cons, pairCost_cons]
        have hkey : a * p.2 + p.1 * x1 ≤ a * x1 + p.1 * p.2 := by
          obtain ⟨d, hd⟩ := Nat.exists_eq_add_of_le hap
          obtain ⟨e, he⟩ := Nat.exists_eq_add_of_le hlt
          rw [hd, he]
          nlinarith [Nat.zero_le (d * e)]
        simp only
        omega
      · intro q hq
        rcases Multiset.mem_cons.mp hq with h | h
        · rw [h]; exact hlt
        · exact le_trans (hmax q h) hlt

theorem dvd_kraftSum (H y : Nat) (lengths : Multiset Nat) (h : ∀ l ∈ lengths, l ≤ y) :
    2 ^ (H - y) ∣ kraftSum H lengths := by
  unfold kraftSum
  apply Multiset.dvd_sum
  intro v hv
  obtain ⟨l, hl, rfl⟩ := Multiset.mem_map.mp hv
  exact pow_dvd_pow 2 (by have := h l hl; omega)

/-- When one length is longer than all the others, it can be taken as short as the next
one: the inequality of Kraft still holds. -/
theorem kraft_shorten (H x y : Nat) (lengths : Multiset Nat) (hyx : y ≤ x)
    (hl : ∀ l ∈ lengths, l ≤ y)
    (hK : 2 ^ (H - x) + 2 ^ (H - y) + kraftSum H lengths ≤ 2 ^ H) :
    2 ^ (H - y) + 2 ^ (H - y) + kraftSum H lengths ≤ 2 ^ H := by
  by_cases hxy : H - x = H - y
  · rw [hxy] at hK
    exact hK
  · have hlt : H - x < H - y := by omega
    have hd1 : 2 ^ (H - y) ∣ 2 ^ (H - y) + kraftSum H lengths :=
      Dvd.dvd.add (dvd_refl _) (dvd_kraftSum H y lengths hl)
    have hd2 : 2 ^ (H - y) ∣ 2 ^ H := pow_dvd_pow 2 (by omega)
    have hpos : 0 < 2 ^ (H - x) := by positivity
    have hT : 2 ^ (H - y) + kraftSum H lengths < 2 ^ H := by omega
    have hd3 : 2 ^ (H - y) ∣ 2 ^ (H - y) + kraftSum H lengths + 2 ^ (H - y) :=
      Dvd.dvd.add hd1 (dvd_refl _)
    have := Nat.le_of_lt_add_of_dvd (by omega :
      2 ^ (H - y) + kraftSum H lengths + 2 ^ (H - y) < 2 ^ H + 2 ^ (H - y)) hd3 hd2
    omega

theorem map_fst_eq_cons {pairs : Multiset (Nat × Nat)} {a : Nat} {rest : Multiset Nat}
    (h : pairs.map Prod.fst = a ::ₘ rest) :
    ∃ x pairs', pairs = (a, x) ::ₘ pairs' ∧ pairs'.map Prod.fst = rest := by
  obtain ⟨p, hp, hpa, hrest⟩ := (Multiset.map_eq_cons _ _ _ _).mpr h
  refine ⟨p.2, pairs.erase p, ?_, hrest⟩
  rw [← hpa]
  exact (Multiset.cons_erase hp).symm

/-- The step of Huffman on lengths: when lengths for the weights satisfy the inequality of
Kraft, and `a` and `b` are the two least weights, there are lengths for the weights in
which `a + b` stands for `a` and `b` that satisfy it too and cost `a + b` less or
lesser still. -/
theorem merge_two_least (H a b : Nat) (rest : Multiset Nat) (pairs : Multiset (Nat × Nat))
    (hfst : pairs.map Prod.fst = a ::ₘ b ::ₘ rest) (hab : a ≤ b)
    (hb : ∀ r ∈ rest, b ≤ r) (hK : KraftAt H (pairs.map Prod.snd)) :
    ∃ pairs', pairs'.map Prod.fst = (a + b) ::ₘ rest ∧
      KraftAt H (pairs'.map Prod.snd) ∧
      pairCost pairs' + a + b ≤ pairCost pairs := by
  obtain ⟨x, pairs0, rfl, hfst0⟩ := map_fst_eq_cons hfst
  -- the longest length goes to `a`
  obtain ⟨x', pairs1, hfst1, hsnd1, hcost1, hmax1⟩ := swap_longest a x pairs0 (by
    intro p hp
    have : p.1 ∈ pairs0.map Prod.fst := Multiset.mem_map_of_mem _ hp
    rw [hfst0] at this
    rcases Multiset.mem_cons.mp this with h | h
    · omega
    · exact le_trans hab (hb _ h))
  rw [hfst0] at hfst1
  obtain ⟨y, pairs2, rfl, hfst2⟩ := map_fst_eq_cons hfst1
  -- the longest of the other lengths goes to `b`
  obtain ⟨y', pairs3, hfst3, hsnd3, hcost3, hmax3⟩ := swap_longest b y pairs2 (by
    intro p hp
    have : p.1 ∈ pairs2.map Prod.fst := Multiset.mem_map_of_mem _ hp
    rw [hfst2] at this
    exact hb _ this)
  rw [hfst2] at hfst3
  have hlengths : x' ::ₘ y' ::ₘ pairs3.map Prod.snd
      = (((a, x) ::ₘ pairs0).map Prod.snd) := by
    rw [hsnd3, Multiset.map_cons, ← hsnd1, Multiset.map_cons]
  have hy'x' : y' ≤ x' := by
    have hmem : y' ∈ y' ::ₘ pairs3.map Prod.snd := Multiset.mem_cons_self _ _
    rw [hsnd3] at hmem
    have h2 : y' ∈ ((b, y) ::ₘ pairs2).map Prod.snd := by simpa using hmem
    obtain ⟨p, hp, hpy⟩ := Multiset.mem_map.mp h2
    rw [← hpy]
    exact hmax1 p hp
  obtain ⟨hbound, hsum⟩ := hK
  rw [← hlengths] at hbound hsum
  have hx'H : x' ≤ H := hbound x' (Multiset.mem_cons_self _ _)
  rw [kraftSum_cons, kraftSum_cons] at hsum
  have hshort := kraft_shorten H x' y' (pairs3.map Prod.snd) hy'x' (by
    intro l hl
    obtain ⟨p, hp, rfl⟩ := Multiset.mem_map.mp hl
    exact hmax3 p hp) (by omega)
  have hy'pos : 1 ≤ y' := by
    by_contra h0
    have hy0 : y' = 0 := by omega
    rw [hy0, Nat.sub_zero] at hshort
    have : 0 < 2 ^ H := by positivity
    omega
  obtain ⟨m, hm⟩ : ∃ m, y' = m + 1 := ⟨y' - 1, by omega⟩
  refine ⟨(a + b, m) ::ₘ pairs3, by simp [hfst3], ⟨?_, ?_⟩, ?_⟩
  · intro l hl
    rw [Multiset.map_cons] at hl
    rcases Multiset.mem_cons.mp hl with h | h
    · simp only at h
      omega
    · exact hbound l (Multiset.mem_cons_of_mem (Multiset.mem_cons_of_mem h))
  · rw [Multiset.map_cons, kraftSum_cons]
    have hpow : 2 ^ (H - m) = 2 ^ (H - y') + 2 ^ (H - y') := by
      have : H - m = (H - y') + 1 := by omega
      rw [this, pow_succ]
      omega
    simp only
    omega
  · rw [pairCost_cons, pairCost_cons]
    rw [pairCost_cons] at hcost1
    simp only at hcost1 hcost3 ⊢
    have h1 : (a + b) * m + a + b = a * y' + b * y' := by
      rw [hm]; ring
    have h2 : a * y' ≤ a * x' := Nat.mul_le_mul_left a hy'x'
    omega

/-! ## The cost of the tree of `buildTree` -/

theorem treeCost_internal (a b : HuffmanNode) :
    treeCost (HuffmanNode.internal (a.getCount + b.getCount) a b)
      = treeCost a + treeCost b + a.getCount + b.getCount := rfl

/-- The tree that `buildTree` leaves costs no more than any lengths for the nodes of the
queue that satisfy the inequality of Kraft, taken on top of the costs of these nodes. -/
theorem buildTreeLoop_cost (pq : PriorityQueue) (H fuel : Nat) (q : pq.Q)
    (root : Option HuffmanNode) (q' : pq.Q) (root' : Option HuffmanNode)
    (hrun : buildTreeLoop pq fuel q root = some (q', root'))
    (hsize : 1 ≤ pq.size q) (pairs : Multiset (Nat × Nat))
    (hfst : pairs.map Prod.fst = ((pq.elems q).map HuffmanNode.getCount : List Nat))
    (hK : KraftAt H (pairs.map Prod.snd)) :
    ∃ r, pq.elems q' = [r] ∧
      treeCost r ≤ ((pq.elems q).map treeCost).sum + pairCost pairs := by
  induction fuel generalizing q root pairs with
  | zero =>
    unfold buildTreeLoop at hrun
    split_ifs at hrun with h2
    simp only [Option.some.injEq, Prod.mk.injEq] at hrun
    rw [← hrun.1]
    obtain ⟨r, hr⟩ := List.length_eq_one.mp (by
      have : pq.size q = (pq.elems q).length := rfl
      omega : (pq.elems q).length = 1)
    exact ⟨r, hr, by rw [hr]; simp⟩
  | succ fuel ih =>
    unfold buildTreeLoop at hrun
    split_ifs at hrun with h2
    · have hne : pq.elems q ≠ [] := pq.elems_ne_nil (by omega)
      have hsz1 := pq.size_pop hne
      have hne1 : pq.elems (pq.pop q) ≠ [] := pq.elems_ne_nil (by omega)
      have hp1 := pq.top_pop q hne
      have hp2 := pq.top_pop (pq.pop q) hne1
      have hperm : (pq.top q :: pq.top (pq.pop q) :: pq.elems (pq.pop (pq.pop q))).Perm
          (pq.elems q) := (hp2.cons _).trans hp1
      have hab : (pq.top q).getCount ≤ (pq.top (pq.pop q)).getCount := by
        have := pq.top_least q _ (pq.mem_of_mem_pop hne (pq.top_mem hne1))
        simpa [HuffmanNodeComparator] using this
      have hb : ∀ w ∈ (((pq.elems (pq.pop (pq.pop q))).map HuffmanNode.getCount :
          List Nat) : Multiset Nat), (pq.top (pq.pop q)).getCount ≤ w := by
        intro w hw
        obtain ⟨n, hn, rfl⟩ := List.mem_map.mp (Multiset.mem_coe.mp hw)
        have := pq.top_least (pq.pop q) n (pq.mem_of_mem_pop hne1 hn)
        simpa [HuffmanNodeComparator] using this
      have hfst' : pairs.map Prod.fst = (pq.top q).getCount ::ₘ
          (pq.top (pq.pop q)).getCount ::ₘ
          (((pq.elems (pq.pop (pq.pop q))).map HuffmanNode.getCount : List Nat) :
            Multiset Nat) := by
        rw [hfst, Multiset.cons_coe, Multiset.cons_coe]
        exact Multiset.coe_eq_coe.mpr (hperm.map _).symm
      obtain ⟨pairs', hfst2, hK2, hcost2⟩ := merge_two_least H _ _ _ pairs hfst' hab hb hK
      have hp3 := pq.elems_push (pq.pop (pq.pop q)) (HuffmanNode.internal
        ((pq.top q).getCount + (pq.top (pq.pop q)).getCount) (pq.top q)
        (pq.top (pq.pop q)))
      obtain ⟨r, hr, hle⟩ := ih _ _ hrun (by rw [pq.size_push]; omega) pairs' (by
        rw [hfst2, Multiset.cons_coe]
        exact Multiset.coe_eq_coe.mpr (hp3.map HuffmanNode.getCount).symm) hK2
      refine ⟨r, hr, ?_⟩
      have hsum3 := (hp3.map treeCost).sum_eq
      have hsum := (hperm.map treeCost).sum_eq
      simp only [List.map_cons, List.sum_cons, treeCost_internal] at hsum3 hsum
      omega
    · simp only [Option.some.injEq, Prod.mk.injEq] at hrun
      rw [← hrun.1]
      obtain ⟨r, hr⟩ := List.length_eq_one.mp (by
        have : pq.size q = (pq.elems q).length := rfl
        omega : (pq.elems q).length = 1)
      exact ⟨r, hr, by rw [hr]; simp⟩

theorem pathCost_eq (t : HuffmanNode) (ht : IsTree t) (hw : WeightOK t) (d : Nat) :
    pathCost t d = treeCost t + d * t.getCount := by
  induction ht generalizing d with
  | leaf c n => simp [HuffmanNode.leaf, pathCost, treeCost, HuffmanNode.getCount, Nat.mul_comm]
  | internal n l r hl hr ihl ihr =>
    simp only [HuffmanNode.internal, WeightOK] at hw
    have hn : (HuffmanNode.node none n l r).getCount = n := rfl
    simp only [HuffmanNode.internal, pathCost, treeCost]
    rw [ihl hw.2.1, ihr hw.2.2, hn, hw.1]
    ring

/-- The weighted length of the leaves of a tree, in a table that gives every leaf its
path, is the sum of count times depth. -/
theorem leaves_weightedLength (t : HuffmanNode) (ht : IsTree t)
    (et : StdMap Int (List Char)) (accumulator : List Char)
    (hcode : ∀ e ∈ codes t accumulator, codeOf et e.1 = e.2) :
    weightedLength (leaves t) et = pathCost t accumulator.length := by
  induction ht generalizing accumulator with
  | leaf c n =>
    have := hcode (c, accumulator) (by simp [HuffmanNode.leaf, codes])
    simp only at this
    simp [HuffmanNode.leaf, weightedLength, leaves, pathCost, this]
  | internal n l r hl hr ihl ihr =>
    have h1 := ihl (accumulator ++ ['0']) (fun e he => hcode e (by
      simp only [HuffmanNode.internal, codes, List.mem_append]
      exact Or.inl he))
    have h2 := ihr (accumulator ++ ['1']) (fun e he => hcode e (by
      simp only [HuffmanNode.internal, codes, List.mem_append]
      exact Or.inr he))
    simp only [weightedLength, List.length_append, List.length_singleton] at h1 h2 ⊢
    simp only [HuffmanNode.internal, leaves, pathCost, List.map_append, List.sum_append, h1, h2]

theorem weightedLength_perm {counts1 counts2 : StdMap Int Nat} (h : counts1.Perm counts2)
    (et : StdMap Int (List Char)) : weightedLength counts1 et = weightedLength counts2 et :=
  (h.map _).sum_eq

/-! ## The inequality of Kraft for prefix-free codes -/

theorem pairwise_tailsAfter (bit : Char) (cs : List (List Char))
    (hpw : cs.Pairwise (fun c1 c2 => ¬ c1 <+: c2 ∧ ¬ c2 <+: c1)) :
    (tailsAfter bit cs).Pairwise (fun c1 c2 => ¬ c1 <+: c2 ∧ ¬ c2 <+: c1) := by
  unfold tailsAfter
  refine List.Pairwise.filterMap _ ?_ hpw
  intro c c' hcc t ht t' ht'
  cases c with
  | nil => simp at ht
  | cons b u =>
    cases c' with
    | nil => simp at ht'
    | cons b' u' =>
      simp only [Option.mem_def] at ht ht'
      split_ifs at ht ht' with h1 h2
      simp only [Option.some.injEq] at ht ht'
      subst ht ht' h1 h2
      exact ⟨fun h => hcc.1 ((List.prefix_cons_inj _).mpr h),
        fun h => hcc.2 ((List.prefix_cons_inj _).mpr h)⟩

theorem sum_tailsAfter (H : Nat) (cs : List (List Char))
    (hbin : ∀ c ∈ cs, ∀ b ∈ c, b = '0' ∨ b = '1') (hne : ∀ c ∈ cs, c ≠ []) :
    (cs.map (fun c => 2 ^ (H + 1 - c.length))).sum
      = ((tailsAfter '0' cs).map (fun c => 2 ^ (H - c.length))).sum
        + ((tailsAfter '1' cs).map (fun c => 2 ^ (H - c.length))).sum := by
  induction cs with
  | nil => rfl
  | cons c cs ih =>
    have ih' := ih (fun c' hc' => hbin c' (List.mem_cons_of_mem _ hc'))
      (fun c' hc' => hne c' (List.mem_cons_of_mem _ hc'))
    cases c with
    | nil => exact absurd rfl (hne [] (List.mem_cons_self _ _))
    | cons b t =>
      have hb := hbin (b :: t) (List.mem_cons_self _ _) b (List.mem_cons_self _ _)
      have hlen : H + 1 - (b :: t).length = H - t.length := by
        simp only [List.length_cons]; omega
      rcases hb with rfl | rfl
      · simp only [tailsAfter, List.filterMap_cons, List.map_cons, List.sum_cons, hlen,
          if_true, if_neg (show ¬ ('0' = '1') by decide)] at ih' ⊢
        omega
      · simp only [tailsAfter, List.filterMap_cons, List.map_cons, List.sum_cons, hlen,
          if_true, if_neg (show ¬ ('1' = '0') by decide)] at ih' ⊢
        omega

theorem mem_tailsAfter {bit : Char} {cs : List (List Char)} {t : List Char}
    (h : t ∈ tailsAfter bit cs) : bit :: t ∈ cs := by
  unfold tailsAfter at h
  obtain ⟨c, hc, hct⟩ := List.mem_filterMap.mp h
  cases c with
  | nil => simp at hct
  | cons b u =>
    simp only at hct
    split_ifs at hct with hb
    simp only [Option.some.injEq] at hct
    subst hct hb
    exact hc

/-- The inequality of Kraft: the lengths of binary codes of at most `H` bits none of which
is a prefix of another satisfy `∑ 2 ^ (H - length) ≤ 2 ^ H`. -/
theorem kraft_of_prefixFree (H : Nat) (cs : List (List Char))
    (hbin : ∀ c ∈ cs, ∀ b ∈ c, b = '0' ∨ b = '1')
    (hpw : cs.Pairwise (fun c1 c2 => ¬ c1 <+: c2 ∧ ¬ c2 <+: c1))
    (hlen : ∀ c ∈ cs, c.length ≤ H) :
    (cs.map (fun c => 2 ^ (H - c.length))).sum ≤ 2 ^ H := by
  induction H generalizing cs with
  | zero =>
    match cs, hpw, hlen with
    | [], _, _ => simp
    | [c], _, _ => simp
    | c1 :: c2 :: rest, hpw, hlen =>
      exfalso
      have h1 : c1 = [] := List.length_eq_zero.mp (by
        have := hlen c1 (by simp); omega)
      have h2 : c2 = [] := List.length_eq_zero.mp (by
        have := hlen c2 (by simp); omega)
      have := (List.pairwise_cons.mp hpw).1 c2 (by simp)
      rw [h1, h2] at this
      exact this.1 List.prefix_rfl
  | succ H ih =>
    by_cases hnil : [] ∈ cs
    · -- the empty code is the only code
      match cs, hpw, hnil with
      | [c], _, hnil =>
        have : c = [] := (List.mem_singleton.mp hnil).symm
        subst this
        simp
      | c1 :: c2 :: rest, hpw, hnil =>
        exfalso
        obtain ⟨h1, h2⟩ := List.pairwise_cons.mp hpw
        by_cases hc1 : c1 = []
        · have := h1 c2 (by simp)
          rw [hc1] at this
          exact this.1 (List.nil_prefix)
        · have hmem : [] ∈ c2 :: rest := by
            rcases List.mem_cons.mp hnil with h | h
            · exact absurd h.symm hc1
            · exact h
          have := h1 [] hmem
          exact this.2 (List.nil_prefix)
    · have hne : ∀ c ∈ cs, c ≠ [] := fun c hc h => hnil (h ▸ hc)
      rw [sum_tailsAfter H cs hbin hne]
      have h0 := ih (tailsAfter '0' cs)
        (fun t ht b hb => hbin _ (mem_tailsAfter ht) b (List.mem_cons_of_mem _ hb))
        (pairwise_tailsAfter '0' cs hpw)
        (fun t ht => by
          have := hlen _ (mem_tailsAfter ht)
          simp only [List.length_cons] at this
          omega)
      have h1 := ih (tailsAfter '1' cs)
        (fun t ht b hb => hbin _ (mem_tailsAfter ht) b (List.mem_cons_of_mem _ hb))
        (pairwise_tailsAfter '1' cs hpw)
        (fun t ht => by
          have := hlen _ (mem_tailsAfter ht)
          simp only [List.length_cons] at this
          omega)
      rw [pow_succ]
      omega

/-! ## The table of `buildTree` and `preorderEncode` is optimal -/

theorem nodup_keys_unique {l : List (Int × List Char)} (hnd : (l.map Prod.fst).Nodup)
    {c : Int} {p v : List Char} (hp : (c, p) ∈ l) (hv : (c, v) ∈ l) : p = v := by
  have := List.inj_on_of_nodup_map hnd hp hv rfl
  exact (Prod.mk.inj this).2

/-- The table that `buildTree` and `preorderEncode` derive from a frequency table of two
entries or more: a prefix-free binary code for the bytes of the frequency table, whose
weighted length is the cost of the tree, which no lengths that satisfy the inequality of
Kraft undercut. -/
theorem huffman_table_cost (pq : PriorityQueue) (counts : StdMap Int Nat)
    (hsorted : StdMap.Sorted counts) (h2 : 2 ≤ counts.length) :
    ∃ et r, encodeTableOfQueue pq (populateQueue pq counts) = .ok et ∧
      StdMap.Sorted et ∧ et.map Prod.fst = counts.map Prod.fst ∧
      (∀ e ∈ et, e.2 ≠ [] ∧ ∀ b ∈ e.2, b = '0' ∨ b = '1') ∧ PrefixFree et ∧
      weightedLength counts et = treeCost r ∧
      ∀ H pairs, pairs.map Prod.fst = ((counts.map Prod.snd : List Nat) : Multiset Nat) →
        KraftAt H (pairs.map Prod.snd) → treeCost r ≤ pairCost pairs := by
  obtain ⟨q', root', hrun, hbig, -, -, -, -⟩ :=
    buildTreeLoop_spec pq (pq.size (populateQueue pq counts)) _ none (by omega)
      (isTree_populateQueue pq counts)
  obtain ⟨r, hr, hq'⟩ := hbig (by rw [size_populateQueue]; exact h2)
  subst hr
  have hrun' : buildTree pq (populateQueue pq counts) none = some (q', some r) := hrun
  obtain ⟨-, htree, ⟨n, a, b, hint⟩, hw, hperm⟩ := buildTree_root pq counts q' r hrun'
  have htable : encodeTableOfQueue pq (populateQueue pq counts)
      = .ok ((codes r []).foldl (fun m e => StdMap.assign m e.1 e.2) []) := by
    unfold encodeTableOfQueue
    rw [hrun']
    exact preorderEncode_isTree htree [] []
  set et := (codes r []).foldl (fun m e => StdMap.assign m e.1 e.2) [] with het
  have hs : StdMap.Sorted et := assignAll_sorted _ _ StdMap.sorted_nil
  have hsub : ∀ e ∈ et, e ∈ codes r [] := by
    intro e he
    rcases assignAll_mem _ _ he with h | h
    · exact h
    · simp at h
  have hkeysperm : ((codes r []).map Prod.fst).Perm (counts.map Prod.fst) := by
    rw [codes_keys]
    exact hperm.map _
  have hcsorted : (counts.map Prod.fst).Sorted (· < ·) := hsorted
  have hnd : ((codes r []).map Prod.fst).Nodup := hkeysperm.nodup_iff.mpr hcsorted.nodup
  have hcode : ∀ e ∈ codes r [], codeOf et e.1 = e.2 := by
    intro e he
    obtain ⟨v, hv, hfind⟩ := assignAll_find_of_mem (codes r []) [] e.1
      (List.mem_map_of_mem _ he)
    have : v = e.2 := nodup_keys_unique hnd hv he
    simp [codeOf, StdMap.readOrDefault, ← het, hfind, this]
  have hkeys : et.map Prod.fst = counts.map Prod.fst := by
    have hs1 : (et.map Prod.fst).Sorted (· < ·) := hs
    refine List.eq_of_perm_of_sorted ?_ hs1 hcsorted
    refine (List.perm_ext_iff_of_nodup hs1.nodup hcsorted.nodup).mpr ?_
    intro c
    constructor
    · intro hc
      obtain ⟨e, he, rfl⟩ := List.mem_map.mp hc
      exact hkeysperm.subset (List.mem_map_of_mem _ (hsub e he))
    · intro hc
      have hc' : c ∈ (codes r []).map Prod.fst := hkeysperm.symm.subset hc
      obtain ⟨v, -, hfind⟩ := assignAll_find_of_mem (codes r []) [] c hc'
      exact List.mem_map.mpr ⟨(c, v), StdMap.find_mem hfind, rfl⟩
  refine ⟨et, r, htable, hs, hkeys, ?_, prefixFree_of_codes r [], ?_, ?_⟩
  · intro e he
    have hmem := hsub e he
    refine ⟨?_, codes_binary hmem (by simp)⟩
    rw [hint] at hmem
    exact codes_internal_ne_nil hmem
  · rw [← weightedLength_perm hperm et, leaves_weightedLength r htree et [] hcode,
      pathCost_eq r htree hw]
    simp
  · intro H pairs hfst hK
    have hsz : 1 ≤ pq.size (populateQueue pq counts) := by
      rw [size_populateQueue]; omega
    have hel := elems_populateQueue pq counts
    obtain ⟨r', hr', hle⟩ := buildTreeLoop_cost pq H _ _ none q' (some r) hrun hsz pairs
      (by
        rw [hfst]
        refine Multiset.coe_eq_coe.mpr ?_
        have := (hel.map HuffmanNode.getCount).symm
        simpa [List.map_map, Function.comp, HuffmanNode.leaf, HuffmanNode.getCount] using this)
      hK
    rw [hq'] at hr'
    have hrr : r = r' := by simpa using hr'
    subst hrr
    have hzero : ((pq.elems (populateQueue pq counts)).map treeCost).sum = 0 := by
      rw [(hel.map treeCost).sum_eq, List.map_map]
      refine List.sum_eq_zero ?_
      intro x hx
      obtain ⟨e, -, rfl⟩ := List.mem_map.mp hx
      rfl
    omega

/-- The lengths of a prefix-free binary code for the bytes of a frequency table satisfy the
inequality of Kraft, and their cost is the weighted length of the code. -/
theorem kraft_of_table (counts : StdMap Int Nat) (hsorted : StdMap.Sorted counts)
    (other : StdMap Int (List Char)) (hso : StdMap.Sorted other)
    (hkeys : other.map Prod.fst = counts.map Prod.fst)
    (hbin : ∀ e ∈ other, ∀ b ∈ e.2, b = '0' ∨ b = '1') (hpf : PrefixFree other) :
    ∃ H, KraftAt H
      (((counts.map (fun e => (codeOf other e.1).length) : List Nat)) : Multiset Nat) := by
  have hentry : ∀ e ∈ counts, (e.1, codeOf other e.1) ∈ other := by
    intro e he
    have : e.1 ∈ other.map Prod.fst := by
      rw [hkeys]; exact List.mem_map_of_mem _ he
    obtain ⟨x, hx, hxe⟩ := List.mem_map.mp this
    have hf : StdMap.find other e.1 = some x.2 :=
      (StdMap.mem_iff_find hso e.1 x.2).mp (by rw [← hxe]; exact hx)
    have hco : codeOf other e.1 = x.2 := by
      simp [codeOf, StdMap.readOrDefault, hf]
    rw [hco, ← hxe]
    exact hx
  refine ⟨(counts.map (fun e => (codeOf other e.1).length)).sum, ?_, ?_⟩
  · intro l hl
    exact List.single_le_sum (by simp) l (Multiset.mem_coe.mp hl)
  · have hpw : (counts.map (fun e => codeOf other e.1)).Pairwise
        (fun c1 c2 => ¬ c1 <+: c2 ∧ ¬ c2 <+: c1) := by
      rw [List.pairwise_map]
      have h1 : counts.Pairwise (fun e1 e2 => e1.1 < e2.1) := by
        simpa [StdMap.Sorted, List.pairwise_map] using hsorted
      refine h1.imp_of_mem ?_
      intro e1 e2 he1 he2 hlt
      exact ⟨hpf _ (hentry e1 he1) _ (hentry e2 he2) (ne_of_lt hlt),
        hpf _ (hentry e2 he2) _ (hentry e1 he1) (ne_of_gt hlt)⟩
    have := kraft_of_prefixFree (counts.map (fun e => (codeOf other e.1).length)).sum
      (counts.map (fun e => codeOf other e.1))
      (by
        intro c hc
        obtain ⟨e, he, rfl⟩ := List.mem_map.mp hc
        exact hbin _ (hentry e he))
      hpw
      (by
        intro c hc
        obtain ⟨e, he, rfl⟩ := List.mem_map.mp hc
        exact List.single_le_sum (by simp) _
          (List.mem_map.mpr ⟨e, he, rfl⟩))
    simpa [kraftSum, List.map_map, Function.comp] using this

theorem codeOf_mem {other : StdMap Int (List Char)} (hso : StdMap.Sorted other) {c : Int}
    (hc : c ∈ other.map Prod.fst) : (c, codeOf other c) ∈ other := by
  obtain ⟨x, hx, hxe⟩ := List.mem_map.mp hc
  have hf : StdMap.find other c = some x.2 :=
    (StdMap.mem_iff_find hso c x.2).mp (by rw [← hxe]; exact hx)
  have hco : codeOf other c = x.2 := by
    simp [codeOf, StdMap.readOrDefault, hf]
  rw [hco, ← hxe]
  exact hx

/-- The weighted length of a table is the cost of the pairs of the counts and the lengths
of the codes. -/
theorem pairCost_of_table (counts : StdMap Int Nat) (other : StdMap Int (List Char)) :
    pairCost ((counts.map (fun e => (e.2, (codeOf other e.1).length)) : List (Nat × Nat)) :
      Multiset (Nat × Nat)) = weightedLength counts other := by
  simp only [pairCost, weightedLength, Multiset.map_coe, Multiset.sum_coe, List.map_map]
  rfl

/-- Exchanging the lengths of two pairs of which the heavier has the longer length makes
the cost strictly smaller and keeps the weights and the lengths. -/
theorem exchange_lengths (na nb la lb : Nat) (rest : Multiset (Nat × Nat))
    (hn : nb < na) (hl : lb < la) :
    (((na, lb) ::ₘ (nb, la) ::ₘ rest).map Prod.fst
        = ((na, la) ::ₘ (nb, lb) ::ₘ rest).map Prod.fst) ∧
    (((na, lb) ::ₘ (nb, la) ::ₘ rest).map Prod.snd
        = ((na, la) ::ₘ (nb, lb) ::ₘ rest).map Prod.snd) ∧
    pairCost ((na, lb) ::ₘ (nb, la) ::ₘ rest) < pairCost ((na, la) ::ₘ (nb, lb) ::ₘ rest) := by
  refine ⟨by simp, ?_, ?_⟩
  · simp only [Multiset.map_cons]
    exact Multiset.cons_swap _ _ _
  · simp only [pairCost_cons]
    obtain ⟨d, rfl⟩ := Nat.exists_eq_add_of_lt hn
    obtain ⟨k, rfl⟩ := Nat.exists_eq_add_of_lt hl
    have : 0 < (d + 1) * (k + 1) := Nat.mul_pos (by omega) (by omega)
    nlinarith

/-- No inversion in a table of least cost: a table whose cost no lengths satisfying the
inequality of Kraft undercut gives the byte of the greater count the code that is not the
longer. -/
theorem no_inversion (counts : StdMap Int Nat) (hsorted : StdMap.Sorted counts)
    (et : StdMap Int (List Char)) (hs : StdMap.Sorted et)
    (hkeys : et.map Prod.fst = counts.map Prod.fst)
    (hbin : ∀ e ∈ et, ∀ b ∈ e.2, b = '0' ∨ b = '1') (hpf : PrefixFree et)
    (hmin : ∀ H pairs, pairs.map Prod.fst = ((counts.map Prod.snd : List Nat) : Multiset Nat) →
        KraftAt H (pairs.map Prod.snd) → weightedLength counts et ≤ pairCost pairs)
    (a : Int) (na : Nat) (b : Int) (nb : Nat) (ha : (a, na) ∈ counts) (hb : (b, nb) ∈ counts)
    (hlt : nb < na) : (codeOf et a).length ≤ (codeOf et b).length := by
  by_contra hcon
  have hl : (codeOf et b).length < (codeOf et a).length := by omega
  obtain ⟨H, hK⟩ := kraft_of_table counts hsorted et hs hkeys hbin hpf
  have hne : (b, nb) ≠ (a, na) := by
    intro h
    have := (Prod.mk.inj h).2
    omega
  obtain ⟨t, ht⟩ := Multiset.exists_cons_of_mem (Multiset.mem_coe.mpr ha)
  have hbt : (b, nb) ∈ t := by
    have : (b, nb) ∈ (a, na) ::ₘ t := by rw [← ht]; exact Multiset.mem_coe.mpr hb
    rcases Multiset.mem_cons.mp this with h | h
    · exact absurd h hne
    · exact h
  obtain ⟨rest, hrest⟩ := Multiset.exists_cons_of_mem hbt
  set f : Int × Nat → Nat × Nat := fun e => (e.2, (codeOf et e.1).length) with hf
  have hP : ((counts.map f : List (Nat × Nat)) : Multiset (Nat × Nat))
      = (na, (codeOf et a).length) ::ₘ (nb, (codeOf et b).length) ::ₘ rest.map f := by
    rw [← Multiset.map_coe, ht, hrest]
    simp [hf]
  obtain ⟨h1, h2, h3⟩ := exchange_lengths na nb (codeOf et a).length (codeOf et b).length
    (rest.map f) hlt hl
  have hcost := pairCost_of_table counts et
  rw [hP] at hcost
  have hle := hmin H _
    (by
      rw [h1, ← hP, Multiset.map_coe, List.map_map]
      rfl)
    (by
      rw [h2, ← hP, Multiset.map_coe, List.map_map]
      exact hK)
  omega

/-! ## The lengths of the codes -/

theorem leaves_ne_nil {t : HuffmanNode} (ht : IsTree t) : 1 ≤ (leaves t).length := by
  induction ht with
  | leaf c n => simp [HuffmanNode.leaf, leaves]
  | internal n l r hl hr ihl ihr =>
    simp only [HuffmanNode.internal, leaves, List.length_append]
    omega

/-- A path of a tree has fewer branches than the tree has leaves. -/
theorem codes_length_le {t : HuffmanNode} (ht : IsTree t) (accumulator : List Char)
    {e : Int × List Char} (he : e ∈ codes t accumulator) :
    e.2.length + 1 ≤ accumulator.length + (leaves t).length := by
  induction ht generalizing accumulator with
  | leaf c n =>
    simp only [HuffmanNode.leaf, codes, List.mem_singleton] at he
    subst he
    simp [HuffmanNode.leaf, leaves]
  | internal n l r hl hr ihl ihr =>
    simp only [HuffmanNode.internal, codes, List.mem_append] at he
    simp only [HuffmanNode.internal, leaves, List.length_append]
    have h1 := leaves_ne_nil hl
    have h2 := leaves_ne_nil hr
    rcases he with he | he
    · have := ihl _ he
      simp only [List.length_append, List.length_singleton] at this
      omega
    · have := ihr _ he
      simp only [List.length_append, List.length_singleton] at this
      omega

/-- The codes of the table of a frequency table of `n` entries, two or more: not empty,
strings of `0` and `1`, of `n - 1` characters at most. -/
theorem huffman_code_lengths (pq : PriorityQueue) (counts : StdMap Int Nat)
    (h2 : 2 ≤ counts.length) :
    ∃ et, encodeTableOfQueue pq (populateQueue pq counts) = .ok et ∧
      ∀ e ∈ et, e.2 ≠ [] ∧ (∀ b ∈ e.2, b = '0' ∨ b = '1') ∧ e.2.length ≤ counts.length - 1 := by
  obtain ⟨r, htree, ⟨n, a, b, hint⟩, hperm, htable⟩ :=
    (encodeTableOfQueue_spec pq (populateQueue pq counts) (isTree_populateQueue pq counts)).1
      (by rw [size_populateQueue]; exact h2)
  refine ⟨_, htable, ?_⟩
  intro e he
  have hmem : e ∈ codes r [] := by
    rcases assignAll_mem _ _ he with h | h
    · exact h
    · simp at h
  refine ⟨?_, codes_binary hmem (by simp), ?_⟩
  · rw [hint] at hmem
    exact codes_internal_ne_nil hmem
  · have hlen := codes_length_le htree [] hmem
    have : (leaves r).length = counts.length :=
      (hperm.trans (leaves_populateQueue pq counts)).length_eq
    rw [this] at hlen
    simp only [List.length_nil] at hlen
    omega

/-- The paths of the tree that `buildTree` assigns to `root` are entries of the table that
`preorderEncode` derives, when the keys of the frequency table are in ascending order. -/
theorem table_of_root (pq : PriorityQueue) (counts : StdMap Int Nat)
    (hsorted : StdMap.Sorted counts) (q : pq.Q) (r : HuffmanNode)
    (hrun : buildTree pq (populateQueue pq counts) none = some (q, some r)) :
    ∃ et, encodeTableOfQueue pq (populateQueue pq counts) = .ok et ∧
      ∀ e ∈ codes r [], e ∈ et := by
  obtain ⟨-, htree, -, -, hperm⟩ := buildTree_root pq counts q r hrun
  refine ⟨(codes r []).foldl (fun m e => StdMap.assign m e.1 e.2) [], ?_, ?_⟩
  · unfold encodeTableOfQueue
    rw [hrun]
    exact preorderEncode_isTree htree [] []
  · intro e he
    have hkeysperm : ((codes r []).map Prod.fst).Perm (counts.map Prod.fst) := by
      rw [codes_keys]
      exact hperm.map _
    have hcsorted : (counts.map Prod.fst).Sorted (· < ·) := hsorted
    have hnd : ((codes r []).map Prod.fst).Nodup := hkeysperm.nodup_iff.mpr hcsorted.nodup
    obtain ⟨v, hv, hfind⟩ := assignAll_find_of_mem (codes r []) [] e.1
      (List.mem_map_of_mem _ he)
    have hve : v = e.2 := nodup_keys_unique hnd hv he
    have := StdMap.find_mem hfind
    rw [hve] at this
    exact this

/-! ## A frequency table whose tree is a single branch -/

theorem superIncreasing_lt {sum : Nat} {rest : List (Int × Nat)}
    (h : SuperIncreasing sum rest) : ∀ e ∈ rest, sum < e.2 := by
  induction rest generalizing sum with
  | nil => intro e he; simp at he
  | cons a rest ih =>
    intro e he
    rcases List.mem_cons.mp he with rfl | he
    · exact h.1
    · have := ih h.2 e he
      omega

theorem hasLeafAt_leaf (c : Int) (n : Nat) : HasLeafAt (HuffmanNode.leaf c n) 0 := by
  intro accumulator
  exact ⟨(c, accumulator), by simp [HuffmanNode.leaf, codes], rfl⟩

theorem hasLeafAt_internal {t : HuffmanNode} {depth : Nat} (h : HasLeafAt t depth)
    (n : Nat) (r : HuffmanNode) : HasLeafAt (HuffmanNode.internal n t r) (depth + 1) := by
  intro accumulator
  obtain ⟨e, he, hlen⟩ := h (accumulator ++ ['0'])
  refine ⟨e, ?_, ?_⟩
  · simp only [HuffmanNode.internal, codes, List.mem_append]
    exact Or.inl he
  · rw [hlen, List.length_append, List.length_singleton]
    omega

/-- The loop of `buildTree` on a queue that holds a tree and leaves of counts that exceed
the sum of all the counts before them: every iteration takes the tree and the next leaf,
whatever the priority queue, and the tree that is left has a leaf one branch deeper for
each of the leaves. -/
theorem buildTreeLoop_superIncreasing (pq : PriorityQueue) (rest : List (Int × Nat)) :
    ∀ (fuel : Nat) (q : pq.Q) (root : Option HuffmanNode) (t : HuffmanNode) (depth : Nat),
      rest.length ≤ fuel →
      (pq.elems q).Perm (t :: rest.map (fun e => HuffmanNode.leaf e.1 e.2)) →
      SuperIncreasing t.getCount rest → HasLeafAt t depth → rest ≠ [] →
      ∃ q' r, buildTreeLoop pq fuel q root = some (q', some r) ∧
        HasLeafAt r (depth + rest.length) := by
  induction rest with
  | nil => intro fuel q root t depth _ _ _ _ hne; exact absurd rfl hne
  | cons e rest ih =>
    intro fuel q root t depth hfuel hperm hsup hdepth _
    obtain ⟨fuel, rfl⟩ : ∃ f, fuel = f + 1 := ⟨fuel - 1, by simp at hfuel; omega⟩
    have hsize : pq.size q ≥ 2 := by
      simp only [PriorityQueue.size, hperm.length_eq, List.length_cons, List.length_map]
      omega
    have hne : pq.elems q ≠ [] := pq.elems_ne_nil (by omega)
    -- the first node taken is the tree
    have htop : pq.top q = t := by
      have hmem := hperm.subset (pq.top_mem hne)
      have hleast := pq.top_least q t (hperm.symm.subset (List.mem_cons_self _ _))
      simp only [HuffmanNodeComparator, decide_eq_false_iff_not] at hleast
      rcases List.mem_cons.mp hmem with h | h
      · exact h
      · obtain ⟨x, hx, hxe⟩ := List.mem_map.mp h
        have hlt := superIncreasing_lt hsup x hx
        have hc : (pq.top q).getCount = x.2 := by rw [← hxe]; rfl
        omega
    have hperm1 : (pq.elems (pq.pop q)).Perm
        (HuffmanNode.leaf e.1 e.2 :: rest.map (fun e => HuffmanNode.leaf e.1 e.2)) := by
      have h := (pq.top_pop q hne).trans hperm
      rw [htop] at h
      exact (List.perm_cons _).mp h
    have hne1 : pq.elems (pq.pop q) ≠ [] := by
      intro h
      rw [h] at hperm1
      simpa using hperm1.length_eq
    -- the second node taken is the next leaf
    have htop1 : pq.top (pq.pop q) = HuffmanNode.leaf e.1 e.2 := by
      have hmem := hperm1.subset (pq.top_mem hne1)
      have hleast := pq.top_least (pq.pop q) (HuffmanNode.leaf e.1 e.2)
        (hperm1.symm.subset (List.mem_cons_self _ _))
      simp only [HuffmanNodeComparator, decide_eq_false_iff_not] at hleast
      have hce : (HuffmanNode.leaf e.1 e.2).getCount = e.2 := rfl
      rcases List.mem_cons.mp hmem with h | h
      · exact h
      · obtain ⟨x, hx, hxe⟩ := List.mem_map.mp h
        have hlt := superIncreasing_lt hsup.2 x hx
        have hc : (pq.top (pq.pop q)).getCount = x.2 := by rw [← hxe]; rfl
        omega
    have hperm2 : (pq.elems (pq.pop (pq.pop q))).Perm
        (rest.map (fun e => HuffmanNode.leaf e.1 e.2)) := by
      have h := (pq.top_pop (pq.pop q) hne1).trans hperm1
      rw [htop1] at h
      exact (List.perm_cons _).mp h
    have hperm3 : (pq.elems (pq.push (pq.pop (pq.pop q))
        (HuffmanNode.internal (t.getCount + e.2) t (HuffmanNode.leaf e.1 e.2)))).Perm
        (HuffmanNode.internal (t.getCount + e.2) t (HuffmanNode.leaf e.1 e.2)
          :: rest.map (fun e => HuffmanNode.leaf e.1 e.2)) :=
      (pq.elems_push _ _).trans (hperm2.cons _)
    have hdepth3 := hasLeafAt_internal hdepth (t.getCount + e.2) (HuffmanNode.leaf e.1 e.2)
    have hstep : buildTreeLoop pq (fuel + 1) q root
        = buildTreeLoop pq fuel (pq.push (pq.pop (pq.pop q))
            (HuffmanNode.internal (t.getCount + e.2) t (HuffmanNode.leaf e.1 e.2)))
          (some (HuffmanNode.internal (t.getCount + e.2) t (HuffmanNode.leaf e.1 e.2))) := by
      rw [buildTreeLoop, if_pos hsize]
      simp only [htop, htop1]
      rfl
    rw [hstep]
    by_cases hrest : rest = []
    · subst hrest
      refine ⟨pq.push (pq.pop (pq.pop q))
          (HuffmanNode.internal (t.getCount + e.2) t (HuffmanNode.leaf e.1 e.2)),
        HuffmanNode.internal (t.getCount + e.2) t (HuffmanNode.leaf e.1 e.2), ?_, hdepth3⟩
      have hsz : ¬ pq.size (pq.push (pq.pop (pq.pop q))
          (HuffmanNode.internal (t.getCount + e.2) t (HuffmanNode.leaf e.1 e.2))) ≥ 2 := by
        simp only [PriorityQueue.size, hperm3.length_eq, List.map_nil, List.length_singleton]
        omega
      unfold buildTreeLoop
      rw [if_neg hsz]
    · obtain ⟨q', r, hrun, hr⟩ := ih fuel _
        (some (HuffmanNode.internal (t.getCount + e.2) t (HuffmanNode.leaf e.1 e.2)))
        (HuffmanNode.internal (t.getCount + e.2) t (HuffmanNode.leaf e.1 e.2)) (depth + 1)
        (by simp at hfuel; omega) hperm3 hsup.2 hdepth3 hrest
      refine ⟨q', r, hrun, ?_⟩
      rw [List.length_cons]
      have : depth + (rest.length + 1) = depth + 1 + rest.length := by omega
      rw [this]
      exact hr

theorem superIncreasing_powers (m : Nat) :
    ∀ (k sum : Nat), sum + 1 = 2 ^ k →
      SuperIncreasing sum ((List.range' k m).map (fun i : Nat => ((i : Int), 2 ^ i))) := by
  induction m with
  | zero => intro k sum _; exact trivial
  | succ m ih =>
    intro k sum hs
    rw [List.range'_succ, List.map_cons]
    refine ⟨by show sum < 2 ^ k; omega, ?_⟩
    refine ih (k + 1) _ ?_
    show sum + 2 ^ k + 1 = 2 ^ (k + 1)
    rw [pow_succ]
    omega

theorem skewedCounts_succ (n : Nat) :
    skewedCounts (n + 1)
      = (0, 1) :: (List.range' 1 n).map (fun i : Nat => ((i : Int), 2 ^ i)) := by
  unfold skewedCounts
  rw [List.range_eq_range', List.range'_succ, List.map_cons]
  simp

theorem skewedCounts_sorted (n : Nat) : StdMap.Sorted (skewedCounts n) := by
  unfold StdMap.Sorted skewedCounts
  rw [List.map_map, List.pairwise_map]
  refine (List.pairwise_lt_range n).imp ?_
  intro a b hab
  simpa using hab

theorem length_skewedCounts (n : Nat) : (skewedCounts n).length = n := by
  simp [skewedCounts]

/-- The table of `skewedCounts n` has a code of `n - 1` characters, for every priority
queue. -/
theorem skewedCounts_longest (pq : PriorityQueue) (n : Nat) (h2 : 2 ≤ n) :
    ∃ et, encodeTableOfQueue pq (populateQueue pq (skewedCounts n)) = .ok et ∧
      ∃ e ∈ et, e.2.length = n - 1 := by
  obtain ⟨m, rfl⟩ : ∃ m, n = m + 1 := ⟨n - 1, by omega⟩
  have hel := elems_populateQueue pq (skewedCounts (m + 1))
  have hsz := size_populateQueue pq (skewedCounts (m + 1))
  rw [length_skewedCounts] at hsz
  conv at hel =>
    rhs
    rw [skewedCounts_succ, List.map_cons]
  obtain ⟨q', r, hrun, hr⟩ := buildTreeLoop_superIncreasing pq
    ((List.range' 1 m).map (fun i : Nat => ((i : Int), 2 ^ i))) (m + 1)
    (populateQueue pq (skewedCounts (m + 1))) none (HuffmanNode.leaf 0 1) 0
    (by simp) hel (superIncreasing_powers m 1 1 rfl) (hasLeafAt_leaf 0 1)
    (by
      intro h
      have := congrArg List.length h
      simp at this
      omega)
  have hrun' : buildTree pq (populateQueue pq (skewedCounts (m + 1))) none
      = some (q', some r) := by
    unfold buildTree
    rw [hsz]
    exact hrun
  obtain ⟨et, htable, hmem⟩ := table_of_root pq _ (skewedCounts_sorted _) q' r hrun'
  obtain ⟨e, he, hlen⟩ := hr []
  refine ⟨et, htable, e, hmem e he, ?_⟩
  rw [hlen]
  simp

/-! ## The count table with `int` counts -/

theorem wrapInt_succ (x : Int) : Wrap.wrapInt (Wrap.wrapInt x + 1) = Wrap.wrapInt (x + 1) := by
  unfold Wrap.wrapInt
  omega

theorem wrapInt_of_range (x : Int) (h0 : 0 ≤ x) (h1 : x ≤ 2147483647) :
    Wrap.wrapInt x = x := by
  unfold Wrap.wrapInt
  omega

theorem StdMap.find_map_snd {K V W : Type} [LinearOrder K] (g : V → W) (m : StdMap K V)
    (k : K) :
    StdMap.find (m.map (fun e => (e.1, g e.2))) k = (StdMap.find m k).map g := by
  induction m with
  | nil => rfl
  | cons a m ih =>
    simp only [List.map_cons, StdMap.find]
    by_cases h : k = a.1
    · simp [h]
    · simp [h, ih]

theorem StdMap.assign_map_snd {K V W : Type} [LinearOrder K] (g : V → W) (m : StdMap K V)
    (k : K) (v : V) :
    StdMap.assign (m.map (fun e => (e.1, g e.2))) k (g v)
      = (StdMap.assign m k v).map (fun e => (e.1, g e.2)) := by
  induction m with
  | nil => rfl
  | cons a m ih =>
    simp only [List.map_cons, StdMap.assign]
    by_cases h1 : k < a.1
    · simp [h1]
    · by_cases h2 : k = a.1
      · simp [h2]
      · simp [h1, h2, ih]

theorem wrapInt_succ_cast (n : Nat) :
    Wrap.wrapInt (Wrap.wrapInt (n : Int) + 1) = Wrap.wrapInt ((n + 1 : Nat) : Int) := by
  rw [wrapInt_succ]
  congr 1

/-- The count table with `int` counts is the count table with counts without bound, each
count reduced to 32 bits. -/
theorem wrap_countTable_eq (input : List Int) :
    Wrap.CountTable input
      = (CountTable input).map (fun e => (e.1, Wrap.wrapInt (e.2 : Int))) := by
  induction input using List.reverseRecOn with
  | nil => rfl
  | append_singleton l x ih =>
    have hstep : CountTable (l ++ [x]) = countStep (CountTable l) x := by
      simp [CountTable, List.foldl_append]
    have hstepW : Wrap.CountTable (l ++ [x]) = Wrap.countStep (Wrap.CountTable l) x := by
      simp [Wrap.CountTable, List.foldl_append]
    rw [hstep, hstepW, ih]
    unfold Wrap.countStep countStep
    by_cases hx : x < 0 ∨ x > 127
    · rw [if_pos hx, if_pos hx]
    · rw [if_neg hx, if_neg hx]
      have hfind := StdMap.find_map_snd (fun n : Nat => Wrap.wrapInt (n : Int)) (CountTable l) x
      have hcount : StdMap.count
          ((CountTable l).map (fun e => (e.1, Wrap.wrapInt (e.2 : Int)))) x
          = StdMap.count (CountTable l) x := by
        simp only [StdMap.count, hfind, Option.isSome_map']
      rw [hcount]
      by_cases hc : StdMap.count (CountTable l) x = 0
      · rw [if_pos hc, if_pos hc]
        have h1 : Wrap.wrapInt ((1 : Nat) : Int) = 1 := by
          unfold Wrap.wrapInt
          omega
        have := StdMap.assign_map_snd (fun n : Nat => Wrap.wrapInt (n : Int)) (CountTable l) x 1
        rw [h1] at this
        exact this
      · rw [if_neg hc, if_neg hc]
        have hval : Wrap.wrapInt (StdMap.readOrDefault 0
            ((CountTable l).map (fun e => (e.1, Wrap.wrapInt (e.2 : Int)))) x + 1)
            = Wrap.wrapInt ((StdMap.readOrDefault 0 (CountTable l) x + 1 : Nat) : Int) := by
          cases hf : StdMap.find (CountTable l) x with
          | none =>
            exfalso
            apply hc
            unfold StdMap.count
            rw [hf]
            rfl
          | some n =>
            unfold StdMap.readOrDefault
            rw [hfind, hf, Option.map_some', Option.getD_some, Option.getD_some]
            exact wrapInt_succ_cast n
        rw [hval]
        exact StdMap.assign_map_snd (fun n : Nat => Wrap.wrapInt (n : Int)) (CountTable l) x _

theorem wrap_countTable_mem (input : List Int) (c : Int) (n : Int) :
    (c, n) ∈ Wrap.CountTable input
      ↔ 0 ≤ c ∧ c ≤ 127 ∧ c ∈ input ∧ n = Wrap.wrapInt (input.count c) := by
  rw [wrap_countTable_eq, List.mem_map]
  constructor
  · rintro ⟨e, he, heq⟩
    have h := (countTable_mem input e.1 e.2).mp he
    have h1 : e.1 = c := (Prod.mk.inj heq).1
    have h2 : Wrap.wrapInt (e.2 : Int) = n := (Prod.mk.inj heq).2
    rw [← h1, ← h2, h.2.2.2]
    exact ⟨h.1, h.2.1, h.2.2.1, rfl⟩
  · rintro ⟨h0, h1, h2, h3⟩
    exact ⟨(c, input.count c), (countTable_mem input c _).mpr ⟨h0, h1, h2, rfl⟩, by rw [h3]⟩

theorem wrap_countTable_sorted (input : List Int) : StdMap.Sorted (Wrap.CountTable input) := by
  have h := (countTable_invariant input).1
  unfold StdMap.Sorted at h ⊢
  rw [wrap_countTable_eq, List.map_map]
  exact h

/-- When no byte value of `0..127` occurs more than `2^31 - 1` times, the count table with
`int` counts is the count table with counts without bound. -/
theorem wrap_countTable_exact (input : List Int)
    (hcount : ∀ c, 0 ≤ c → c ≤ 127 → input.count c ≤ 2147483647) :
    Wrap.CountTable input = (CountTable input).map (fun e => (e.1, (e.2 : Int))) := by
  rw [wrap_countTable_eq]
  refine List.map_congr_left ?_
  intro e he
  have h := (countTable_mem input e.1 e.2).mp he
  have hb := hcount e.1 h.1 h.2.1
  rw [← h.2.2.2] at hb
  rw [wrapInt_of_range _ (by omega) (by omega)]

/-- The count table of one byte value of `0..127`, repeated: one entry, whose count is the
number of repetitions reduced to 32 bits. -/
theorem wrap_countTable_replicate (c : Int) (h0 : 0 ≤ c) (h1 : c ≤ 127) (n : Nat)
    (hn : 0 < n) :
    Wrap.CountTable (List.replicate n c) = [(c, Wrap.wrapInt (n : Int))] := by
  have hs := wrap_countTable_sorted (List.replicate n c)
  have hm := wrap_countTable_mem (List.replicate n c)
  have hin : c ∈ List.replicate n c := List.mem_replicate.mpr ⟨by omega, rfl⟩
  have hcnt : (List.replicate n c).count c = n := List.count_replicate_self c n
  have hentry : (c, Wrap.wrapInt (n : Int)) ∈ Wrap.CountTable (List.replicate n c) :=
    (hm c _).mpr ⟨h0, h1, hin, by rw [hcnt]⟩
  have hall : ∀ e ∈ Wrap.CountTable (List.replicate n c), e = (c, Wrap.wrapInt (n : Int)) := by
    intro e he
    have h := (hm e.1 e.2).mp he
    have hc : e.1 = c := (List.mem_replicate.mp h.2.2.1).2
    have hv : e.2 = Wrap.wrapInt (n : Int) := by
      rw [h.2.2.2, hc, hcnt]
    exact Prod.ext hc hv
  cases htab : Wrap.CountTable (List.replicate n c) with
  | nil => rw [htab] at hentry; simp at hentry
  | cons a rest =>
    rw [htab] at hall hs
    have ha := hall a (List.mem_cons_self _ _)
    cases rest with
    | nil => rw [ha]
    | cons b rest =>
      have hb := hall b (List.mem_cons_of_mem _ (List.mem_cons_self _ _))
      unfold StdMap.Sorted at hs
      rw [ha, hb] at hs
      simp at hs


/-! ## The tree with `int` counts, when no sum exceeds `2^31 - 1` -/

theorem toUnbounded_ofUnbounded (t : HuffmanNode) :
    Wrap.toUnbounded (Wrap.ofUnbounded t) = t := by
  induction t with
  | null => rfl
  | node character count l r ihl ihr =>
    rw [Wrap.ofUnbounded, Wrap.toUnbounded, ihl, ihr, Int.toNat_ofNat]

theorem ofUnbounded_toUnbounded (t : Wrap.HuffmanNode) (h : Wrap.NonNegative t) :
    Wrap.ofUnbounded (Wrap.toUnbounded t) = t := by
  induction t with
  | null => rfl
  | node character count l r ihl ihr =>
    obtain ⟨h0, hl, hr⟩ := h
    rw [Wrap.toUnbounded, Wrap.ofUnbounded, ihl hl, ihr hr, Int.toNat_of_nonneg h0]

theorem getCount_toUnbounded (t : Wrap.HuffmanNode) :
    (Wrap.toUnbounded t).getCount = t.getCount.toNat := by
  cases t with
  | null => rfl
  | node character count l r => rfl

theorem getCount_nonneg {t : Wrap.HuffmanNode} (h : Wrap.NonNegative t) : 0 ≤ t.getCount := by
  cases t with
  | null => exact le_refl _
  | node character count l r => exact h.1

/-- The traversal `preorderEncode` does not read the counts. -/
theorem preorderEncode_toUnbounded (t : Wrap.HuffmanNode) :
    ∀ (accumulator : List Char) (encodeTable : StdMap Int (List Char)),
      Wrap.preorderEncode t accumulator encodeTable
        = preorderEncode (Wrap.toUnbounded t) accumulator encodeTable := by
  induction t with
  | null => intro accumulator encodeTable; rfl
  | node character count l r ihl ihr =>
    intro accumulator encodeTable
    cases l with
    | null =>
      cases r with
      | null => cases character <;> rfl
      | node c2 n2 l2 r2 => rfl
    | node c1 n1 l1 r1 =>
      cases r with
      | null => rfl
      | node c2 n2 l2 r2 =>
        have hl := ihl (accumulator ++ ['0']) encodeTable
        rw [Wrap.preorderEncode, Wrap.toUnbounded, preorderEncode]
        simp only [Wrap.HuffmanNode.isLeaf, Wrap.toUnbounded, HuffmanNode.isLeaf]
        rw [hl]
        simp only [Wrap.toUnbounded]
        cases preorderEncode (HuffmanNode.node c1 n1.toNat (Wrap.toUnbounded l1)
            (Wrap.toUnbounded r1)) (accumulator ++ ['0']) encodeTable with
        | error e => rfl
        | ok encodeTable1 =>
          have hr := ihr (accumulator ++ ['1']) encodeTable1
          simp only [Wrap.toUnbounded] at hr
          exact hr

theorem wrap_top_mem (pq : Wrap.PriorityQueue) {q : pq.Q} (h : pq.elems q ≠ []) :
    pq.top q ∈ pq.elems q :=
  (pq.top_pop q h).subset (List.mem_cons_self _ _)

theorem wrap_elems_populateQueue (pq : Wrap.PriorityQueue) (counts : StdMap Int Int) :
    (pq.elems (Wrap.populateQueue pq counts)).Perm
      (counts.map (fun e => Wrap.HuffmanNode.leaf e.1 e.2)) := by
  unfold Wrap.populateQueue
  induction counts using List.reverseRecOn with
  | nil => simp [pq.elems_empty]
  | append_singleton l x ih =>
    rw [List.foldl_append]
    simp only [List.foldl_cons, List.foldl_nil, List.map_append, List.map_cons, List.map_nil]
    exact (pq.elems_push _ _).trans ((ih.cons _).trans (List.perm_append_singleton _ _).symm)

theorem sum_le_of_perm_cons_cons {l : List Wrap.HuffmanNode} {a b : Wrap.HuffmanNode}
    {rest : List Wrap.HuffmanNode} (hperm : l.Perm (a :: b :: rest))
    (hnn : ∀ t ∈ l, Wrap.NonNegative t) :
    (l.map Wrap.HuffmanNode.getCount).sum
        = a.getCount + b.getCount + (rest.map Wrap.HuffmanNode.getCount).sum ∧
    0 ≤ (rest.map Wrap.HuffmanNode.getCount).sum := by
  constructor
  · rw [(hperm.map Wrap.HuffmanNode.getCount).sum_eq]
    simp only [List.map_cons, List.sum_cons]
    omega
  · refine List.sum_nonneg ?_
    intro x hx
    obtain ⟨t, ht, rfl⟩ := List.mem_map.mp hx
    exact getCount_nonneg (hnn t (hperm.symm.subset
      (List.mem_cons_of_mem _ (List.mem_cons_of_mem _ ht))))

/-- The loop of `buildTree` with `int` counts, on a queue whose counts are not negative
and sum to `2^31 - 1` at most: no sum wraps, and the loop is the loop with counts without
bound, on the same container. -/
theorem buildTreeLoop_unbounded (pq : Wrap.PriorityQueue) (fuel : Nat) :
    ∀ (q : pq.Q) (root : Option Wrap.HuffmanNode),
      (∀ t ∈ pq.elems q, Wrap.NonNegative t) →
      ((pq.elems q).map Wrap.HuffmanNode.getCount).sum ≤ 2147483647 →
      (Wrap.buildTreeLoop pq fuel q root).map (fun p => (p.1, p.2.map Wrap.toUnbounded))
        = buildTreeLoop (Wrap.unboundedQueue pq) fuel q (root.map Wrap.toUnbounded) := by
  induction fuel with
  | zero =>
    intro q root _ _
    have hsize : (Wrap.unboundedQueue pq).size q = pq.size q := by
      simp [PriorityQueue.size, Wrap.PriorityQueue.size, Wrap.unboundedQueue]
    unfold Wrap.buildTreeLoop buildTreeLoop
    rw [hsize]
    by_cases h2 : pq.size q ≥ 2
    · rw [if_pos h2, if_pos h2]
      rfl
    · rw [if_neg h2, if_neg h2]
      rfl
  | succ fuel ih =>
    intro q root hnn hsum
    have hsize : (Wrap.unboundedQueue pq).size q = pq.size q := by
      simp [PriorityQueue.size, Wrap.PriorityQueue.size, Wrap.unboundedQueue]
    unfold Wrap.buildTreeLoop buildTreeLoop
    rw [hsize]
    by_cases h2 : pq.size q ≥ 2
    · rw [if_pos h2, if_pos h2]
      have hne : pq.elems q ≠ [] := by
        intro h
        simp [Wrap.PriorityQueue.size, h] at h2
      have hp1 := pq.top_pop q hne
      have hne1 : pq.elems (pq.pop q) ≠ [] := by
        intro h
        have := hp1.length_eq
        rw [h] at this
        simp [Wrap.PriorityQueue.size] at h2 this
        omega
      have hp2 := pq.top_pop (pq.pop q) hne1
      have hperm : (pq.elems q).Perm
          (pq.top q :: pq.top (pq.pop q) :: pq.elems (pq.pop (pq.pop q))) :=
        (hp1.symm).trans (hp2.symm.cons _)
      have ht1 : Wrap.NonNegative (pq.top q) :=
        hnn _ (hperm.symm.subset (List.mem_cons_self _ _))
      have ht2 : Wrap.NonNegative (pq.top (pq.pop q)) :=
        hnn _ (hperm.symm.subset (List.mem_cons_of_mem _ (List.mem_cons_self _ _)))
      have hc1 := getCount_nonneg ht1
      have hc2 := getCount_nonneg ht2
      obtain ⟨hsplit, hrest⟩ := sum_le_of_perm_cons_cons hperm hnn
      have hwrap : Wrap.wrapInt ((pq.top q).getCount + (pq.top (pq.pop q)).getCount)
          = (pq.top q).getCount + (pq.top (pq.pop q)).getCount :=
        wrapInt_of_range _ (by omega) (by omega)
      -- the node that the loop with counts without bound pushes is the same node
      have hnode : Wrap.ofUnbounded (HuffmanNode.internal
            ((Wrap.toUnbounded (pq.top q)).getCount
              + (Wrap.toUnbounded (pq.top (pq.pop q))).getCount)
            (Wrap.toUnbounded (pq.top q)) (Wrap.toUnbounded (pq.top (pq.pop q))))
          = Wrap.HuffmanNode.internal
            (Wrap.wrapInt ((pq.top q).getCount + (pq.top (pq.pop q)).getCount))
            (pq.top q) (pq.top (pq.pop q)) := by
        rw [HuffmanNode.internal, Wrap.ofUnbounded, ofUnbounded_toUnbounded _ ht1,
          ofUnbounded_toUnbounded _ ht2, getCount_toUnbounded, getCount_toUnbounded, hwrap,
          Nat.cast_add, Int.toNat_of_nonneg hc1, Int.toNat_of_nonneg hc2]
        rfl
      have hroot : Wrap.toUnbounded (Wrap.HuffmanNode.internal
            (Wrap.wrapInt ((pq.top q).getCount + (pq.top (pq.pop q)).getCount))
            (pq.top q) (pq.top (pq.pop q)))
          = HuffmanNode.internal
            ((Wrap.toUnbounded (pq.top q)).getCount
              + (Wrap.toUnbounded (pq.top (pq.pop q))).getCount)
            (Wrap.toUnbounded (pq.top q)) (Wrap.toUnbounded (pq.top (pq.pop q))) := by
        rw [← hnode, toUnbounded_ofUnbounded]
      have hpush := pq.elems_push (pq.pop (pq.pop q)) (Wrap.HuffmanNode.internal
            (Wrap.wrapInt ((pq.top q).getCount + (pq.top (pq.pop q)).getCount))
            (pq.top q) (pq.top (pq.pop q)))
      have hnn' : ∀ t ∈ pq.elems (pq.push (pq.pop (pq.pop q)) (Wrap.HuffmanNode.internal
            (Wrap.wrapInt ((pq.top q).getCount + (pq.top (pq.pop q)).getCount))
            (pq.top q) (pq.top (pq.pop q)))), Wrap.NonNegative t := by
        intro t ht
        rcases List.mem_cons.mp (hpush.subset ht) with h | h
        · rw [h]
          refine ⟨?_, ht1, ht2⟩
          rw [hwrap]
          omega
        · exact hnn t (hperm.symm.subset
            (List.mem_cons_of_mem _ (List.mem_cons_of_mem _ h)))
      have hsum' : ((pq.elems (pq.push (pq.pop (pq.pop q)) (Wrap.HuffmanNode.internal
            (Wrap.wrapInt ((pq.top q).getCount + (pq.top (pq.pop q)).getCount))
            (pq.top q) (pq.top (pq.pop q))))).map Wrap.HuffmanNode.getCount).sum
          ≤ 2147483647 := by
        rw [(hpush.map Wrap.HuffmanNode.getCount).sum_eq, List.map_cons, List.sum_cons]
        have : (Wrap.HuffmanNode.internal
            (Wrap.wrapInt ((pq.top q).getCount + (pq.top (pq.pop q)).getCount))
            (pq.top q) (pq.top (pq.pop q))).getCount
            = (pq.top q).getCount + (pq.top (pq.pop q)).getCount := hwrap
        rw [this]
        omega
      have hrec := ih _ (some (Wrap.HuffmanNode.internal
            (Wrap.wrapInt ((pq.top q).getCount + (pq.top (pq.pop q)).getCount))
            (pq.top q) (pq.top (pq.pop q)))) hnn' hsum'
      rw [Option.map_some', hroot] at hrec
      simp only
      rw [hrec]
      show _ = buildTreeLoop (Wrap.unboundedQueue pq) fuel
        (pq.push (pq.pop (pq.pop q)) (Wrap.ofUnbounded (HuffmanNode.internal
            ((Wrap.toUnbounded (pq.top q)).getCount
              + (Wrap.toUnbounded (pq.top (pq.pop q))).getCount)
            (Wrap.toUnbounded (pq.top q)) (Wrap.toUnbounded (pq.top (pq.pop q)))))) _
      rw [hnode]
      rfl
    · rw [if_neg h2, if_neg h2]
      rfl

theorem populateQueue_unbounded (pq : Wrap.PriorityQueue) (counts : StdMap Int Int)
    (hpos : ∀ e ∈ counts, 0 ≤ e.2) :
    Wrap.populateQueue pq counts
      = populateQueue (Wrap.unboundedQueue pq) (counts.map (fun e => (e.1, e.2.toNat))) := by
  unfold Wrap.populateQueue populateQueue
  have key : ∀ (l : StdMap Int Int) (q : pq.Q), (∀ e ∈ l, 0 ≤ e.2) →
      l.foldl (fun nodeQueue entry =>
          pq.push nodeQueue (Wrap.HuffmanNode.leaf entry.1 entry.2)) q
        = (l.map (fun e => (e.1, e.2.toNat))).foldl (fun nodeQueue entry =>
          (Wrap.unboundedQueue pq).push nodeQueue (HuffmanNode.leaf entry.1 entry.2)) q := by
    intro l
    induction l with
    | nil => intro q _; rfl
    | cons a l ih =>
      intro q hl
      rw [List.map_cons, List.foldl_cons, List.foldl_cons]
      have ha : (Wrap.unboundedQueue pq).push q (HuffmanNode.leaf a.1 a.2.toNat)
          = pq.push q (Wrap.HuffmanNode.leaf a.1 a.2) := by
        show pq.push q (Wrap.ofUnbounded (HuffmanNode.leaf a.1 a.2.toNat)) = _
        rw [HuffmanNode.leaf, Wrap.ofUnbounded, Int.toNat_of_nonneg (hl a (List.mem_cons_self _ _))]
        rfl
      rw [ha]
      exact ih _ (fun e he => hl e (List.mem_cons_of_mem _ he))
  exact key counts pq.empty hpos

/-- The table that `buildTree` and `preorderEncode` derive with `int` counts from a
frequency table whose counts are not negative and sum to `2^31 - 1` at most: the table
that they derive with counts without bound. -/
theorem encodeTableOfQueue_unbounded (pq : Wrap.PriorityQueue) (counts : StdMap Int Int)
    (hpos : ∀ e ∈ counts, 0 ≤ e.2) (hsum : (counts.map Prod.snd).sum ≤ 2147483647) :
    Wrap.encodeTableOfQueue pq (Wrap.populateQueue pq counts)
      = encodeTableOfQueue (Wrap.unboundedQueue pq)
          (populateQueue (Wrap.unboundedQueue pq) (counts.map (fun e => (e.1, e.2.toNat)))) := by
  rw [← populateQueue_unbounded pq counts hpos]
  have hel := wrap_elems_populateQueue pq counts
  have hnn : ∀ t ∈ pq.elems (Wrap.populateQueue pq counts), Wrap.NonNegative t := by
    intro t ht
    obtain ⟨e, he, rfl⟩ := List.mem_map.mp (hel.subset ht)
    exact ⟨hpos e he, trivial, trivial⟩
  have hsum0 : ((pq.elems (Wrap.populateQueue pq counts)).map
      Wrap.HuffmanNode.getCount).sum ≤ 2147483647 := by
    rw [(hel.map Wrap.HuffmanNode.getCount).sum_eq, List.map_map]
    exact hsum
  have hsize : (Wrap.unboundedQueue pq).size (Wrap.populateQueue pq counts)
      = pq.size (Wrap.populateQueue pq counts) := by
    simp [PriorityQueue.size, Wrap.PriorityQueue.size, Wrap.unboundedQueue]
  have hsim := buildTreeLoop_unbounded pq (pq.size (Wrap.populateQueue pq counts))
    (Wrap.populateQueue pq counts) none hnn hsum0
  rw [Option.map_none'] at hsim
  unfold Wrap.encodeTableOfQueue encodeTableOfQueue Wrap.buildTree buildTree
  rw [hsize, ← hsim]
  cases Wrap.buildTreeLoop pq (pq.size (Wrap.populateQueue pq counts))
      (Wrap.populateQueue pq counts) none with
  | none => rfl
  | some p =>
    obtain ⟨q', root'⟩ := p
    cases root' with
    | none => rfl
    | some r => exact preorderEncode_toUnbounded r [] []

theorem weightedLength_unbounded (counts : StdMap Int Int) (hpos : ∀ e ∈ counts, 0 ≤ e.2)
    (encodeTable : StdMap Int (List Char)) :
    Wrap.weightedLength counts encodeTable
      = ((weightedLength (counts.map (fun e => (e.1, e.2.toNat))) encodeTable : Nat) : Int) := by
  unfold Wrap.weightedLength weightedLength
  induction counts with
  | nil => rfl
  | cons a l ih =>
    rw [List.map_cons, List.sum_cons, ih (fun e he => hpos e (List.mem_cons_of_mem _ he)),
      List.map_cons, List.map_cons, List.sum_cons, Nat.cast_add, Nat.cast_mul,
      Int.toNat_of_nonneg (hpos a (List.mem_cons_self _ _))]

theorem sorted_unbounded {counts : StdMap Int Int} (h : StdMap.Sorted counts) :
    StdMap.Sorted (counts.map (fun e => (e.1, e.2.toNat))) := by
  unfold StdMap.Sorted at h ⊢
  rw [List.map_map]
  exact h

theorem keys_unbounded (counts : StdMap Int Int) :
    (counts.map (fun e => (e.1, e.2.toNat))).map Prod.fst = counts.map Prod.fst := by
  rw [List.map_map]
  rfl

/-- The table of a frequency table with counts without bound has the least weighted length
among the prefix-free binary codes for the same bytes. -/
theorem huffman_optimal_unbounded (pq : PriorityQueue) (counts : StdMap Int Nat)
    (hsorted : StdMap.Sorted counts) (h2 : 2 ≤ counts.length) :
    ∃ encodeTable, encodeTableOfQueue pq (populateQueue pq counts) = .ok encodeTable ∧
      StdMap.Sorted encodeTable ∧ encodeTable.map Prod.fst = counts.map Prod.fst ∧
      (∀ e ∈ encodeTable, ∀ b ∈ e.2, b = '0' ∨ b = '1') ∧ PrefixFree encodeTable ∧
      ∀ other : StdMap Int (List Char), StdMap.Sorted other →
        other.map Prod.fst = counts.map Prod.fst →
        (∀ e ∈ other, ∀ b ∈ e.2, b = '0' ∨ b = '1') → PrefixFree other →
        weightedLength counts encodeTable ≤ weightedLength counts other := by
  obtain ⟨et, r, htable, hs, hkeys, hbin, hpf, hcost, hmin⟩ :=
    huffman_table_cost pq counts hsorted h2
  refine ⟨et, htable, hs, hkeys, fun e he => (hbin e he).2, hpf, ?_⟩
  intro other hso hko hbo hpo
  obtain ⟨H, hK⟩ := kraft_of_table counts hsorted other hso hko hbo hpo
  rw [hcost, ← pairCost_of_table counts other]
  refine hmin H _ ?_ ?_
  · rw [Multiset.map_coe, List.map_map]
    rfl
  · rw [Multiset.map_coe, List.map_map]
    exact hK

/-- In the table of a frequency table with counts without bound, the byte of the greater
count has the code that is not the longer. -/
theorem frequency_monotone_unbounded (pq : PriorityQueue) (counts : StdMap Int Nat)
    (hsorted : StdMap.Sorted counts) (h2 : 2 ≤ counts.length) :
    ∃ encodeTable, encodeTableOfQueue pq (populateQueue pq counts) = .ok encodeTable ∧
      ∀ a na b nb, (a, na) ∈ counts → (b, nb) ∈ counts → nb < na →
        ∃ codeA codeB, (a, codeA) ∈ encodeTable ∧ (b, codeB) ∈ encodeTable ∧
          codeA.length ≤ codeB.length := by
  obtain ⟨et, r, htable, hs, hkeys, hbin, hpf, hcost, hmin⟩ :=
    huffman_table_cost pq counts hsorted h2
  refine ⟨et, htable, ?_⟩
  intro a na b nb ha hb hlt
  have hka : a ∈ et.map Prod.fst := by
    rw [hkeys]; exact List.mem_map.mpr ⟨(a, na), ha, rfl⟩
  have hkb : b ∈ et.map Prod.fst := by
    rw [hkeys]; exact List.mem_map.mpr ⟨(b, nb), hb, rfl⟩
  refine ⟨codeOf et a, codeOf et b, codeOf_mem hs hka, codeOf_mem hs hkb, ?_⟩
  refine no_inversion counts hsorted et hs hkeys (fun e he => (hbin e he).2) hpf ?_
    a na b nb ha hb hlt
  intro H pairs hfst hK
  rw [hcost]
  exact hmin H pairs hfst hK

/-! ## A frequency table whose sums exceed `2^31 - 1` -/

/-- One iteration of `buildTree` on a queue whose two nodes of least count are known: they
are taken, whatever the priority queue, and the node above them is pushed, with the sum of
their counts reduced to 32 bits. -/
theorem wrap_buildTreeLoop_step (pq : Wrap.PriorityQueue) (fuel : Nat) (q : pq.Q)
    (a b : Wrap.HuffmanNode)
    (rest : List Wrap.HuffmanNode) (hperm : (pq.elems q).Perm (a :: b :: rest))
    (hab : a.getCount < b.getCount) (hrest : ∀ x ∈ rest, b.getCount < x.getCount) :
    ∃ q', (pq.elems q').Perm
        (Wrap.HuffmanNode.internal (Wrap.wrapInt (a.getCount + b.getCount)) a b :: rest) ∧
      ∀ root, Wrap.buildTreeLoop pq (fuel + 1) q root
        = Wrap.buildTreeLoop pq fuel q'
            (some (Wrap.HuffmanNode.internal (Wrap.wrapInt (a.getCount + b.getCount)) a b)) := by
  have hsize : pq.size q ≥ 2 := by
    simp only [Wrap.PriorityQueue.size, hperm.length_eq, List.length_cons]
    omega
  have hne : pq.elems q ≠ [] := by
    intro h
    simp [Wrap.PriorityQueue.size, h] at hsize
  have htop : pq.top q = a := by
    have hmem := hperm.subset (wrap_top_mem pq hne)
    have hleast := pq.top_least q a (hperm.symm.subset (List.mem_cons_self _ _))
    simp only [Wrap.HuffmanNodeComparator, decide_eq_false_iff_not] at hleast
    rcases List.mem_cons.mp hmem with h | h
    · exact h
    · rcases List.mem_cons.mp h with h | h
      · rw [h] at hleast
        omega
      · have := hrest _ h
        omega
  have hperm1 : (pq.elems (pq.pop q)).Perm (b :: rest) := by
    have h := (pq.top_pop q hne).trans hperm
    rw [htop] at h
    exact (List.perm_cons _).mp h
  have hne1 : pq.elems (pq.pop q) ≠ [] := by
    intro h
    rw [h] at hperm1
    simpa using hperm1.length_eq
  have htop1 : pq.top (pq.pop q) = b := by
    have hmem := hperm1.subset (wrap_top_mem pq hne1)
    have hleast := pq.top_least (pq.pop q) b (hperm1.symm.subset (List.mem_cons_self _ _))
    simp only [Wrap.HuffmanNodeComparator, decide_eq_false_iff_not] at hleast
    rcases List.mem_cons.mp hmem with h | h
    · exact h
    · have := hrest _ h
      omega
  have hperm2 : (pq.elems (pq.pop (pq.pop q))).Perm rest := by
    have h := (pq.top_pop (pq.pop q) hne1).trans hperm1
    rw [htop1] at h
    exact (List.perm_cons _).mp h
  refine ⟨pq.push (pq.pop (pq.pop q))
    (Wrap.HuffmanNode.internal (Wrap.wrapInt (a.getCount + b.getCount)) a b),
    (pq.elems_push _ _).trans (hperm2.cons _), ?_⟩
  intro root
  rw [Wrap.buildTreeLoop, if_pos hsize]
  simp only [htop, htop1]

theorem wrap_buildTreeLoop_done (pq : Wrap.PriorityQueue) (fuel : Nat) (q : pq.Q)
    (t : Wrap.HuffmanNode) (hperm : (pq.elems q).Perm [t]) (root : Option Wrap.HuffmanNode) :
    Wrap.buildTreeLoop pq fuel q root = some (q, root) := by
  have hsize : ¬ pq.size q ≥ 2 := by
    simp only [Wrap.PriorityQueue.size, hperm.length_eq, List.length_singleton]
    omega
  unfold Wrap.buildTreeLoop
  rw [if_neg hsize]

/-- The table of `overflowCounts`, for every priority queue: the counts leave no tie. The
sum of the counts of `c` and `d` wraps to `-2^31 + 1`, so that the node above them is
taken at once, together with `e`, and again with the node above `a` and `b`. -/
theorem overflow_table (pq : Wrap.PriorityQueue) :
    Wrap.encodeTableOfQueue pq (Wrap.populateQueue pq Wrap.overflowCounts)
      = .ok Wrap.overflowTable := by
  have hel := wrap_elems_populateQueue pq Wrap.overflowCounts
  have hsz : pq.size (Wrap.populateQueue pq Wrap.overflowCounts) = 5 := hel.length_eq
  obtain ⟨q1, hq1, h1⟩ := wrap_buildTreeLoop_step pq 4 (Wrap.populateQueue pq Wrap.overflowCounts)
    (Wrap.HuffmanNode.leaf 97 536870913) (Wrap.HuffmanNode.leaf 98 536870914)
    [Wrap.HuffmanNode.leaf 99 1073741824, Wrap.HuffmanNode.leaf 100 1073741825,
      Wrap.HuffmanNode.leaf 101 1073741826]
    hel (by decide) (by decide)
  obtain ⟨q2, hq2, h2⟩ := wrap_buildTreeLoop_step pq 3 q1
    (Wrap.HuffmanNode.leaf 99 1073741824) (Wrap.HuffmanNode.leaf 100 1073741825)
    [Wrap.HuffmanNode.leaf 101 1073741826, _]
    (hq1.trans (List.perm_append_singleton _ _).symm) (by decide) (by decide)
  obtain ⟨q3, hq3, h3⟩ := wrap_buildTreeLoop_step pq 2 q2 _
    (Wrap.HuffmanNode.leaf 101 1073741826) [_] hq2 (by decide) (by decide)
  obtain ⟨q4, hq4, h4⟩ := wrap_buildTreeLoop_step pq 1 q3 _ _ [] hq3 (by decide)
    (by decide)
  have h5 := wrap_buildTreeLoop_done pq 1 q4 _ hq4
  have hrun := (h1 none).trans ((h2 _).trans ((h3 _).trans ((h4 _).trans (h5 _))))
  unfold Wrap.encodeTableOfQueue Wrap.buildTree
  rw [hsz, hrun]
  show Wrap.preorderEncode _ [] [] = .ok Wrap.overflowTable
  decide

/-! ## The claims -/

/-- C1 at the input `longCodeInput`, for every priority queue. The bytes are in `0..127`,
`HuffmanTree` derives `longCodeTable`, and the encoded length is `592 = 8 * 74` bits;
`encode` writes 73 bytes, one per iteration of its outer loop, and leaves the last eight
bits in the buffer; `decode` returns the input without its last byte. -/
theorem round_trip_loses_last_byte (pq : PriorityQueue) :
    (∀ c ∈ longCodeInput, 0 ≤ c ∧ c ≤ 127) ∧
    HuffmanTree pq longCodeInput = .ok longCodeTable ∧
    (longCodeInput.flatMap (codeOf longCodeTable)).length = 8 * 74 ∧
    ∃ output, encode 240 longCodeInput longCodeTable = some output ∧
      output.length = 73 ∧
      decode (output.map charOfByte) (getDecodeTable longCodeTable)
        = longCodeInput.take 231 ∧
      decode (output.map charOfByte) (getDecodeTable longCodeTable) ≠ longCodeInput := by
  refine ⟨by decide!, ?_, by decide!, ?_⟩
  · rw [huffmanTree_noTies pq longCodeInput (by decide!)]
    decide!
  · refine ⟨(encode 240 longCodeInput longCodeTable).getD [], by decide!, by decide!,
      by decide!, by decide!⟩

/-- C2: for every non-empty frequency table, in the encode table that `buildTree` followed
by `preorderEncode` produces, no code of one byte is a prefix of the code of a different
byte; a table is produced whenever the frequency table has two entries or more. -/
theorem prefix_free_encode_table (pq : PriorityQueue) (counts : StdMap Int Nat)
    (_hne : counts ≠ []) :
    (2 ≤ counts.length →
      ∃ encodeTable, encodeTableOfQueue pq (populateQueue pq counts) = .ok encodeTable) ∧
    ∀ encodeTable, encodeTableOfQueue pq (populateQueue pq counts) = .ok encodeTable →
      PrefixFree encodeTable := by
  have h := encodeTableOfQueue_spec pq (populateQueue pq counts) (isTree_populateQueue pq _)
  rw [size_populateQueue] at h
  constructor
  · intro h2
    obtain ⟨r, -, -, -, hr⟩ := h.1 h2
    exact ⟨_, hr⟩
  · intro encodeTable het
    by_cases h2 : 2 ≤ counts.length
    · obtain ⟨r, -, -, -, hr⟩ := h.1 h2
      rw [hr] at het
      injection het with het
      rw [← het]
      exact prefixFree_of_codes r []
    · rw [h.2 (by omega)] at het
      exact absurd het (by simp)

/-- Witness of `prefix_free_encode_table`: the frequency table of the input `a,a,a,b`. -/
theorem prefix_free_encode_table_witness :
    ([(97, 3), (98, 1)] : StdMap Int Nat) ≠ [] ∧
    encodeTableOfQueue listQueue (populateQueue listQueue [(97, 3), (98, 1)])
      = .ok [(97, ['1']), (98, ['0'])] ∧
    PrefixFree [(97, ['1']), (98, ['0'])] :=
  ⟨by decide, rfl,
    (prefix_free_encode_table listQueue [(97, 3), (98, 1)] (by decide)).2 _ rfl⟩

/-- C3: for every encode table that `HuffmanTree` produces, `getDecodeTable` returns a
map in which `(code, byte)` is an entry if and only if `(byte, code)` is an entry of the
encode table, and the two maps have the same number of entries. -/
theorem decode_table_inverse (pq : PriorityQueue) (input : List Int)
    (encodeTable : StdMap Int (List Char)) (h : HuffmanTree pq input = .ok encodeTable) :
    (∀ code byte, (code, byte) ∈ getDecodeTable encodeTable ↔ (byte, code) ∈ encodeTable) ∧
    (getDecodeTable encodeTable).length = encodeTable.length := by
  have hspec := huffmanTree_spec pq input
  by_cases h2 : 2 ≤ (CountTable input).length
  · obtain ⟨r, -, -, -, hr⟩ := hspec.1 h2
    rw [hr] at h
    injection h with h
    have hs : StdMap.Sorted encodeTable := by
      rw [← h]; exact assignAll_sorted _ _ StdMap.sorted_nil
    have hp : PrefixFree encodeTable := by
      rw [← h]; exact prefixFree_of_codes r []
    obtain ⟨hsd, hfind, hlen⟩ := getDecodeTable_spec encodeTable (pairwise_codes_ne hs hp)
    refine ⟨fun code byte => ?_, hlen⟩
    rw [StdMap.mem_iff_find hsd, hfind]
  · rw [hspec.2 (by omega)] at h
    exact absurd h (by simp)

/-- Witness of `decode_table_inverse`: the input `a,a,a,b`. -/
theorem decode_table_inverse_witness :
    HuffmanTree listQueue [97, 97, 97, 98] = .ok [(97, ['1']), (98, ['0'])] ∧
    (∀ code byte, (code, byte) ∈ getDecodeTable [(97, ['1']), (98, ['0'])]
      ↔ (byte, code) ∈ ([(97, ['1']), (98, ['0'])] : StdMap Int (List Char))) ∧
    (getDecodeTable [(97, ['1']), (98, ['0'])]).length
      = ([(97, ['1']), (98, ['0'])] : StdMap Int (List Char)).length :=
  ⟨rfl, decode_table_inverse listQueue [97, 97, 97, 98] _ rfl⟩

/-- C4: let the keys of a decode table be non-empty and none of them a prefix of another,
let `s` be a sequence of entries of the table, and let the bits of a byte stream, most
significant bit first, be the keys of `s` one after the other, followed by leftover bits
of which no prefix is a key. Then `decode` writes exactly the values of `s`. -/
theorem decode_correct (decodeTable : StdMap (List Char) Int)
    (hsorted : StdMap.Sorted decodeTable)
    (hnonempty : ∀ e ∈ decodeTable, e.1 ≠ [])
    (hkeysfree : ∀ e1 ∈ decodeTable, ∀ e2 ∈ decodeTable, e1.1 <+: e2.1 → e1.1 = e2.1)
    (s : List (List Char × Int)) (hs : ∀ e ∈ s, e ∈ decodeTable)
    (stream : List Nat) (leftover : List Char)
    (hbits : stream.flatMap msbBits = s.flatMap Prod.fst ++ leftover)
    (hleft : ∀ e ∈ decodeTable, ¬ e.1 <+: leftover) :
    decode (stream.map charOfByte) decodeTable = s.map Prod.snd := by
  have hmem : ∀ k, (StdMap.find decodeTable k).isSome → ∃ v, (k, v) ∈ decodeTable := by
    intro k hk
    obtain ⟨v, hv⟩ := Option.isSome_iff_exists.mp hk
    exact ⟨v, (StdMap.mem_iff_find hsorted k v).mpr hv⟩
  have hne : StdMap.find decodeTable [] = none := by
    cases h : StdMap.find decodeTable [] with
    | none => rfl
    | some v => exact absurd rfl (hnonempty _ ((StdMap.mem_iff_find hsorted [] v).mpr h))
  have hpf : ∀ k1 k2, (StdMap.find decodeTable k1).isSome →
      (StdMap.find decodeTable k2).isSome → k1 <+: k2 → k1 = k2 := by
    intro k1 k2 h1 h2 hpre
    obtain ⟨v1, hv1⟩ := hmem k1 h1
    obtain ⟨v2, hv2⟩ := hmem k2 h2
    exact hkeysfree _ hv1 _ hv2 hpre
  have hnk : NoKeyPrefix decodeTable leftover := by
    intro p _ hpre
    cases h : StdMap.find decodeTable p with
    | none => rfl
    | some v => exact absurd hpre (hleft _ ((StdMap.mem_iff_find hsorted p v).mpr h))
  rw [decode_eq_scan, expandByte_stream, hbits,
    scan_codes decodeTable hne hpf s
      (fun e he => (StdMap.mem_iff_find hsorted e.1 e.2).mp (hs e he)) leftover hnk]

/-- Witness of `decode_correct`: the table `{"0": a, "10": b, "11": c}` and the byte `0x57`,
whose bits `0 10 10 11 1` are the codes of `a,b,b,c` followed by one leftover bit. -/
theorem decode_correct_witness :
    decode ([87].map charOfByte) [(['0'], 97), (['1', '0'], 98), (['1', '1'], 99)]
      = [97, 98, 98, 99] :=
  decode_correct [(['0'], 97), (['1', '0'], 98), (['1', '1'], 99)]
    (by decide) (by decide) (by decide)
    [(['0'], 97), (['1', '0'], 98), (['1', '0'], 98), (['1', '1'], 99)] (by decide)
    [87] ['1'] (by decide) (by decide)

/-- C5, as the code has it: when the table gives every byte of the input a code of one to
eight bits, and `L` is the total length of the codes of the input, `encode` ends and emits
the `L / 8` bytes that pack the concatenation of the codes, most significant bit first,
and after them at most one further byte. There is no further byte when `L` is a multiple
of eight. A further byte is the value, most significant bit first, of eight characters:
the last `L mod 8` characters of the concatenation followed by a padding; so its bits
begin with these `L mod 8` bits, when they are characters `0` and `1`. -/
theorem encode_packs_codes (input : List Int) (encodeTable : StdMap Int (List Char))
    (hcodes : ∀ c ∈ input,
      1 ≤ (codeOf encodeTable c).length ∧ (codeOf encodeTable c).length ≤ 8) :
    ∃ fuel extra,
      encode fuel input encodeTable
        = some (packBits (input.flatMap (codeOf encodeTable)) ++ extra) ∧
      (packBits (input.flatMap (codeOf encodeTable))).length
        = (input.flatMap (codeOf encodeTable)).length / 8 ∧
      extra.length ≤ 1 ∧
      ((input.flatMap (codeOf encodeTable)).length % 8 = 0 → extra = []) ∧
      ∀ x ∈ extra, ∃ pad,
        ((input.flatMap (codeOf encodeTable)).drop
          (8 * ((input.flatMap (codeOf encodeTable)).length / 8))).length
          = (input.flatMap (codeOf encodeTable)).length % 8 ∧
        ((input.flatMap (codeOf encodeTable)).drop
          (8 * ((input.flatMap (codeOf encodeTable)).length / 8))).length + pad.length = 8 ∧
        x = msbValue
          ((input.flatMap (codeOf encodeTable)).drop
            (8 * ((input.flatMap (codeOf encodeTable)).length / 8)) ++ pad) ∧
        ((∀ b ∈ (input.flatMap (codeOf encodeTable)).drop
              (8 * ((input.flatMap (codeOf encodeTable)).length / 8)), b = '0' ∨ b = '1') →
          (input.flatMap (codeOf encodeTable)).drop
              (8 * ((input.flatMap (codeOf encodeTable)).length / 8)) <+: msbBits x) := by
  obtain ⟨extra, h1, h2, h3, h4⟩ :=
    encodeLoop_spec encodeTable (input.length + 8) input [] hcodes (by simp) (le_refl _)
  refine ⟨input.length + 8, extra, by simpa [encode] using h1, length_packBits _, h2,
    by simpa using h3, ?_⟩
  intro x hx
  obtain ⟨pad, h8, hval⟩ := h4 x hx
  rw [List.nil_append] at h8 hval
  have htl : ((input.flatMap (codeOf encodeTable)).drop
      (8 * ((input.flatMap (codeOf encodeTable)).length / 8))).length
      = (input.flatMap (codeOf encodeTable)).length % 8 := by
    rw [List.length_drop]
    omega
  obtain ⟨hpl, hpv⟩ := msbValue_pad _ pad (by omega) h8
  refine ⟨pad.take (8 - ((input.flatMap (codeOf encodeTable)).drop
      (8 * ((input.flatMap (codeOf encodeTable)).length / 8))).length), htl, hpl,
    hval.trans hpv, ?_⟩
  intro hbin
  rw [hval.trans hpv]
  exact msbBits_msbValue_begins _ _ hpl hbin

/-- Witness of `encode_packs_codes`: the input `a,a,a,b` with the table of C9. -/
theorem encode_packs_codes_witness :
    ∃ fuel extra,
      encode fuel [97, 97, 97, 98] [(97, ['1']), (98, ['0'])]
        = some (packBits (([97, 97, 97, 98] : List Int).flatMap
            (codeOf [(97, ['1']), (98, ['0'])])) ++ extra) ∧
      (packBits (([97, 97, 97, 98] : List Int).flatMap
          (codeOf [(97, ['1']), (98, ['0'])]))).length
        = (([97, 97, 97, 98] : List Int).flatMap (codeOf [(97, ['1']), (98, ['0'])])).length / 8 ∧
      extra.length ≤ 1 ∧
      ((([97, 97, 97, 98] : List Int).flatMap (codeOf [(97, ['1']), (98, ['0'])])).length % 8 = 0
        → extra = []) ∧
      ∀ x ∈ extra, ∃ pad,
        ((([97, 97, 97, 98] : List Int).flatMap (codeOf [(97, ['1']), (98, ['0'])])).drop
          (8 * ((([97, 97, 97, 98] : List Int).flatMap
            (codeOf [(97, ['1']), (98, ['0'])])).length / 8))).length
          = (([97, 97, 97, 98] : List Int).flatMap
            (codeOf [(97, ['1']), (98, ['0'])])).length % 8 ∧
        ((([97, 97, 97, 98] : List Int).flatMap (codeOf [(97, ['1']), (98, ['0'])])).drop
          (8 * ((([97, 97, 97, 98] : List Int).flatMap
            (codeOf [(97, ['1']), (98, ['0'])])).length / 8))).length + pad.length = 8 ∧
        x = msbValue
          ((([97, 97, 97, 98] : List Int).flatMap (codeOf [(97, ['1']), (98, ['0'])])).drop
            (8 * ((([97, 97, 97, 98] : List Int).flatMap
              (codeOf [(97, ['1']), (98, ['0'])])).length / 8)) ++ pad) ∧
        ((∀ b ∈ (([97, 97, 97, 98] : List Int).flatMap
              (codeOf [(97, ['1']), (98, ['0'])])).drop
              (8 * ((([97, 97, 97, 98] : List Int).flatMap
                (codeOf [(97, ['1']), (98, ['0'])])).length / 8)), b = '0' ∨ b = '1') →
          (([97, 97, 97, 98] : List Int).flatMap (codeOf [(97, ['1']), (98, ['0'])])).drop
              (8 * ((([97, 97, 97, 98] : List Int).flatMap
                (codeOf [(97, ['1']), (98, ['0'])])).length / 8)) <+: msbBits x) :=
  encode_packs_codes [97, 97, 97, 98] [(97, ['1']), (98, ['0'])] (by decide)

/-- C5 fails on the code, in three ways. For `a,a,a,b` with the table of C9 the codes have
`L = 4` bits, so that no byte should be emitted, and `encode` emits the byte `0xE0`. For
the input `a` with a code of sixteen bits, two bytes should be emitted, and `encode` emits
one. For the input `a` with the empty code, `encode` does not end. -/
theorem encode_not_floor_bytes :
    ((∀ c ∈ ([97, 97, 97, 98] : List Int),
        (StdMap.find ([(97, ['1']), (98, ['0'])] : StdMap Int (List Char)) c).isSome) ∧
      (([97, 97, 97, 98] : List Int).flatMap (codeOf [(97, ['1']), (98, ['0'])])).length / 8 = 0 ∧
      ∀ fuel output, encode fuel [97, 97, 97, 98] [(97, ['1']), (98, ['0'])] = some output →
        output = [224]) ∧
    ((([97] : List Int).flatMap (codeOf [(97, List.replicate 16 '1')])).length / 8 = 2 ∧
      ∀ fuel output, encode fuel [97] [(97, List.replicate 16 '1')] = some output →
        output = [255]) ∧
    ((StdMap.find ([(97, [])] : StdMap Int (List Char)) 97).isSome ∧
      ∀ fuel, encode fuel [97] [(97, [])] = none) := by
  refine ⟨⟨by decide, by decide, ?_⟩, ⟨by decide, ?_⟩, by decide, ?_⟩
  · intro fuel output h
    exact encode_fuel_unique _ h (by decide : encode 8 [97, 97, 97, 98] _ = some [224])
  · intro fuel output h
    exact encode_fuel_unique _ h (by decide : encode 1 [97] _ = some [255])
  · intro fuel
    cases fuel with
    | zero => rfl
    | succ fuel =>
      simp only [encode, encodeLoop]
      have : codeOf [(97, [])] 97 = [] := by decide
      rw [this, List.append_nil, fillBuffer_empty_code_diverges]

/-- C6, as the code has it: the table that `CountTable` builds has unique keys, and its
entries are exactly the pairs of a byte value in `0..127` that occurs in the input and the
number of its occurrences reduced to the 32 bits of an `int`. When no byte value of
`0..127` occurs more than `2^31 - 1` times, each count is the number of occurrences, and
the counts sum to the number of bytes of the input that are in `0..127`: the other bytes
contribute to no count. -/
theorem countTable_counts (input : List Int) :
    StdMap.Sorted (Wrap.CountTable input) ∧
    (∀ c n, (c, n) ∈ Wrap.CountTable input
      ↔ 0 ≤ c ∧ c ≤ 127 ∧ c ∈ input ∧ n = Wrap.wrapInt (input.count c)) ∧
    ((∀ c, 0 ≤ c → c ≤ 127 → input.count c ≤ 2147483647) →
      (∀ c n, (c, n) ∈ Wrap.CountTable input
        ↔ 0 ≤ c ∧ c ≤ 127 ∧ c ∈ input ∧ n = (input.count c : Int)) ∧
      ((Wrap.CountTable input).map Prod.snd).sum
        = ((input.filter (fun c => decide (0 ≤ c ∧ c ≤ 127))).length : Int)) := by
  refine ⟨wrap_countTable_sorted input, wrap_countTable_mem input, ?_⟩
  intro hcount
  constructor
  · intro c n
    rw [wrap_countTable_mem]
    constructor
    · rintro ⟨h0, h1, h2, h3⟩
      refine ⟨h0, h1, h2, ?_⟩
      rw [h3]
      exact wrapInt_of_range _ (by omega) (by have := hcount c h0 h1; omega)
    · rintro ⟨h0, h1, h2, h3⟩
      refine ⟨h0, h1, h2, ?_⟩
      rw [h3]
      exact (wrapInt_of_range _ (by omega) (by have := hcount c h0 h1; omega)).symm
  · rw [wrap_countTable_exact input hcount]
    have hsum := (countTable_invariant input).2.2
    have hcast : ∀ l : StdMap Int Nat,
        ((l.map (fun e => (e.1, (e.2 : Int)))).map Prod.snd).sum
          = (((l.map Prod.snd).sum : Nat) : Int) := by
      intro l
      induction l with
      | nil => rfl
      | cons a l ih =>
        rw [List.map_cons, List.map_cons, List.sum_cons, ih, List.map_cons, List.sum_cons,
          Nat.cast_add]
    rw [hcast, hsum]
    rfl

/-- Witness of `countTable_counts`: the input `a,a,a,b` followed by two bytes that are not
in `0..127`. -/
theorem countTable_counts_witness :
    (∀ c n, (c, n) ∈ Wrap.CountTable [97, 97, 97, 98, 200, -3]
      ↔ 0 ≤ c ∧ c ≤ 127 ∧ c ∈ ([97, 97, 97, 98, 200, -3] : List Int)
        ∧ n = (([97, 97, 97, 98, 200, -3] : List Int).count c : Int)) ∧
    ((Wrap.CountTable [97, 97, 97, 98, 200, -3]).map Prod.snd).sum
      = ((([97, 97, 97, 98, 200, -3] : List Int).filter
          (fun c => decide (0 ≤ c ∧ c ≤ 127))).length : Int) :=
  (countTable_counts [97, 97, 97, 98, 200, -3]).2.2
    (fun c _ _ => le_trans (List.count_le_length _ _) (by decide))

/-- C6 fails on the code: on an input of `2^31` bytes of the value `0`, all in `0..127`,
the byte `0` occurs `2^31` times, and `CountTable` maps it to `-2^31`. -/
theorem countTable_count_wraps :
    (∀ c ∈ List.replicate 2147483648 (0 : Int), 0 ≤ c ∧ c ≤ 127) ∧
    (List.replicate 2147483648 (0 : Int)).count 0 = 2147483648 ∧
    Wrap.CountTable (List.replicate 2147483648 0) = [(0, -2147483648)] := by
  refine ⟨?_, List.count_replicate_self 0 2147483648, ?_⟩
  · intro c hc
    rw [(List.mem_replicate.mp hc).2]
    exact ⟨le_refl _, by decide⟩
  · rw [wrap_countTable_replicate 0 (le_refl _) (by decide) 2147483648 (by decide)]
    have : Wrap.wrapInt ((2147483648 : Nat) : Int) = -2147483648 := by
      unfold Wrap.wrapInt
      omega
    rw [this]

/-- C7, as the code has it: `encode` reads the table with `operator[]`, which yields the
empty code for a byte without entry and reports nothing; the result of `encode` is the one
that the table in which that byte has the empty code gives. -/
theorem encode_missing_entry_empty_code (fuel : Nat) (input : List Int)
    (encodeTable : StdMap Int (List Char)) (c : Int)
    (h : StdMap.find encodeTable c = none) :
    codeOf encodeTable c = [] ∧
    encode fuel input encodeTable = encode fuel input (StdMap.assign encodeTable c []) := by
  refine ⟨by simp [codeOf, StdMap.readOrDefault, h], ?_⟩
  unfold encode
  exact (encodeLoop_congr (codeOf_assign_empty h) fuel input []).symm

/-- Witness of `encode_missing_entry_empty_code`: the byte `b` in the table of `a` alone. -/
theorem encode_missing_entry_empty_code_witness :
    StdMap.find ([(97, ['0'])] : StdMap Int (List Char)) 98 = none ∧
    codeOf [(97, ['0'])] 98 = [] ∧
    encode 9 [98, 97, 97, 97, 97, 97, 97, 97, 97] [(97, ['0'])]
      = encode 9 [98, 97, 97, 97, 97, 97, 97, 97, 97] (StdMap.assign [(97, ['0'])] 98 []) :=
  ⟨by decide, encode_missing_entry_empty_code 9 _ [(97, ['0'])] 98 (by decide)⟩

/-- C7 fails on the code: the input `b,a,a,a,a,a,a,a,a` has the byte `b`, which has no
entry in the table `a ↦ 0`, and `encode` produces the stream of the one byte `0`. -/
theorem encode_missing_entry_not_fatal :
    (∃ c ∈ ([98, 97, 97, 97, 97, 97, 97, 97, 97] : List Int),
      StdMap.find ([(97, ['0'])] : StdMap Int (List Char)) c = none) ∧
    encode 9 [98, 97, 97, 97, 97, 97, 97, 97, 97] [(97, ['0'])] = some [0] :=
  ⟨⟨98, by decide, by decide⟩, by decide⟩

/-- C8 at a frequency table of one entry: the loop of `buildTree` is not entered, `root` is
never assigned and `preorderEncode` is called on an indeterminate pointer, so that no code
is assigned; on the leaf itself `preorderEncode` would assign the empty code. -/
theorem single_entry_root_indeterminate (pq : PriorityQueue) (c : Int) (n : Nat) :
    encodeTableOfQueue pq (populateQueue pq [(c, n)]) = .error .indeterminateRoot ∧
    preorderEncode (HuffmanNode.leaf c n) [] [] = .ok [(c, [])] := by
  refine ⟨?_, rfl⟩
  have h := encodeTableOfQueue_spec pq (populateQueue pq [(c, n)]) (isTree_populateQueue pq _)
  rw [size_populateQueue] at h
  exact h.2 (by simp)

/-- C9: the input `a,a,a,b` has the frequency table `{a: 3, b: 1}`; the tree has the two
leaves `b` and `a`; the encode table is `{a: "0", b: "1"}` or `{a: "1", b: "0"}`; the
encoded stream is one byte, whose four leading bits are the codes of `a,a,a,b` in order;
the decoder's matching loop turns these four bits into `a,a,a,b`. -/
theorem scenario_aaab (pq : PriorityQueue) :
    CountTable [97, 97, 97, 98] = [(97, 3), (98, 1)] ∧
    (buildTree pq (populateQueue pq [(97, 3), (98, 1)]) none).map Prod.snd
      = some (some (HuffmanNode.internal 4 (HuffmanNode.leaf 98 1) (HuffmanNode.leaf 97 3))) ∧
    ∃ encodeTable byte,
      HuffmanTree pq [97, 97, 97, 98] = .ok encodeTable ∧
      (encodeTable = [(97, ['0']), (98, ['1'])] ∨ encodeTable = [(97, ['1']), (98, ['0'])]) ∧
      (∃ fuel, encode fuel [97, 97, 97, 98] encodeTable = some [byte]) ∧
      (expandByte (charOfByte byte)).take 4
        = ([97, 97, 97, 98] : List Int).flatMap (codeOf encodeTable) ∧
      matchLoop (getDecodeTable encodeTable) ((expandByte (charOfByte byte)).take 4) [] 0
        = ([97, 97, 97, 98], 4) := by
  refine ⟨by decide, ?_, [(97, ['1']), (98, ['0'])], 224, ?_, Or.inr rfl, ⟨8, by decide⟩,
    by decide, by decide⟩
  · have hperm : (pq.elems (populateQueue pq [(97, 3), (98, 1)])).Perm
        (populateQueue listQueue [(97, 3), (98, 1)]) :=
      (elems_populateQueue pq _).trans (elems_populateQueue listQueue _).symm
    have h := buildTreeLoop_noTies pq 2 _ _ none hperm (by decide)
    unfold buildTree
    rw [size_populateQueue]
    exact h.trans (by decide)
  · rw [huffmanTree_noTies pq [97, 97, 97, 98] (by decide)]
    rfl

/-- C10: the empty input yields the empty frequency table; `encode` on the empty input
emits the empty stream for every encode table (and every fuel); `decode` on the empty
stream emits the empty output for every decode table. -/
theorem empty_boundary :
    CountTable [] = [] ∧
    (∀ (encodeTable : StdMap Int (List Char)) (fuel : Nat),
      encode fuel [] encodeTable = some []) ∧
    (∀ decodeTable : StdMap (List Char) Int, decode [] decodeTable = []) ∧
    decode [] [] = [] := by
  refine ⟨rfl, ?_, fun _ => rfl, rfl⟩
  intro encodeTable fuel
  cases fuel <;> rfl

/-- C11 at the input `a`, for every priority queue: the count table has the one entry of
`a`, the loop of `buildTree` is not entered and `root` stays indeterminate, so that
`HuffmanTree` derives no table and the byte `a` gets no entry. -/
theorem single_byte_input_no_table (pq : PriorityQueue) :
    CountTable [97] = [(97, 1)] ∧
    HuffmanTree pq [97] = .error .indeterminateRoot ∧
    ∀ encodeTable, HuffmanTree pq [97] ≠ .ok encodeTable := by
  have h : HuffmanTree pq [97] = .error .indeterminateRoot :=
    (huffmanTree_spec pq [97]).2 (by decide)
  refine ⟨by decide, h, ?_⟩
  intro encodeTable he
  rw [h] at he
  exact absurd he (by simp)

/-- C14: for every frequency table with at least two entries, `buildTree` assigns a root
below which every node has no child or two, and `preorderEncode` returns from that root
with a table, that is, neither `isLeaf` nor `getCharacter` raises its error. -/
theorem built_tree_full_binary (pq : PriorityQueue) (counts : StdMap Int Nat)
    (h2 : 2 ≤ counts.length) :
    ∃ q r, buildTree pq (populateQueue pq counts) none = some (q, some r) ∧
      FullBinary r ∧
      ∃ encodeTable, preorderEncode r [] [] = .ok encodeTable := by
  obtain ⟨q, r, hrun⟩ := buildTree_assigns pq counts h2
  obtain ⟨-, htree, -, -, -⟩ := buildTree_root pq counts q r hrun
  exact ⟨q, r, hrun, fullBinary_of_isTree htree, _, preorderEncode_isTree htree [] []⟩

/-- Witness of `built_tree_full_binary`: the frequency table of `a,a,a,b`. -/
theorem built_tree_full_binary_witness :
    ∃ q r, buildTree listQueue (populateQueue listQueue [(97, 3), (98, 1)]) none
        = some (q, some r) ∧
      FullBinary r ∧
      ∃ encodeTable, preorderEncode r [] [] = .ok encodeTable :=
  built_tree_full_binary listQueue [(97, 3), (98, 1)] (by decide)

/-- C15: in the tree that `buildTree` builds from the count table of an input, the count
of every internal node is the sum of the counts of its two children, hence the sum of the
counts of the leaves below it, and the count of the root is the sum of all the counts of
the table, which is the number of bytes of the input in `0..127`. Such a tree is built
whenever the table has two entries or more. -/
theorem weight_invariant (pq : PriorityQueue) (input : List Int) :
    (2 ≤ (CountTable input).length →
      ∃ q r, buildTree pq (populateQueue pq (CountTable input)) none = some (q, some r)) ∧
    ∀ q r, buildTree pq (populateQueue pq (CountTable input)) none = some (q, some r) →
      WeightOK r ∧ LeafSums r ∧
      r.getCount = ((CountTable input).map Prod.snd).sum ∧
      r.getCount = (input.filter (fun c => decide (0 ≤ c ∧ c ≤ 127))).length := by
  refine ⟨buildTree_assigns pq _, ?_⟩
  intro q r hrun
  obtain ⟨-, htree, -, hw, hperm⟩ := buildTree_root pq _ q r hrun
  have hsum : r.getCount = ((CountTable input).map Prod.snd).sum := by
    rw [getCount_eq_leafSum htree hw]
    exact (hperm.map Prod.snd).sum_eq
  refine ⟨hw, leafSums_of_weightOK htree hw, hsum, ?_⟩
  rw [hsum]
  exact (countTable_invariant input).2.2

/-- Witness of `weight_invariant`: the input `a,a,a,b`, whose root has the count four. -/
theorem weight_invariant_witness :
    ∃ q r, buildTree listQueue (populateQueue listQueue (CountTable [97, 97, 97, 98])) none
        = some (q, some r) ∧
      WeightOK r ∧ LeafSums r ∧ r.getCount = 4 := by
  obtain ⟨q, r, hrun⟩ := (weight_invariant listQueue [97, 97, 97, 98]).1 (by decide)
  obtain ⟨h1, h2, h3, -⟩ := (weight_invariant listQueue [97, 97, 97, 98]).2 q r hrun
  exact ⟨q, r, hrun, h1, h2, h3.trans (by decide)⟩

/-- C16: for every byte value `0..255`, also those that the signed `char` holds as a
negative number, the expansion of the decoder is the string of the eight bits of the byte,
most significant bit first, and the flush computation of the encoder maps that string back
to the byte; and the expansion of the flushed byte of a string of eight characters `0` and
`1` is that string. -/
theorem bit_order_agreement :
    (∀ byte, byte < 256 →
      expandByte (charOfByte byte) = msbBits byte ∧
      byteToFlush (expandByte (charOfByte byte)) = byte ∧
      (128 ≤ byte → charOfByte byte < 0)) ∧
    (∀ bits : List Char, bits.length = 8 → (∀ b ∈ bits, b = '0' ∨ b = '1') →
      expandByte (charOfByte (byteToFlush bits)) = bits) := by
  constructor
  · intro byte hb
    have h1 : expandByte (charOfByte byte) = msbBits byte := by
      rw [expandByte_charOfByte, Nat.mod_eq_of_lt hb]
    refine ⟨h1, ?_, ?_⟩
    · rw [h1]
      exact byteToFlush_msbBits_fin ⟨byte, hb⟩
    · intro h128
      unfold charOfByte
      rw [Nat.mod_eq_of_lt hb, if_neg (by omega)]
      omega
  · intro bits hlen hbin
    rw [expandByte_charOfByte, byteToFlush_eq_msbValue _ (by omega), msbBits_mod,
      msbBits_msbValue _ (by omega) hbin, List.take_of_length_le (by omega)]

/-- Witness of `bit_order_agreement`: the byte `0xE0`, a negative `char`, and its bits. -/
theorem bit_order_agreement_witness :
    (expandByte (charOfByte 224) = msbBits 224 ∧
      byteToFlush (expandByte (charOfByte 224)) = 224 ∧
      (128 ≤ 224 → charOfByte 224 < 0)) ∧
    expandByte (charOfByte (byteToFlush ['1', '1', '1', '0', '0', '0', '0', '0']))
      = ['1', '1', '1', '0', '0', '0', '0', '0'] :=
  ⟨bit_order_agreement.1 224 (by decide),
    bit_order_agreement.2 ['1', '1', '1', '0', '0', '0', '0', '0'] rfl (by decide)⟩

/-- C19: let `encode` end on a non-empty input, with a table whose codes are strings of
`0` and `1`. Then it emits one byte for each iteration of its outer loop, hence at most as
many bytes as the input has, and the bits of the emitted bytes, most significant bit
first, begin the concatenation of the codes of the input followed by some repetitions of
the code of the last byte of the input. -/
theorem encode_actual_output (fuel : Nat) (input : List Int)
    (encodeTable : StdMap Int (List Char)) (output : List Nat) (hne : input ≠ [])
    (hbin : ∀ e ∈ encodeTable, ∀ b ∈ e.2, b = '0' ∨ b = '1')
    (hrun : encode fuel input encodeTable = some output) :
    outerIterations encodeTable fuel input [] = some output.length ∧
    output.length ≤ input.length ∧
    ∃ last k, input.getLast? = some last ∧
      output.flatMap msbBits <+: input.flatMap (codeOf encodeTable)
        ++ (List.replicate k (codeOf encodeTable last)).flatten := by
  obtain ⟨hlen, hiter, -, hpre⟩ := encodeLoop_result encodeTable fuel input [] output hrun
  refine ⟨hiter, hlen, input.getLast hne, ?_⟩
  obtain ⟨k, hk⟩ := hpre (input.getLast hne) (List.getLast?_eq_getLast _ hne)
  refine ⟨k, List.getLast?_eq_getLast _ hne, ?_⟩
  rw [List.nil_append] at hk
  refine (flatMap_isPrefix msbBits hk).trans (packBits_msbBits_le _ ?_)
  intro b hb
  rcases List.mem_append.mp hb with hb | hb
  · obtain ⟨c, -, hc⟩ := List.mem_flatMap.mp hb
    exact codeOf_binary hbin c b hc
  · obtain ⟨l, hl, hbl⟩ := List.mem_flatten.mp hb
    rw [List.eq_of_mem_replicate hl] at hbl
    exact codeOf_binary hbin _ b hbl

/-- Witness of `encode_actual_output`: the input `a,a,a,b` with the table of C9; the byte
`0xE0` holds the four bits `1110` of the codes and four times the code `0` of `b`. -/
theorem encode_actual_output_witness :
    outerIterations [(97, ['1']), (98, ['0'])] 8 [97, 97, 97, 98] [] = some [224].length ∧
    [224].length ≤ ([97, 97, 97, 98] : List Int).length ∧
    ∃ last k, ([97, 97, 97, 98] : List Int).getLast? = some last ∧
      [224].flatMap msbBits
        <+: ([97, 97, 97, 98] : List Int).flatMap (codeOf [(97, ['1']), (98, ['0'])])
          ++ (List.replicate k (codeOf [(97, ['1']), (98, ['0'])] last)).flatten :=
  encode_actual_output 8 [97, 97, 97, 98] [(97, ['1']), (98, ['0'])] [224] (by decide)
    (by decide) (by decide)

/-- C20: `encode` ends for every input and every table that gives the last byte of the
input a non-empty code. It does not end on an input of one repeated byte with the table
that `preorderEncode` derives from a single leaf, in which the code of that byte is empty:
the inner loop never gets eight bits; nor does it end on such an input when the byte has
no entry in the table. -/
theorem encode_termination :
    (∀ (input : List Int) (encodeTable : StdMap Int (List Char)),
      (∀ last, input.getLast? = some last → codeOf encodeTable last ≠ []) →
      ∃ fuel output, encode fuel input encodeTable = some output) ∧
    (∀ (c : Int) (count n : Nat),
      preorderEncode (HuffmanNode.leaf c count) [] [] = .ok [(c, [])] ∧
      (∀ fuel, fillBuffer [(c, [])] fuel (List.replicate n c) c [] = none) ∧
      ∀ fuel, encode fuel (List.replicate (n + 1) c) [(c, [])] = none) ∧
    (∀ (c : Int) (n fuel : Nat), encode fuel (List.replicate (n + 1) c) [] = none) := by
  refine ⟨?_, ?_, ?_⟩
  · intro input encodeTable hlast
    obtain ⟨out, h⟩ := encodeLoop_terminates encodeTable (input.length + 8) input [] hlast
      (le_refl _)
    exact ⟨_, out, h⟩
  · intro c count n
    have hc : codeOf [(c, [])] c = [] := by
      simp [codeOf, StdMap.readOrDefault, StdMap.find]
    exact ⟨rfl, fun fuel => fillBuffer_empty_code_never _ c hc fuel n,
      fun fuel => encode_empty_code_never _ c hc fuel n⟩
  · intro c n fuel
    exact encode_empty_code_never [] c rfl fuel n

/-- Witness of `encode_termination`: the input `a,a,a,b` with the table of C9. -/
theorem encode_termination_witness :
    ∃ fuel output, encode fuel [97, 97, 97, 98] [(97, ['1']), (98, ['0'])] = some output :=
  encode_termination.1 [97, 97, 97, 98] [(97, ['1']), (98, ['0'])] (by decide)

/-- C18: for every input of bytes `0..127` with at least two distinct byte values,
`HuffmanTree` derives a table, `encode` ends with it, and `decode` returns from the encoded
stream an output that is a prefix of the input or has the input as a prefix. -/
theorem round_trip_prefix_comparable (pq : PriorityQueue) (input : List Int)
    (hrange : ∀ c ∈ input, 0 ≤ c ∧ c ≤ 127)
    (hdistinct : ∃ a ∈ input, ∃ b ∈ input, a ≠ b) :
    ∃ encodeTable fuel output, HuffmanTree pq input = .ok encodeTable ∧
      encode fuel input encodeTable = some output ∧
      (decode (output.map charOfByte) (getDecodeTable encodeTable) <+: input ∨
        input <+: decode (output.map charOfByte) (getDecodeTable encodeTable)) := by
  obtain ⟨a, ha, b, hb, hab⟩ := hdistinct
  exact compress_decompress_comparable pq input hrange
    (countTable_two_entries input a b ha hb hab (hrange a ha) (hrange b hb))

/-- Witness of `round_trip_prefix_comparable`: the input `a,a,a,b`, whose output is
`a,a,a,b,b,b,b,b`. -/
theorem round_trip_prefix_comparable_witness :
    ∃ encodeTable fuel output, HuffmanTree listQueue [97, 97, 97, 98] = .ok encodeTable ∧
      encode fuel [97, 97, 97, 98] encodeTable = some output ∧
      (decode (output.map charOfByte) (getDecodeTable encodeTable) <+: [97, 97, 97, 98] ∨
        [97, 97, 97, 98] <+: decode (output.map charOfByte) (getDecodeTable encodeTable)) :=
  round_trip_prefix_comparable listQueue [97, 97, 97, 98] (by decide)
    ⟨97, by decide, 98, by decide, by decide⟩

/-- C12, on the storage modelled from the specification: for every decode table, a map
with its keys in ascending order, `deserializeDecodeTable` returns from the storage that
`serializeDecodeTable` has written a map equal to the table. -/
theorem decode_table_persistence (decodeTable : StdMap (List Char) Int)
    (hsorted : StdMap.Sorted decodeTable) :
    deserializeDecodeTable (serializeDecodeTable decodeTable) = decodeTable :=
  assignAll_sorted_self decodeTable hsorted

/-- Witness of `decode_table_persistence`: the table `{"0": a, "10": b, "11": c}`. -/
theorem decode_table_persistence_witness :
    deserializeDecodeTable
        (serializeDecodeTable [(['0'], 97), (['1', '0'], 98), (['1', '1'], 99)])
      = [(['0'], 97), (['1', '0'], 98), (['1', '1'], 99)] :=
  decode_table_persistence [(['0'], 97), (['1', '0'], 98), (['1', '1'], 99)] (by decide)

/-- C13, as the code has it: for every frequency table with at least two entries whose
counts are not negative and sum to `2^31 - 1` at most, so that no sum of `buildTree`
exceeds an `int`, and for every priority queue, `buildTree` and `preorderEncode` derive a
table in which every two bytes `a` and `b` of the frequency table with
`count(a) > count(b)` have codes, and the code of `a` is no longer than the code of
`b`. -/
theorem frequency_monotone (pq : Wrap.PriorityQueue) (counts : StdMap Int Int)
    (hsorted : StdMap.Sorted counts) (h2 : 2 ≤ counts.length)
    (hpos : ∀ e ∈ counts, 0 ≤ e.2) (hsum : (counts.map Prod.snd).sum ≤ 2147483647) :
    ∃ encodeTable,
      Wrap.encodeTableOfQueue pq (Wrap.populateQueue pq counts) = .ok encodeTable ∧
      ∀ a na b nb, (a, na) ∈ counts → (b, nb) ∈ counts → nb < na →
        ∃ codeA codeB, (a, codeA) ∈ encodeTable ∧ (b, codeB) ∈ encodeTable ∧
          codeA.length ≤ codeB.length := by
  obtain ⟨et, htable, hmono⟩ :=
    frequency_monotone_unbounded (Wrap.unboundedQueue pq)
      (counts.map (fun e => (e.1, e.2.toNat)))
      (sorted_unbounded hsorted) (by rw [List.length_map]; exact h2)
  refine ⟨et, ?_, ?_⟩
  · rw [encodeTableOfQueue_unbounded pq counts hpos hsum]
    exact htable
  · intro a na b nb ha hb hlt
    have hb0 := hpos _ hb
    refine hmono a na.toNat b nb.toNat (List.mem_map.mpr ⟨(a, na), ha, rfl⟩)
      (List.mem_map.mpr ⟨(b, nb), hb, rfl⟩) ?_
    have : (nb : Int) < na := hlt
    omega

/-- Witness of `frequency_monotone`: in the frequency table of `a,a,a,b,c` the byte `a`
has the greater count and no longer a code than `b`. -/
theorem frequency_monotone_witness :
    ∃ encodeTable,
      Wrap.encodeTableOfQueue Wrap.listQueue
          (Wrap.populateQueue Wrap.listQueue [(97, 3), (98, 1), (99, 1)])
        = .ok encodeTable ∧
      ∃ codeA codeB, (97, codeA) ∈ encodeTable ∧ (98, codeB) ∈ encodeTable ∧
        codeA.length ≤ codeB.length := by
  obtain ⟨encodeTable, h1, h⟩ :=
    frequency_monotone Wrap.listQueue [(97, 3), (98, 1), (99, 1)] (by decide) (by decide)
      (by decide) (by decide)
  exact ⟨encodeTable, h1, h 97 3 98 1 (by decide) (by decide) (by decide)⟩

/-- C13 fails on the code: the counts of `overflowCounts` are positive and below `2^31`,
the byte `c` has a greater count than the byte `a`, and for every priority queue the table
that `buildTree` and `preorderEncode` derive gives `c` a code of three characters and `a`
a code of two. -/
theorem frequency_monotone_overflow :
    StdMap.Sorted Wrap.overflowCounts ∧ 2 ≤ Wrap.overflowCounts.length ∧
    (∀ e ∈ Wrap.overflowCounts, 0 < e.2 ∧ e.2 ≤ 2147483647) ∧
    (99, 1073741824) ∈ Wrap.overflowCounts ∧ (97, 536870913) ∈ Wrap.overflowCounts ∧
    (536870913 : Int) < 1073741824 ∧
    ∀ pq : Wrap.PriorityQueue, ∃ encodeTable,
      Wrap.encodeTableOfQueue pq (Wrap.populateQueue pq Wrap.overflowCounts)
        = .ok encodeTable ∧
      StdMap.Sorted encodeTable ∧
      (99, ['0', '0', '0']) ∈ encodeTable ∧ (97, ['1', '0']) ∈ encodeTable ∧
      ['1', '0'].length < ['0', '0', '0'].length := by
  refine ⟨by decide, by decide, by decide, by decide, by decide, by decide, ?_⟩
  intro pq
  exact ⟨Wrap.overflowTable, overflow_table pq, by decide, by decide, by decide, by decide⟩

/-- C17, as the code has it: for every frequency table with at least two entries whose
counts are not negative and sum to `2^31 - 1` at most, so that no sum of `buildTree`
exceeds an `int`, and for every priority queue, whatever it does with equal counts,
`buildTree` and `preorderEncode` derive a table that is a prefix-free binary code for the
bytes of the frequency table, and whose weighted length
`sum of count(byte) * length(code(byte))` is at most that of every prefix-free binary code
for the same bytes. -/
theorem huffman_optimal (pq : Wrap.PriorityQueue) (counts : StdMap Int Int)
    (hsorted : StdMap.Sorted counts) (h2 : 2 ≤ counts.length)
    (hpos : ∀ e ∈ counts, 0 ≤ e.2) (hsum : (counts.map Prod.snd).sum ≤ 2147483647) :
    ∃ encodeTable,
      Wrap.encodeTableOfQueue pq (Wrap.populateQueue pq counts) = .ok encodeTable ∧
      StdMap.Sorted encodeTable ∧ encodeTable.map Prod.fst = counts.map Prod.fst ∧
      (∀ e ∈ encodeTable, ∀ b ∈ e.2, b = '0' ∨ b = '1') ∧ PrefixFree encodeTable ∧
      ∀ other : StdMap Int (List Char), StdMap.Sorted other →
        other.map Prod.fst = counts.map Prod.fst →
        (∀ e ∈ other, ∀ b ∈ e.2, b = '0' ∨ b = '1') → PrefixFree other →
        Wrap.weightedLength counts encodeTable ≤ Wrap.weightedLength counts other := by
  obtain ⟨et, htable, hs, hkeys, hbin, hpf, hmin⟩ :=
    huffman_optimal_unbounded (Wrap.unboundedQueue pq) (counts.map (fun e => (e.1, e.2.toNat)))
      (sorted_unbounded hsorted) (by rw [List.length_map]; exact h2)
  rw [keys_unbounded] at hkeys
  refine ⟨et, ?_, hs, hkeys, hbin, hpf, ?_⟩
  · rw [encodeTableOfQueue_unbounded pq counts hpos hsum]
    exact htable
  · intro other hso hko hbo hpo
    rw [weightedLength_unbounded counts hpos, weightedLength_unbounded counts hpos]
    exact Int.ofNat_le.mpr (hmin other hso (by rw [keys_unbounded]; exact hko) hbo hpo)

/-- Witness of `huffman_optimal`: the frequency table of `a,a,a,b,c` against the code
`a = 00, b = 01, c = 1`, of weighted length nine. -/
theorem huffman_optimal_witness :
    ∃ encodeTable,
      Wrap.encodeTableOfQueue Wrap.listQueue
          (Wrap.populateQueue Wrap.listQueue [(97, 3), (98, 1), (99, 1)])
        = .ok encodeTable ∧
      Wrap.weightedLength [(97, 3), (98, 1), (99, 1)] encodeTable
        ≤ Wrap.weightedLength [(97, 3), (98, 1), (99, 1)]
            [(97, ['0', '0']), (98, ['0', '1']), (99, ['1'])] := by
  obtain ⟨encodeTable, h1, -, -, -, -, h⟩ :=
    huffman_optimal Wrap.listQueue [(97, 3), (98, 1), (99, 1)] (by decide) (by decide)
      (by decide) (by decide)
  exact ⟨encodeTable, h1,
    h [(97, ['0', '0']), (98, ['0', '1']), (99, ['1'])] (by decide) (by decide) (by decide)
      (by unfold PrefixFree; decide)⟩

/-- C17 fails on the code: the counts of `overflowCounts` are positive and below `2^31`,
and for every priority queue the table that `buildTree` and `preorderEncode` derive from
them has a greater weighted length than the prefix-free binary code `shorterTable` for
the same bytes. -/
theorem huffman_optimal_overflow :
    StdMap.Sorted Wrap.overflowCounts ∧ 2 ≤ Wrap.overflowCounts.length ∧
    (∀ e ∈ Wrap.overflowCounts, 0 < e.2 ∧ e.2 ≤ 2147483647) ∧
    StdMap.Sorted Wrap.shorterTable ∧
    Wrap.shorterTable.map Prod.fst = Wrap.overflowCounts.map Prod.fst ∧
    (∀ e ∈ Wrap.shorterTable, ∀ b ∈ e.2, b = '0' ∨ b = '1') ∧
    PrefixFree Wrap.shorterTable ∧
    ∀ pq : Wrap.PriorityQueue, ∃ encodeTable,
      Wrap.encodeTableOfQueue pq (Wrap.populateQueue pq Wrap.overflowCounts)
        = .ok encodeTable ∧
      Wrap.weightedLength Wrap.overflowCounts Wrap.shorterTable
        < Wrap.weightedLength Wrap.overflowCounts encodeTable := by
  refine ⟨by decide, by decide, by decide, by decide, by decide, by decide,
    by unfold PrefixFree; decide, ?_⟩
  intro pq
  exact ⟨Wrap.overflowTable, overflow_table pq, by decide⟩

/-- C21: for every frequency table with `n` entries, two or more, and every priority queue,
`buildTree` and `preorderEncode` derive a table with the keys of the frequency table in
which every code is a non-empty string of `0` and `1` of at most `n - 1` characters. The
bound is attained for every `n`: the table derived from `skewedCounts n`, the keys
`0 .. n-1` with the counts `1, 2, 4, ..`, has a code of `n - 1` characters, so that from
ten entries on a code has more than eight bits. -/
theorem code_length_bounds :
    (∀ (pq : PriorityQueue) (counts : StdMap Int Nat),
      StdMap.Sorted counts → 2 ≤ counts.length →
      ∃ encodeTable, encodeTableOfQueue pq (populateQueue pq counts) = .ok encodeTable ∧
        encodeTable.map Prod.fst = counts.map Prod.fst ∧
        ∀ e ∈ encodeTable, e.2 ≠ [] ∧ (∀ b ∈ e.2, b = '0' ∨ b = '1') ∧
          e.2.length ≤ counts.length - 1) ∧
    (∀ (pq : PriorityQueue) (n : Nat), 2 ≤ n →
      StdMap.Sorted (skewedCounts n) ∧ (skewedCounts n).length = n ∧
      (∀ e ∈ skewedCounts n, 0 ≤ e.1 ∧ e.1 < n ∧ 0 < e.2 ∧ e.2 < 2 ^ n) ∧
      ∃ encodeTable,
        encodeTableOfQueue pq (populateQueue pq (skewedCounts n)) = .ok encodeTable ∧
        ∃ e ∈ encodeTable, e.2.length = n - 1 ∧ (10 ≤ n → 8 < e.2.length)) := by
  constructor
  · intro pq counts hsorted h2
    obtain ⟨et, htable, hcodes⟩ := huffman_code_lengths pq counts h2
    obtain ⟨et', -, htable', -, hkeys, -⟩ := huffman_table_cost pq counts hsorted h2
    have heq : et' = et := by
      rw [htable] at htable'
      exact (Except.ok.inj htable').symm
    rw [heq] at hkeys
    exact ⟨et, htable, hkeys, hcodes⟩
  · intro pq n h2
    refine ⟨skewedCounts_sorted n, length_skewedCounts n, ?_, ?_⟩
    · intro e he
      obtain ⟨i, hi, rfl⟩ := List.mem_map.mp he
      have hin : i < n := List.mem_range.mp hi
      refine ⟨by simp, by simpa using hin, Nat.pow_pos (by decide), ?_⟩
      exact Nat.pow_lt_pow_right (by decide) hin
    · obtain ⟨et, htable, e, he, hlen⟩ := skewedCounts_longest pq n h2
      exact ⟨et, htable, e, he, hlen, fun h10 => by omega⟩

/-- Witness of `code_length_bounds`: the frequency table of `a,a,a,b,c`, whose codes have
one or two characters, and the frequency table `skewedCounts 10`, with a code of nine. -/
theorem code_length_bounds_witness :
    (∃ encodeTable,
      encodeTableOfQueue listQueue (populateQueue listQueue [(97, 3), (98, 1), (99, 1)])
        = .ok encodeTable ∧
      encodeTable.map Prod.fst = [97, 98, 99] ∧
      ∀ e ∈ encodeTable, e.2 ≠ [] ∧ (∀ b ∈ e.2, b = '0' ∨ b = '1') ∧ e.2.length ≤ 2) ∧
    (∃ encodeTable,
      encodeTableOfQueue listQueue (populateQueue listQueue (skewedCounts 10))
        = .ok encodeTable ∧
      ∃ e ∈ encodeTable, e.2.length = 9 ∧ (10 ≤ 10 → 8 < e.2.length)) :=
  ⟨code_length_bounds.1 listQueue [(97, 3), (98, 1), (99, 1)] (by decide) (by decide),
    (code_length_bounds.2 listQueue 10 (by decide)).2.2.2⟩

end Huffman
